import Mathlib

/-!
Verification of the xc-ns-mover core (repository `resources-and-tools`,
directory `tools/xc-ns-mover/src/xc_ns_mover`) against its natural-language
specification.

The Python code is shallowly embedded: Python JSON-like values (the nested
dict / list / scalar documents returned by the XC configuration API) become
the mutually inductive type `PyVal` / `PyList` / `PyDict`; Python `str` is
Lean `String`; remote HTTP calls become explicit oracle functions passed as
arguments (success or an error text); mutation of result dictionaries
becomes explicit state passing.  Every definition is a direct transcription
of the function of the same name in the source tree.
-/

set_option maxHeartbeats 1000000

namespace XCNsMover

/-! ## Python value model

`PyVal` models the JSON-like values Python manipulates in this code base:
strings, integers, booleans, `None`, lists and (insertion-ordered) dicts
with string keys.  `PyList` and `PyDict` are separate inductives so that
all recursion over documents is plain structural recursion. -/

mutual

inductive PyVal where
  | str (s : String)
  | int (n : Int)
  | bool (b : Bool)
  | pynone
  | list (xs : PyList)
  | dict (kvs : PyDict)
deriving DecidableEq

inductive PyList where
  | nil
  | cons (hd : PyVal) (tl : PyList)
deriving DecidableEq

inductive PyDict where
  | nil
  | cons (k : String) (v : PyVal) (tl : PyDict)
deriving DecidableEq

end

/-- Keys of a dict, in insertion order. -/
def PyDict.keys : PyDict → List String
  | .nil => []
  | .cons k _ tl => k :: tl.keys

/-- First-match lookup (Python dicts have unique keys, so first match is
the value of the key). -/
def PyDict.lookup : PyDict → String → Option PyVal
  | .nil, _ => none
  | .cons k v tl, key => if k = key then some v else tl.lookup key

/-- Python `key in d`. -/
def PyDict.hasKey (d : PyDict) (key : String) : Bool :=
  (d.lookup key).isSome

/-- Python `d.get(key, default)`. -/
def PyDict.getD (d : PyDict) (key : String) (dflt : PyVal) : PyVal :=
  (d.lookup key).getD dflt

/-- Python `d[key] = v`: replace the value in place when the key exists,
append the pair otherwise (insertion order is preserved either way). -/
def PyDict.setKey : PyDict → String → PyVal → PyDict
  | .nil, key, v => .cons key v .nil
  | .cons k w tl, key, v =>
    if k = key then .cons k v tl else .cons k w (tl.setKey key v)

/-- Python truthiness for the values this code base tests with `if x:`. -/
def PyVal.truthy : PyVal → Bool
  | .str s => s ≠ ""
  | .int n => n ≠ 0
  | .bool b => b
  | .pynone => false
  | .list .nil => false
  | .list _ => true
  | .dict .nil => false
  | .dict _ => true

/-- Python `x.get(key) or dflt` (used all over the client for
`config.get("spec") or ...`): the dict value when present and truthy,
the default otherwise. -/
def PyDict.getOrTruthy (d : PyDict) (key : String) (dflt : PyVal) : PyVal :=
  match d.lookup key with
  | some v => if v.truthy then v else dflt
  | none => dflt

/-- Convert a `PyList` to a Lean list for iteration. -/
def PyList.toList : PyList → List PyVal
  | .nil => []
  | .cons h t => h :: t.toList

/-- View a `PyVal` as a dict, for code that has already established
`isinstance(obj, dict)`. -/
def PyVal.asDict : PyVal → Option PyDict
  | .dict kvs => some kvs
  | _ => none

/-! ## spec_utils.py -/

/-- `SKIP_NAMESPACES` from spec_utils.py: namespaces whose objects are
never moved. -/
def SKIP_NAMESPACES : List String := ["system", "shared"]

/-- `PATH_KEYWORD_TO_RESOURCE` from spec_utils.py, in dict insertion
order (the order `guess_resource_type` probes the keywords in). -/
def PATH_KEYWORD_TO_RESOURCE : List (String × String) :=
  [("pool", "origin_pools"),
   ("healthcheck", "healthchecks"),
   ("health_check", "healthchecks"),
   ("certificate", "certificates"),
   ("service_polic", "service_policys"),
   ("api_definition", "api_definitions"),
   ("app_firewall", "app_firewalls"),
   ("ip_prefix_set", "ip_prefix_sets"),
   ("rate_limiter", "rate_limiter_policys"),
   ("user_identification", "user_identifications")]

/-- Python `sub in s` for strings (substring test), on char lists. -/
def strContains (s sub : String) : Bool :=
  decide (List.IsInfix sub.data s.data)

/-- Python `s.lower()` (ASCII case folding, which covers every identifier
and domain string this tool handles). -/
def pyLower (s : String) : String :=
  ⟨s.data.map Char.toLower⟩

/-- `guess_resource_type` from spec_utils.py: first keyword of
`PATH_KEYWORD_TO_RESOURCE` contained in the lowered JSON path wins. -/
def guess_resource_type (json_path : String) : Option String :=
  let path_lower := pyLower json_path
  (PATH_KEYWORD_TO_RESOURCE.find? fun kw => strContains path_lower kw.1).map (·.2)

/-- The reference-record test shared by `find_ns_refs` and the rewrite
functions: the key set is exactly one of
`(name, namespace)` / `(name, namespace, tenant)`. -/
def isRefDict (kvs : PyDict) : Bool :=
  kvs.hasKey "namespace" && kvs.hasKey "name" &&
    kvs.keys.all fun k => k = "name" || k = "namespace" || k = "tenant"

mutual

/-- `find_ns_refs` from spec_utils.py.  Returns
`(json_path, object_name, namespace)` triples for every reference record
whose namespace equals `src_namespace` and is not reserved. -/
def find_ns_refs : PyVal → String → String → List (String × PyVal × String)
  | .dict kvs, src_namespace, path =>
    if isRefDict kvs then
      if kvs.getD "namespace" (.str "") = .str src_namespace &&
          decide (src_namespace ∉ SKIP_NAMESPACES) then
        [(path, kvs.getD "name" (.str ""), src_namespace)]
      else []
    else find_ns_refs_dict kvs src_namespace path
  | .list xs, src_namespace, path => find_ns_refs_list xs src_namespace path 0
  | _, _, _ => []

/-- Dict branch of `find_ns_refs`: recurse into every value with path
extended by `.key`. -/
def find_ns_refs_dict : PyDict → String → String → List (String × PyVal × String)
  | .nil, _, _ => []
  | .cons k v tl, src_namespace, path =>
    find_ns_refs v src_namespace (path ++ "." ++ k) ++
      find_ns_refs_dict tl src_namespace path

/-- List branch of `find_ns_refs`: recurse into every element with path
extended by `[index]`. -/
def find_ns_refs_list : PyList → String → String → Nat → List (String × PyVal × String)
  | .nil, _, _, _ => []
  | .cons v tl, src_namespace, path, i =>
    find_ns_refs v src_namespace (path ++ "[" ++ toString i ++ "]") ++
      find_ns_refs_list tl src_namespace path (i + 1)

end

mutual

/-- `rewrite_namespace_refs` from spec_utils.py: deep-copy the document,
rewriting the namespace of every reference record whose namespace equals
`src_namespace` to `dst_namespace`. -/
def rewrite_namespace_refs : PyVal → String → String → PyVal
  | .dict kvs, src_namespace, dst_namespace =>
    if isRefDict kvs then
      if kvs.lookup "namespace" = some (.str src_namespace) then
        .dict (kvs.setKey "namespace" (.str dst_namespace))
      else .dict kvs
    else .dict (rewrite_namespace_refs_dict kvs src_namespace dst_namespace)
  | .list xs, src_namespace, dst_namespace =>
    .list (rewrite_namespace_refs_list xs src_namespace dst_namespace)
  | v, _, _ => v

/-- Dict branch of `rewrite_namespace_refs`. -/
def rewrite_namespace_refs_dict : PyDict → String → String → PyDict
  | .nil, _, _ => .nil
  | .cons k v tl, src_namespace, dst_namespace =>
    .cons k (rewrite_namespace_refs v src_namespace dst_namespace)
      (rewrite_namespace_refs_dict tl src_namespace dst_namespace)

/-- List branch of `rewrite_namespace_refs`. -/
def rewrite_namespace_refs_list : PyList → String → String → PyList
  | .nil, _, _ => .nil
  | .cons v tl, src_namespace, dst_namespace =>
    .cons (rewrite_namespace_refs v src_namespace dst_namespace)
      (rewrite_namespace_refs_list tl src_namespace dst_namespace)

end

/-- Updating an existing key with its current value leaves a dict
unchanged. -/
theorem PyDict.setKey_lookup_self :
    ∀ (d : PyDict) (k : String) (v : PyVal),
      d.lookup k = some v → d.setKey k v = d
  | .nil, k, v, h => by simp [PyDict.lookup] at h
  | .cons k0 v0 tl, k, v, h => by
    by_cases hk : k0 = k
    · subst hk
      simp [PyDict.lookup] at h
      simp [PyDict.setKey, h]
    · simp [PyDict.lookup, hk] at h
      simp [PyDict.setKey, hk, PyDict.setKey_lookup_self tl k v h]

mutual

/-- Rewriting a namespace to itself is the identity, value case. -/
theorem rewrite_id_val (v : PyVal) (ns : String) :
    rewrite_namespace_refs v ns ns = v := by
  cases v with
  | dict kvs =>
    rw [rewrite_namespace_refs]
    by_cases href : isRefDict kvs
    · simp only [href, if_true]
      by_cases hlk : kvs.lookup "namespace" = some (.str ns)
      · simp [hlk, PyDict.setKey_lookup_self kvs "namespace" (.str ns) hlk]
      · simp [hlk]
    · simp [href, rewrite_id_dict kvs ns]
  | list xs =>
    rw [rewrite_namespace_refs]
    rw [rewrite_id_list xs ns]
  | str s => rfl
  | int n => rfl
  | bool b => rfl
  | pynone => rfl

/-- Rewriting a namespace to itself is the identity, dict case. -/
theorem rewrite_id_dict (kvs : PyDict) (ns : String) :
    rewrite_namespace_refs_dict kvs ns ns = kvs := by
  cases kvs with
  | nil => rfl
  | cons k v tl =>
    rw [rewrite_namespace_refs_dict, rewrite_id_val v ns, rewrite_id_dict tl ns]

/-- Rewriting a namespace to itself is the identity, list case. -/
theorem rewrite_id_list (xs : PyList) (ns : String) :
    rewrite_namespace_refs_list xs ns ns = xs := by
  cases xs with
  | nil => rfl
  | cons v tl =>
    rw [rewrite_namespace_refs_list, rewrite_id_val v ns, rewrite_id_list tl ns]

end

/-- Claim C8: for every document and namespace, `rewrite_namespace_refs`
with source namespace equal to destination namespace returns the document
unchanged, and therefore `find_ns_refs` run on the rewritten document
yields exactly the refs of the original document. -/
theorem claim_C8_rewrite_roundtrip (doc : PyVal) (ns : String) :
    rewrite_namespace_refs doc ns ns = doc ∧
      find_ns_refs (rewrite_namespace_refs doc ns ns) ns "" = find_ns_refs doc ns "" := by
  refine ⟨rewrite_id_val doc ns, ?_⟩
  rw [rewrite_id_val doc ns]

/-! ## client.py: certificate portability (`XCClient.is_cert_portable`) -/

/-- The `secret_types` table from `is_cert_portable`, in dict insertion
order. -/
def secret_types : List (String × String) :=
  [("blindfold_secret_info", "private key (blindfolded)"),
   ("clear_secret_info", "private key (clear secret)"),
   ("vault_secret_info", "private key (vault reference)"),
   ("wingman_secret_info", "private key (wingman)")]

/-- `XCClient.is_cert_portable` from client.py.  `Except.error` models the
Python exception raised when `spec` or `private_key` is a truthy
non-dict value (the code immediately calls `.get` on it, or tests `in`
on it); the API only ever returns sub-documents (dicts) there, and the
claim only speaks of sub-documents. -/
def is_cert_portable (cert_config : PyDict) : Except String (Bool × String) :=
  match (cert_config.getOrTruthy "spec" (.dict .nil)).asDict with
  | none => .error "AttributeError: spec is not a mapping"
  | some spec =>
    match (spec.getOrTruthy "private_key" (.dict .nil)).asDict with
    | none => .error "TypeError: private_key is not a mapping"
    | some pk =>
      match secret_types.find? fun p => pk.hasKey p.1 && (pk.getD p.1 .pynone).truthy with
      | some p => .ok (false, p.2)
      | none =>
        if (PyVal.dict pk).truthy then .ok (false, "private key (unknown type)")
        else .ok (true, "")

/-- When `x.get(key) or {}` produces (a dict view of) `pk` and the raw
value at `key` is truthy, the raw value is exactly the dict `pk`, and it
is truthy. -/
theorem getOrTruthy_asDict_of_truthy (d : PyDict) (key : String) (pk : PyDict)
    (hpk : (d.getOrTruthy key (.dict .nil)).asDict = some pk)
    (htr : (d.getD key .pynone).truthy = true) :
    d.lookup key = some (.dict pk) ∧ (PyVal.dict pk).truthy = true := by
  cases hlk : d.lookup key with
  | none => rw [PyDict.getD, hlk] at htr; simp [PyVal.truthy] at htr
  | some v =>
    rw [PyDict.getD, hlk] at htr
    simp at htr
    rw [PyDict.getOrTruthy, hlk] at hpk
    simp only [htr, if_true] at hpk
    cases v with
    | dict kvs => simp [PyVal.asDict] at hpk; subst hpk; exact ⟨by simp [hlk], htr⟩
    | str s => simp [PyVal.asDict] at hpk
    | int n => simp [PyVal.asDict] at hpk
    | bool b => simp [PyVal.asDict] at hpk
    | pynone => simp [PyVal.asDict] at hpk
    | list xs => simp [PyVal.asDict] at hpk

/-- When `x.get(key) or {}` produces (a dict view of) `pk` and the raw
value at `key` is absent or falsy, `pk` is the empty dict. -/
theorem getOrTruthy_asDict_of_falsy (d : PyDict) (key : String) (pk : PyDict)
    (hpk : (d.getOrTruthy key (.dict .nil)).asDict = some pk)
    (htr : (d.getD key .pynone).truthy = false) :
    pk = .nil := by
  cases hlk : d.lookup key with
  | none =>
    rw [PyDict.getOrTruthy, hlk] at hpk
    simp [PyVal.asDict] at hpk
    exact hpk.symm
  | some v =>
    rw [PyDict.getD, hlk] at htr
    simp at htr
    rw [PyDict.getOrTruthy, hlk] at hpk
    simp only [htr, if_false] at hpk
    simp [PyVal.asDict] at hpk
    exact hpk.symm

/-- Claim C10: `is_cert_portable` reports a certificate as portable —
`(True, "")` — exactly when its `spec.private_key` sub-document is
absent, empty, or falsy; and a certificate whose `private_key` is
non-empty (truthy) but contains none of the four named opaque secret
fields is reported non-portable with reason
`private key (unknown type)`. -/
theorem claim_C10_is_cert_portable (cert_config : PyDict) (spec pk : PyDict)
    (hspec : (cert_config.getOrTruthy "spec" (.dict .nil)).asDict = some spec)
    (hpk : (spec.getOrTruthy "private_key" (.dict .nil)).asDict = some pk) :
    (is_cert_portable cert_config = .ok (true, "") ↔
      (spec.getD "private_key" .pynone).truthy = false) ∧
    ((spec.getD "private_key" .pynone).truthy = true →
      (∀ p ∈ secret_types, pk.hasKey p.1 = false) →
      is_cert_portable cert_config = .ok (false, "private key (unknown type)")) := by
  have hrun : is_cert_portable cert_config =
      (match secret_types.find? fun p => pk.hasKey p.1 && (pk.getD p.1 .pynone).truthy with
       | some p => .ok (false, p.2)
       | none =>
         if (PyVal.dict pk).truthy then .ok (false, "private key (unknown type)")
         else .ok (true, "")) := by
    rw [is_cert_portable]
    simp only [hspec, hpk]
  constructor
  · constructor
    · intro h
      rw [hrun] at h
      by_contra htr
      simp only [Bool.not_eq_false] at htr
      have hd := (getOrTruthy_asDict_of_truthy spec "private_key" pk hpk htr).2
      cases hfind : secret_types.find? fun p => pk.hasKey p.1 && (pk.getD p.1 .pynone).truthy with
      | some p => rw [hfind] at h; simp at h
      | none => rw [hfind] at h; rw [if_pos hd] at h; simp at h
    · intro h
      have hpknil := getOrTruthy_asDict_of_falsy spec "private_key" pk hpk h
      subst hpknil
      rw [hrun]
      simp [secret_types, List.find?, PyDict.hasKey, PyDict.lookup, PyVal.truthy]
  · intro htr hnone
    rw [hrun]
    have hfind : (secret_types.find? fun p => pk.hasKey p.1 && (pk.getD p.1 .pynone).truthy) = none := by
      rw [List.find?_eq_none]
      intro p hp
      simp [hnone p hp]
    rw [hfind]
    rw [if_pos (getOrTruthy_asDict_of_truthy spec "private_key" pk hpk htr).2]

/-- Witness for claim C10 at a concrete certificate whose private key
holds an unrecognised field: the theorem applies and reports
non-portability with the unknown-type reason. -/
theorem claim_C10_witness :
    is_cert_portable
      (.cons "spec"
        (.dict (.cons "private_key" (.dict (.cons "some_future_secret" (.str "x") .nil)) .nil))
        .nil) =
      .ok (false, "private key (unknown type)") := by
  exact (claim_C10_is_cert_portable _
    (.cons "private_key" (.dict (.cons "some_future_secret" (.str "x") .nil)) .nil)
    (.cons "some_future_secret" (.str "x") .nil)
    (by decide) (by decide)).2 (by decide) (by decide)

/-! ## client.py: certificate domain matching (`XCClient.domain_matches_cert`)

Python `str` values are modeled as their character lists in this part so
the slicing arithmetic of the source is explicit. -/

/-- Python `s.lower()` on a char list (ASCII case folding). -/
def lowerL (s : List Char) : List Char := s.map Char.toLower

/-- Python `s.strip(ch)`: remove every leading and trailing occurrence of
`ch`. -/
def stripCharL (ch : Char) (s : List Char) : List Char :=
  ((s.dropWhile (· = ch)).reverse.dropWhile (· = ch)).reverse

/-- The canonical form `domain.lower().strip(".")` the matcher computes
for both sides. -/
def canonDomain (s : List Char) : List Char := stripCharL '.' (lowerL s)

/-- `XCClient.domain_matches_cert` from client.py: exact match after
canonicalisation, or RFC 6125 style single-label wildcard match. -/
def domain_matches_cert (domain : List Char) (cert_domains : List (List Char)) : Bool :=
  let d := stripCharL '.' (lowerL domain)
  cert_domains.any fun cert_domain =>
    let cd := stripCharL '.' (lowerL cert_domain)
    if cd = d then true
    else if decide (List.IsPrefix ['*', '.'] cd) then
      let wildcard_base := cd.drop 2
      if decide (List.IsSuffix ('.' :: wildcard_base) d) then
        let labelPart := d.take (d.length - (wildcard_base.length + 1))
        decide (labelPart ≠ []) && !(labelPart.contains '.')
      else false
    else false

/-- Characterisation of `l.contains` used below. -/
theorem bnot_contains_iff (l : List Char) (c : Char) : ((!(l.contains c)) = true) ↔ c ∉ l := by
  simp

/-- The wildcard branch of the matcher holds exactly when the canonical
domain is one extra non-empty dot-free label in front of the base. -/
theorem wildcard_branch_iff (d base : List Char) :
    ((if decide (List.IsSuffix ('.' :: base) d) then
        decide (d.take (d.length - (base.length + 1)) ≠ []) &&
          !((d.take (d.length - (base.length + 1))).contains '.')
      else false) = true) ↔
      ∃ l, l ≠ [] ∧ '.' ∉ l ∧ d = l ++ '.' :: base := by
  constructor
  · intro h
    by_cases hs : List.IsSuffix ('.' :: base) d
    · rw [if_pos (decide_eq_true hs)] at h
      obtain ⟨t, ht⟩ := hs
      have hlen : d.length - (base.length + 1) = t.length := by
        rw [← ht]
        simp [List.length_append]
      rw [hlen, ← ht, List.take_left] at h
      simp only [Bool.and_eq_true, decide_eq_true_eq] at h
      exact ⟨t, h.1, (bnot_contains_iff t '.').mp h.2, ht.symm⟩
    · rw [if_neg (by simpa using hs)] at h
      exact absurd h (by simp)
  · rintro ⟨l, hne, hdot, rfl⟩
    have hs : List.IsSuffix ('.' :: base) (l ++ '.' :: base) := ⟨l, rfl⟩
    rw [if_pos (decide_eq_true hs)]
    have hlen : (l ++ '.' :: base).length - (base.length + 1) = l.length := by
      simp [List.length_append]
    rw [hlen, List.take_left]
    simp only [Bool.and_eq_true, decide_eq_true_eq]
    exact ⟨hne, (bnot_contains_iff l '.').mpr hdot⟩

/-- Per-candidate characterisation of the matcher body. -/
theorem matchOne_iff (d cd : List Char) :
    ((if cd = d then true
      else if decide (List.IsPrefix ['*', '.'] cd) then
        if decide (List.IsSuffix ('.' :: cd.drop 2) d) then
          decide (d.take (d.length - ((cd.drop 2).length + 1)) ≠ []) &&
            !((d.take (d.length - ((cd.drop 2).length + 1))).contains '.')
        else false
      else false) = true) ↔
      (cd = d ∨ ∃ base l, cd = '*' :: '.' :: base ∧ l ≠ [] ∧ '.' ∉ l ∧ d = l ++ '.' :: base) := by
  by_cases heq : cd = d
  · simp [heq]
  · rw [if_neg heq]
    by_cases hw : List.IsPrefix ['*', '.'] cd
    · rw [if_pos (decide_eq_true hw)]
      obtain ⟨rest, rfl⟩ := hw
      simp only [List.cons_append, List.nil_append] at *
      simp only [List.drop_succ_cons, List.drop_zero]
      rw [wildcard_branch_iff d rest]
      constructor
      · rintro ⟨l, h1, h2, h3⟩
        exact Or.inr ⟨rest, l, rfl, h1, h2, h3⟩
      · rintro (h | ⟨base, l, hbase, h1, h2, h3⟩)
        · exact absurd h heq
        · have hrb : rest = base := by simpa using hbase
          subst hrb
          exact ⟨l, h1, h2, h3⟩
    · rw [if_neg (by simpa using hw)]
      simp only [Bool.false_eq_true, false_iff]
      rintro (h | ⟨base, l, hbase, -, -, -⟩)
      · exact heq h
      · exact hw (hbase ▸ ⟨base, rfl⟩)

/-- Counterexample to claim C7 as stated: the non-wildcard candidate
`a.b` matches the domain `.a.b` (the code strips *leading* dots as well),
yet the two are not equal up to case and trailing dots only. -/
theorem claim_C7_counterexample :
    domain_matches_cert ".a.b".data ["a.b".data] = true ∧
      ¬((lowerL ".a.b".data).reverse.dropWhile (· = '.') =
          (lowerL "a.b".data).reverse.dropWhile (· = '.')) := by
  constructor
  · decide
  · decide

/-- Claim C7 (amended): after canonicalising both sides by lowercasing
and stripping leading and trailing dots, `domain_matches_cert` returns
true iff some candidate either equals the canonical domain, or is a
wildcard `*.base` such that the canonical domain is exactly one extra
non-empty dot-free label in front of `base`; in particular the three
concrete examples of the claim hold. -/
theorem claim_C7_domain_matches_cert (domain : List Char) (cert_domains : List (List Char)) :
    (domain_matches_cert domain cert_domains = true ↔
      ∃ cd ∈ cert_domains,
        canonDomain cd = canonDomain domain ∨
        ∃ base l, canonDomain cd = '*' :: '.' :: base ∧ l ≠ [] ∧ '.' ∉ l ∧
          canonDomain domain = l ++ '.' :: base) ∧
    domain_matches_cert "x.a.b".data ["*.a.b".data] = true ∧
    domain_matches_cert "a.b".data ["*.a.b".data] = false ∧
    domain_matches_cert "y.x.a.b".data ["*.a.b".data] = false := by
  refine ⟨?_, by decide, by decide, by decide⟩
  rw [domain_matches_cert, List.any_eq_true]
  constructor
  · rintro ⟨cd, hmem, hcd⟩
    exact ⟨cd, hmem, (matchOne_iff (canonDomain domain) (canonDomain cd)).mp hcd⟩
  · rintro ⟨cd, hmem, hcd⟩
    exact ⟨cd, hmem, (matchOne_iff (canonDomain domain) (canonDomain cd)).mpr hcd⟩

/-! ## mover/fingerprint.py (`compute_fingerprint`) -/

/-- The ASCII whitespace characters Python `str.strip()` removes (the
Unicode-only whitespace code points never occur in this tool's CSV
files). -/
def isPyWspace (c : Char) : Bool :=
  c = ' ' || c = '\t' || c = '\n' || c = '\x0b' || c = '\x0c' || c = '\r'

/-- Python `line.strip()`. -/
def pyStrip (s : String) : String :=
  ⟨((s.data.dropWhile isPyWspace).reverse.dropWhile isPyWspace).reverse⟩

/-- Python `line.lstrip()`. -/
def pyLstrip (s : String) : String :=
  ⟨s.data.dropWhile isPyWspace⟩

/-- Python `s.startswith(t)`. -/
def pyStartsWith (s t : String) : Bool :=
  decide (List.IsPrefix t.data s.data)

/-- Python `str.splitlines()` for the separators that occur in text
files: `\r\n`, `\n` and `\r` (the exotic Unicode separators Python also
recognises never occur in this tool's CSV input). -/
def splitlinesAux : List Char → List Char → List (List Char)
  | [], acc => if acc.isEmpty then [] else [acc.reverse]
  | '\r' :: '\n' :: rest, acc => acc.reverse :: splitlinesAux rest []
  | '\n' :: rest, acc => acc.reverse :: splitlinesAux rest []
  | '\r' :: rest, acc => acc.reverse :: splitlinesAux rest []
  | c :: rest, acc => splitlinesAux rest (c :: acc)

/-- Python `csv_content.splitlines()`. -/
def pySplitlines (s : String) : List String :=
  (splitlinesAux s.data []).map fun cs => ⟨cs⟩

/-- Lexicographic (code-point) comparison on char lists: Python string
`<=`. -/
def lexLeb : List Char → List Char → Bool
  | [], _ => true
  | _ :: _, [] => false
  | a :: as, b :: bs => if a < b then true else if b < a then false else lexLeb as bs

/-- Python string `<=` (the comparison `sorted` uses). -/
def strLeb (a b : String) : Bool := lexLeb a.data b.data

/-- The filter of `compute_fingerprint`: keep a line iff it strips to
something non-empty and its first non-whitespace character is not
`#`. -/
def keepLine (line : String) : Bool :=
  pyStrip line ≠ "" && !(pyStartsWith (pyLstrip line) "#")

/-- The canonicalised, sorted line list of `compute_fingerprint`:
`sorted(line.strip() for line in lines if line.strip() and not
line.lstrip().startswith("#"))`. -/
def fingerprint_lines (ls : List String) : List String :=
  List.insertionSort (fun a b => strLeb a b = true) ((ls.filter keepLine).map pyStrip)

/-- `compute_fingerprint` from mover/fingerprint.py.  `sha256_hex`
stands for the standard-library primitive
`hashlib.sha256(x.encode()).hexdigest()` (external to this repository);
`csv_content` is the text read from `csv_path` (an unreadable file
yields `""` in the source). -/
def compute_fingerprint (sha256_hex : String → String)
    (tenant target_namespace csv_content : String) : String :=
  let csv_lines := fingerprint_lines (pySplitlines csv_content)
  let fp_input := tenant ++ "|" ++ target_namespace ++ "|" ++ String.intercalate "|" csv_lines
  (sha256_hex fp_input).take 16

theorem lexLeb_total : ∀ a b : List Char, lexLeb a b = true ∨ lexLeb b a = true
  | [], _ => Or.inl rfl
  | _ :: _, [] => Or.inr rfl
  | a :: as, b :: bs => by
    rcases lt_trichotomy a b with h | h | h
    · exact Or.inl (by simp [lexLeb, h])
    · subst h
      rcases lexLeb_total as bs with ih | ih
      · exact Or.inl (by simp [lexLeb, ih])
      · exact Or.inr (by simp [lexLeb, ih])
    · exact Or.inr (by simp [lexLeb, h])

theorem lexLeb_trans : ∀ a b c : List Char,
    lexLeb a b = true → lexLeb b c = true → lexLeb a c = true
  | [], _, _, _, _ => rfl
  | _ :: _, [], _, h, _ => by simp [lexLeb] at h
  | _ :: _, _ :: _, [], _, h => by simp [lexLeb] at h
  | a :: as, b :: bs, c :: cs, hab, hbc => by
    rw [lexLeb] at hab hbc ⊢
    by_cases h1 : a < b
    · by_cases h2 : b < c
      · simp [lt_trans h1 h2]
      · by_cases h3 : c < b
        · rw [if_neg h2, if_pos h3] at hbc
          exact absurd hbc (by simp)
        · have hbceq : b = c := le_antisymm (le_of_not_lt h3) (le_of_not_lt h2)
          subst hbceq
          simp [h1]
    · by_cases h4 : b < a
      · rw [if_neg h1, if_pos h4] at hab
        exact absurd hab (by simp)
      · have habq : a = b := le_antisymm (le_of_not_lt h4) (le_of_not_lt h1)
        subst habq
        rw [if_neg h1, if_neg h1] at hab
        by_cases h2 : a < c
        · simp [h2]
        · by_cases h3 : c < a
          · rw [if_neg h2, if_pos h3] at hbc
            exact absurd hbc (by simp)
          · rw [if_neg h2, if_neg h3] at hbc ⊢
            exact lexLeb_trans as bs cs hab hbc

theorem lexLeb_antisymm : ∀ a b : List Char,
    lexLeb a b = true → lexLeb b a = true → a = b
  | [], [], _, _ => rfl
  | [], _ :: _, _, h => by simp [lexLeb] at h
  | _ :: _, [], h, _ => by simp [lexLeb] at h
  | a :: as, b :: bs, hab, hba => by
    rw [lexLeb] at hab hba
    by_cases h1 : a < b
    · rw [if_neg (lt_asymm h1), if_pos h1] at hba
      exact absurd hba (by simp)
    · by_cases h2 : b < a
      · rw [if_neg h1, if_pos h2] at hab
        exact absurd hab (by simp)
      · have heq : a = b := le_antisymm (le_of_not_lt h2) (le_of_not_lt h1)
        subst heq
        rw [if_neg h1, if_neg h1] at hab hba
        rw [lexLeb_antisymm as bs hab hba]

instance : IsTotal String fun a b => strLeb a b = true :=
  ⟨fun a b => lexLeb_total a.data b.data⟩

instance : IsTrans String fun a b => strLeb a b = true :=
  ⟨fun a b c => lexLeb_trans a.data b.data c.data⟩

instance : IsAntisymm String fun a b => strLeb a b = true :=
  ⟨fun a b h1 h2 => by
    have h := lexLeb_antisymm a.data b.data h1 h2
    cases a
    cases b
    exact congrArg String.mk h⟩

/-- Sorting is invariant under permutation of the input (for the total,
transitive, antisymmetric comparison `strLeb`). -/
theorem fingerprint_lines_perm (ls ls' : List String) (hp : ls.Perm ls') :
    fingerprint_lines ls = fingerprint_lines ls' := by
  apply List.eq_of_perm_of_sorted
    ((List.perm_insertionSort _ _).trans
      (((hp.filter keepLine).map pyStrip).trans (List.perm_insertionSort _ _).symm))
    (List.sorted_insertionSort _ _) (List.sorted_insertionSort _ _)

/-- Claim C6: the fingerprint digest is the first 16 characters of the
hash of `tenant|namespace|sorted-stripped-lines`, it is invariant under
any permutation of the input lines, and inserting or removing a blank or
comment line (first non-whitespace character `#`) does not change it.
(`fingerprint_lines (pySplitlines c)` is exactly the canonicalised line
list the source computes from the CSV text `c`.) -/
theorem claim_C6_fingerprint (sha256_hex : String → String) (tenant ns : String) :
    (∀ csv_content : String,
      compute_fingerprint sha256_hex tenant ns csv_content =
        (sha256_hex (tenant ++ "|" ++ ns ++ "|" ++
          String.intercalate "|" (fingerprint_lines (pySplitlines csv_content)))).take 16) ∧
    (∀ ls ls' : List String, ls.Perm ls' →
      (sha256_hex (tenant ++ "|" ++ ns ++ "|" ++
        String.intercalate "|" (fingerprint_lines ls))).take 16 =
      (sha256_hex (tenant ++ "|" ++ ns ++ "|" ++
        String.intercalate "|" (fingerprint_lines ls'))).take 16) ∧
    (∀ (l₁ l₂ : List String) (c : String),
      pyStrip c = "" ∨ pyStartsWith (pyLstrip c) "#" = true →
      (sha256_hex (tenant ++ "|" ++ ns ++ "|" ++
        String.intercalate "|" (fingerprint_lines (l₁ ++ c :: l₂)))).take 16 =
      (sha256_hex (tenant ++ "|" ++ ns ++ "|" ++
        String.intercalate "|" (fingerprint_lines (l₁ ++ l₂)))).take 16) := by
  refine ⟨fun _ => rfl, ?_, ?_⟩
  · intro ls ls' hp
    rw [fingerprint_lines_perm ls ls' hp]
  · intro l₁ l₂ c hc
    have hkeep : keepLine c = false := by
      rw [keepLine]
      rcases hc with h | h
      · simp [h]
      · simp [h]
    have : (l₁ ++ c :: l₂).filter keepLine = (l₁ ++ l₂).filter keepLine := by
      simp [List.filter_append, List.filter_cons, hkeep]
    rw [fingerprint_lines, fingerprint_lines, this]

/-- Witness for claim C6 at concrete inputs: swapping the two data rows
of a CSV and inserting a comment line leaves the digest unchanged (the
hash primitive is instantiated with the identity function, which the
invariance holds for uniformly). -/
theorem claim_C6_witness :
    compute_fingerprint (fun s => s) "tn" "ns2" "ns1,lb-a\nns1,lb-b\n" =
      compute_fingerprint (fun s => s) "tn" "ns2" "ns1,lb-b\n# note\nns1,lb-a\n" := by
  have h := claim_C6_fingerprint (fun s => s) "tn" "ns2"
  rw [h.1 "ns1,lb-a\nns1,lb-b\n", h.1 "ns1,lb-b\n# note\nns1,lb-a\n"]
  have hsplit1 : pySplitlines "ns1,lb-a\nns1,lb-b\n" = ["ns1,lb-a", "ns1,lb-b"] := by decide
  have hsplit2 : pySplitlines "ns1,lb-b\n# note\nns1,lb-a\n" =
      ["ns1,lb-b", "# note", "ns1,lb-a"] := by decide
  rw [hsplit1, hsplit2]
  have hdrop := h.2.2 ["ns1,lb-b"] ["ns1,lb-a"] "# note" (Or.inr (by decide))
  rw [show (["ns1,lb-b"] ++ "# note" :: ["ns1,lb-a"]) = ["ns1,lb-b", "# note", "ns1,lb-a"] from rfl,
    show (["ns1,lb-b"] ++ ["ns1,lb-a"]) = ["ns1,lb-b", "ns1,lb-a"] from rfl] at hdrop
  rw [hdrop]
  exact h.2.1 ["ns1,lb-a", "ns1,lb-b"] ["ns1,lb-b", "ns1,lb-a"] (by decide)

/-! ## client.py: probing delete (`XCClient.probe_delete_config_object`)
and 409 parsing (`XCClient._parse_409_referrers`)

The two regular expressions of `_parse_409_referrers` are transcribed as
structural matchers.  Pattern 1 is
`(?:referred\s+by|referenced\s+by|referencing)\s+(.*)` with IGNORECASE
under `re.search`; pattern 2 is `(\w+)\s+\[?(\S+?)/(\S+?)\]?(?:,|$|\s)`
under `re.finditer`.  The transcription follows the backtracking
behaviour of the Python engine on these patterns: the greedy runs
(`\w+`, `\s+`) are maximal-munch because the character class following
each of them is disjoint from the run's class; the lazy runs (`\S+?`)
extend one character at a time until the rest of the pattern matches;
`\[?` and `\]?` first try to consume the bracket and fall back to the
empty match. -/

/-- Python regex `\w` (ASCII portion; the referrer kinds and identifiers
this parses are ASCII). -/
def isWordChar (c : Char) : Bool := c.isAlphanum || c = '_'

/-- Case-insensitive literal match (the keyword is given lowercase),
returning the rest of the input. -/
def matchKeywordCI : List Char → List Char → Option (List Char)
  | [], s => some s
  | k :: ks, c :: rest => if c.toLower = k then matchKeywordCI ks rest else none
  | _ :: _, [] => none

/-- Regex `\s+`: require at least one whitespace, consume the maximal
run. -/
def skipWs1 : List Char → Option (List Char)
  | c :: rest => if isPyWspace c then some (rest.dropWhile isPyWspace) else none
  | [] => none

/-- The alternation of pattern 1, alternatives in source order. -/
def matchAlt (s : List Char) : Option (List Char) :=
  (matchKeywordCI "referred".data s |>.bind fun r =>
    skipWs1 r |>.bind fun r => matchKeywordCI "by".data r) <|>
  (matchKeywordCI "referenced".data s |>.bind fun r =>
    skipWs1 r |>.bind fun r => matchKeywordCI "by".data r) <|>
  matchKeywordCI "referencing".data s

/-- `re.search` of pattern 1: leftmost position where the alternation,
one-or-more whitespace, and the greedy up-to-newline capture `(.*)`
match; returns the capture. -/
def searchRefsPart : List Char → Option (List Char)
  | [] => none
  | s@(_ :: rest) =>
    match matchAlt s |>.bind fun r => (skipWs1 r).map fun r2 => r2.takeWhile (· ≠ '\n') with
    | some cap => some cap
    | none => searchRefsPart rest

/-- Lazy `(\S+?)/`: the shortest non-empty run of non-whitespace
characters followed by a literal slash; returns the group and the rest
after the slash. -/
def lazySlashGo (acc : List Char) : List Char → Option (List Char × List Char)
  | [] => none
  | c :: r =>
    if c = '/' then some (acc.reverse, r)
    else if isPyWspace c then none
    else lazySlashGo (c :: acc) r

/-- Entry for `(\S+?)/` (the group must be non-empty). -/
def lazyNonWsUpToSlash : List Char → Option (List Char × List Char)
  | [] => none
  | c :: rest => if isPyWspace c then none else lazySlashGo [c] rest

/-- Regex `(?:,|$|\s)`: a comma, end of input, or one whitespace
character (the capture never contains a newline, so `$` only matches at
the very end). -/
def termCore : List Char → Option (List Char)
  | [] => some []
  | c :: r =>
    if c = ',' then some r
    else if isPyWspace c then some r
    else none

/-- Regex `\]?(?:,|$|\s)`: greedily try to consume a closing bracket
first, fall back to the empty optional. -/
def termAfter : List Char → Option (List Char)
  | [] => some []
  | s@(c :: r2) =>
    if c = ']' then
      match termCore r2 with
      | some r => some r
      | none => termCore s
    else termCore s

/-- Lazy `(\S+?)\]?(?:,|$|\s)` body: extend the group one
non-whitespace character at a time until the tail pattern matches. -/
def lazyTermGo (acc : List Char) : List Char → Option (List Char × List Char)
  | [] => some (acc.reverse, [])
  | s@(c :: r) =>
    match termAfter s with
    | some rest => some (acc.reverse, rest)
    | none => if isPyWspace c then none else lazyTermGo (c :: acc) r

/-- Entry for `(\S+?)\]?(?:,|$|\s)` (the group must be non-empty). -/
def lazyNonWsUpToTerm : List Char → Option (List Char × List Char)
  | [] => none
  | c :: rest => if isPyWspace c then none else lazyTermGo [c] rest

/-- The tail of pattern 2 after `\[?`: the two lazy groups and their
separators. -/
def tryRefFrom (w r : List Char) : Option ((List Char × List Char × List Char) × List Char) :=
  match lazyNonWsUpToSlash r with
  | none => none
  | some (g2, r3) =>
    match lazyNonWsUpToTerm r3 with
    | none => none
    | some (g3, r4) => some ((w, g2, g3), r4)

/-- One attempt of pattern 2 at the current position: returns the three
capture groups and the rest of the input after the match. -/
def matchRefAt (s : List Char) : Option ((List Char × List Char × List Char) × List Char) :=
  let w := s.takeWhile isWordChar
  if w.isEmpty then none
  else
    match skipWs1 (s.dropWhile isWordChar) with
    | none => none
    | some r2 =>
      match r2 with
      | [] => tryRefFrom w r2
      | c :: r2tl =>
        if c = '[' then
          match tryRefFrom w r2tl with
          | some res => some res
          | none => tryRefFrom w r2
        else tryRefFrom w r2

/-- `re.finditer` scan of pattern 2: leftmost, non-overlapping matches.
The fuel only bounds the iteration count; every iteration consumes at
least one character (`matchRefAt_length` below), so the initial fuel
`length + 1` is never exhausted (`finditerGo_fuel`). -/
def finditerGo : Nat → List Char → List (List Char × List Char × List Char)
  | 0, _ => []
  | fuel + 1, s =>
    match matchRefAt s with
    | some (g, rest) => g :: finditerGo fuel rest
    | none =>
      match s with
      | [] => []
      | _ :: rest => finditerGo fuel rest

/-- `re.finditer` of pattern 2 over the whole capture. -/
def finditerRefs (s : List Char) : List (List Char × List Char × List Char) :=
  finditerGo (s.length + 1) s

theorem skipWs1_length (s r : List Char) (h : skipWs1 s = some r) :
    r.length < s.length := by
  cases s with
  | nil => simp [skipWs1] at h
  | cons c rest =>
    rw [skipWs1] at h
    by_cases hc : isPyWspace c
    · rw [if_pos hc] at h
      cases h
      exact Nat.lt_succ_of_le (List.IsSuffix.length_le (List.dropWhile_suffix _))
    · rw [if_neg hc] at h
      cases h

theorem lazySlashGo_length :
    ∀ (acc s g r : List Char), lazySlashGo acc s = some (g, r) → r.length < s.length
  | acc, [], g, r, h => by rw [lazySlashGo] at h; cases h
  | acc, c :: rest, g, r, h => by
    rw [lazySlashGo] at h
    by_cases h1 : c = '/'
    · rw [if_pos h1] at h
      cases h
      exact Nat.lt_succ_self _
    · rw [if_neg h1] at h
      by_cases h2 : isPyWspace c
      · rw [if_pos h2] at h; cases h
      · rw [if_neg h2] at h
        exact Nat.lt_trans (lazySlashGo_length _ rest g r h) (Nat.lt_succ_self _)

theorem lazyNonWsUpToSlash_length (s g r : List Char)
    (h : lazyNonWsUpToSlash s = some (g, r)) : r.length < s.length := by
  cases s with
  | nil => simp [lazyNonWsUpToSlash] at h
  | cons c rest =>
    rw [lazyNonWsUpToSlash] at h
    by_cases h1 : isPyWspace c
    · rw [if_pos h1] at h; cases h
    · rw [if_neg h1] at h
      exact Nat.lt_trans (lazySlashGo_length [c] rest g r h) (Nat.lt_succ_self _)

theorem termCore_length (s r : List Char) (h : termCore s = some r) :
    r.length ≤ s.length := by
  cases s with
  | nil => rw [termCore] at h; cases h; exact Nat.le_refl _
  | cons c rest =>
    rw [termCore] at h
    by_cases h1 : c = ','
    · rw [if_pos h1] at h; cases h; exact Nat.le_succ _
    · rw [if_neg h1] at h
      by_cases h2 : isPyWspace c
      · rw [if_pos h2] at h; cases h; exact Nat.le_succ _
      · rw [if_neg h2] at h; cases h

theorem termAfter_length (s r : List Char) (h : termAfter s = some r) :
    r.length ≤ s.length := by
  cases s with
  | nil => rw [termAfter] at h; cases h; exact Nat.le_refl _
  | cons c rest =>
    rw [termAfter] at h
    by_cases h1 : c = ']'
    · rw [if_pos h1] at h
      cases hc : termCore rest with
      | some r3 =>
        rw [hc] at h
        cases h
        exact Nat.le_trans (termCore_length rest _ hc) (Nat.le_succ _)
      | none =>
        rw [hc] at h
        exact termCore_length _ r h
    · rw [if_neg h1] at h
      exact termCore_length _ r h

theorem lazyTermGo_length :
    ∀ (acc s g r : List Char), lazyTermGo acc s = some (g, r) → r.length ≤ s.length
  | acc, [], g, r, h => by
    rw [lazyTermGo] at h
    cases h
    exact Nat.le_refl _
  | acc, c :: rest, g, r, h => by
    rw [lazyTermGo] at h
    cases hc : termAfter (c :: rest) with
    | some rest2 =>
      rw [hc] at h
      cases h
      exact termAfter_length _ _ hc
    | none =>
      rw [hc] at h
      by_cases h2 : isPyWspace c
      · rw [if_pos h2] at h; cases h
      · rw [if_neg h2] at h
        exact Nat.le_trans (lazyTermGo_length _ rest g r h) (Nat.le_succ _)

theorem lazyNonWsUpToTerm_length (s g r : List Char)
    (h : lazyNonWsUpToTerm s = some (g, r)) : r.length < s.length := by
  cases s with
  | nil => simp [lazyNonWsUpToTerm] at h
  | cons c rest =>
    rw [lazyNonWsUpToTerm] at h
    by_cases h1 : isPyWspace c
    · rw [if_pos h1] at h; cases h
    · rw [if_neg h1] at h
      exact Nat.lt_succ_of_le (lazyTermGo_length [c] rest g r h)

theorem tryRefFrom_length (w r : List Char) (g : List Char × List Char × List Char)
    (rest : List Char) (h : tryRefFrom w r = some (g, rest)) : rest.length < r.length := by
  rw [tryRefFrom] at h
  cases hs : lazyNonWsUpToSlash r with
  | none => rw [hs] at h; exact Option.noConfusion h
  | some p =>
    obtain ⟨g2, r3⟩ := p
    rw [hs] at h
    simp only [] at h
    cases ht : lazyNonWsUpToTerm r3 with
    | none => rw [ht] at h; exact Option.noConfusion h
    | some q =>
      obtain ⟨g3, r4⟩ := q
      rw [ht] at h
      simp only [] at h
      cases h
      exact Nat.lt_trans (lazyNonWsUpToTerm_length r3 g3 rest ht)
        (lazyNonWsUpToSlash_length r g2 r3 hs)

theorem matchRefAt_length (s : List Char) (g : List Char × List Char × List Char)
    (r : List Char) (h : matchRefAt s = some (g, r)) : r.length < s.length := by
  rw [matchRefAt] at h
  by_cases hw : (s.takeWhile isWordChar).isEmpty
  · rw [if_pos hw] at h; exact Option.noConfusion h
  · rw [if_neg hw] at h
    cases hws : skipWs1 (s.dropWhile isWordChar) with
    | none => rw [hws] at h; exact Option.noConfusion h
    | some r2 =>
      rw [hws] at h
      simp only [] at h
      have hr2 : r2.length < s.length :=
        Nat.lt_of_lt_of_le (skipWs1_length _ r2 hws)
          (List.IsSuffix.length_le (List.dropWhile_suffix _))
      cases r2 with
      | nil =>
        have := tryRefFrom_length _ _ g r h
        simp at this
      | cons c r2tl =>
        simp only [] at h
        by_cases hbr : c = '['
        · rw [if_pos hbr] at h
          cases htf : tryRefFrom (s.takeWhile isWordChar) r2tl with
          | some res =>
            rw [htf] at h
            simp only [] at h
            cases h
            exact Nat.lt_trans
              (Nat.lt_trans (tryRefFrom_length _ _ g r htf) (Nat.lt_succ_self _)) hr2
          | none =>
            rw [htf] at h
            simp only [] at h
            exact Nat.lt_trans (tryRefFrom_length _ _ g r h) hr2
        · rw [if_neg hbr] at h
          exact Nat.lt_trans (tryRefFrom_length _ _ g r h) hr2

/-- The finditer fuel is irrelevant beyond the input length: every
iteration consumes at least one character. -/
theorem finditerGo_fuel :
    ∀ (f1 f2 : Nat) (s : List Char), s.length < f1 → s.length < f2 →
      finditerGo f1 s = finditerGo f2 s
  | 0, _, s, h1, _ => absurd h1 (Nat.not_lt_zero _)
  | _ + 1, 0, s, _, h2 => absurd h2 (Nat.not_lt_zero _)
  | f1 + 1, f2 + 1, s, h1, h2 => by
    simp only [finditerGo]
    cases hm : matchRefAt s with
    | some p =>
      obtain ⟨g, rest⟩ := p
      have hlt := matchRefAt_length s g rest hm
      simp only []
      rw [finditerGo_fuel f1 f2 rest
        (Nat.lt_of_lt_of_le hlt (Nat.lt_succ_iff.mp h1))
        (Nat.lt_of_lt_of_le hlt (Nat.lt_succ_iff.mp h2))]
    | none =>
      cases s with
      | nil => rfl
      | cons c rest =>
        exact finditerGo_fuel f1 f2 rest (Nat.lt_succ_iff.mp h1) (Nat.lt_succ_iff.mp h2)

/-- An HTTP response as the probing delete observes it: status code,
decoded JSON body (`none` when `resp.json()` raises), and raw text. -/
structure HttpResponse where
  status : Nat
  jsonBody : Option PyDict
  text : String

/-- A DELETE request: URL and JSON body. -/
structure DeleteRequest where
  url : String
  body : PyDict

/-- The fallback referrer record
`{"kind": "?", "name": "?", "namespace": "?", "raw": ...}`. -/
def rawReferrer (raw : String) : PyDict :=
  .cons "kind" (.str "?") (.cons "name" (.str "?") (.cons "namespace" (.str "?")
    (.cons "raw" (.str raw) .nil)))

/-- A structured referrer record parsed from the 409 message. -/
def parsedReferrer (kind nspace name : String) : PyDict :=
  .cons "kind" (.str kind) (.cons "namespace" (.str nspace)
    (.cons "name" (.str name) .nil))

/-- A JSON value used where the source expects a string (for example
`data.get("message", "") or ""`).  A non-string value is modeled as
`""`: the API only produces strings in those positions, and Python
would raise on anything else. -/
def pyValStr (v : PyVal) : String :=
  match v with
  | .str s => s
  | _ => ""

/-- The structured part of `_parse_409_referrers`: search for the
referrer clause, then extract every `kind ns/name` tuple. -/
def parse_409_structured (msg : String) : List PyDict :=
  match searchRefsPart msg.data with
  | some refs_part =>
    (finditerRefs refs_part).map fun t => parsedReferrer ⟨t.1⟩ ⟨t.2.1⟩ ⟨t.2.2⟩
  | none => []

/-- `XCClient._parse_409_referrers` from client.py (the local `msg` and
`referrers` bindings of the source are inlined). -/
def parse_409_referrers (resp : HttpResponse) : List PyDict :=
  match resp.jsonBody with
  | none => [rawReferrer (resp.text.take 500)]
  | some data =>
    if (parse_409_structured (pyValStr (data.getD "message" (.str "")))).isEmpty then
      [rawReferrer ((pyValStr (data.getD "message" (.str ""))).take 500)]
    else parse_409_structured (pyValStr (data.getD "message" (.str "")))

/-- The URL `probe_delete_config_object` builds. -/
def probe_url (api_url nspace resource_type name : String) : String :=
  api_url ++ "/api/config/namespaces/" ++ nspace ++ "/" ++ resource_type ++ "/" ++ name

/-- The body `probe_delete_config_object` sends:
`fail_if_referred=True` plus name and namespace. -/
def probe_body (nspace name : String) : PyDict :=
  .cons "fail_if_referred" (.bool true)
    (.cons "name" (.str name) (.cons "namespace" (.str nspace) .nil))

/-- `XCClient.probe_delete_config_object` from client.py.  `send` is the
HTTP session (`_delete_raw`); the branches follow the source: parse on
409, empty list on a sub-300 status, `raise_for_status` (modeled as
`Except.error`) on 4xx/5xx, and the trailing `return []` otherwise. -/
def probe_delete_config_object (send : DeleteRequest → HttpResponse)
    (api_url nspace resource_type name : String) : Except Nat (List PyDict) :=
  let resp := send ⟨probe_url api_url nspace resource_type name, probe_body nspace name⟩
  if resp.status = 409 then .ok (parse_409_referrers resp)
  else if resp.status < 300 then .ok []
  else if 400 ≤ resp.status ∧ resp.status < 600 then .error resp.status
  else .ok []

/-- The 409 parser never returns an empty list: when nothing structured
can be extracted it falls back to a single raw-message record. -/
theorem parse_409_referrers_ne_nil (resp : HttpResponse) :
    parse_409_referrers resp ≠ [] := by
  rw [parse_409_referrers]
  cases hj : resp.jsonBody with
  | none => simp
  | some data =>
    simp only []
    by_cases he : (parse_409_structured (pyValStr (data.getD "message" (.str "")))).isEmpty
    · rw [if_pos he]
      simp
    · rw [if_neg he]
      intro hnil
      rw [hnil] at he
      simp at he

/-- Every structured record comes from a `kind ns/name` tuple of the
message. -/
theorem parse_409_structured_shape (msg : String) :
    ∀ d ∈ parse_409_structured msg, ∃ kind nspace name, d = parsedReferrer kind nspace name := by
  intro d hd
  rw [parse_409_structured] at hd
  split at hd
  · simp only [List.mem_map] at hd
    obtain ⟨t, -, ht⟩ := hd
    exact ⟨_, _, _, ht.symm⟩
  · simp at hd

/-- Every record the 409 parser returns is either a structured
`kind / namespace / name` record or the raw fallback record. -/
theorem parse_409_referrers_shape (resp : HttpResponse) :
    ∀ d ∈ parse_409_referrers resp,
      (∃ kind nspace name, d = parsedReferrer kind nspace name) ∨
      (∃ raw, d = rawReferrer raw) := by
  intro d hd
  rw [parse_409_referrers] at hd
  cases hj : resp.jsonBody with
  | none =>
    rw [hj] at hd
    simp at hd
    exact Or.inr ⟨_, hd⟩
  | some data =>
    rw [hj] at hd
    simp only [] at hd
    by_cases he : (parse_409_structured (pyValStr (data.getD "message" (.str "")))).isEmpty
    · rw [if_pos he] at hd
      simp at hd
      exact Or.inr ⟨_, hd⟩
    · rw [if_neg he] at hd
      exact Or.inl (parse_409_structured_shape _ d hd)

/-- Claim C5: `probe_delete_config_object` always sends
`fail_if_referred=true`; on a 409 response it returns the (never empty)
referrer list parsed from the message, each entry a structured
`kind ns/name` record or the raw fallback; on a success status (below
300) it returns the empty list — the probe deleted the object on the
remote side, which the source documents and the callers track; on any
other error status (4xx/5xx) it raises.  (The deletion itself is a
remote side effect outside the client code.) -/
theorem claim_C5_probe_delete (send : DeleteRequest → HttpResponse)
    (api_url nspace resource_type name : String) :
    ((probe_body nspace name).lookup "fail_if_referred" = some (.bool true)) ∧
    (∀ resp, resp = send ⟨probe_url api_url nspace resource_type name,
        probe_body nspace name⟩ →
      (resp.status = 409 →
        probe_delete_config_object send api_url nspace resource_type name =
          .ok (parse_409_referrers resp) ∧
        parse_409_referrers resp ≠ [] ∧
        (∀ d ∈ parse_409_referrers resp,
          (∃ kind ns nm, d = parsedReferrer kind ns nm) ∨ (∃ raw, d = rawReferrer raw))) ∧
      (resp.status < 300 →
        probe_delete_config_object send api_url nspace resource_type name = .ok []) ∧
      (resp.status ≠ 409 → 400 ≤ resp.status → resp.status < 600 →
        probe_delete_config_object send api_url nspace resource_type name =
          .error resp.status)) := by
  refine ⟨rfl, ?_⟩
  rintro resp rfl
  refine ⟨?_, ?_, ?_⟩
  · intro h409
    rw [probe_delete_config_object]
    rw [if_pos h409]
    exact ⟨rfl, parse_409_referrers_ne_nil _, parse_409_referrers_shape _⟩
  · intro h300
    have hne : (send ⟨probe_url api_url nspace resource_type name,
        probe_body nspace name⟩).status ≠ 409 := by omega
    rw [probe_delete_config_object]
    rw [if_neg hne, if_pos h300]
  · intro hne h400 h600
    have h300 : ¬(send ⟨probe_url api_url nspace resource_type name,
        probe_body nspace name⟩).status < 300 := by omega
    rw [probe_delete_config_object]
    rw [if_neg hne, if_neg h300, if_pos ⟨h400, h600⟩]

/-- Witness for claim C5: a concrete 409 response whose message names
two referrers parses to the two structured records. -/
theorem claim_C5_witness :
    probe_delete_config_object
      (fun _ => ⟨409, some (.cons "code" (.int 9) (.cons "message"
        (.str "Cannot delete: referenced by origin_pool ns1/op-shared, http_loadbalancer [ns1/lb-c]")
        .nil)), ""⟩)
      "https://t.example" "ns1" "origin_pools" "op-shared" =
      .ok [parsedReferrer "origin_pool" "ns1" "op-shared",
           parsedReferrer "http_loadbalancer" "ns1" "lb-c"] := by
  have h := (claim_C5_probe_delete
    (fun _ => ⟨409, some (.cons "code" (.int 9) (.cons "message"
      (.str "Cannot delete: referenced by origin_pool ns1/op-shared, http_loadbalancer [ns1/lb-c]")
      .nil)), ""⟩)
    "https://t.example" "ns1" "origin_pools" "op-shared").2 _ rfl
  rw [(h.1 rfl).1]
  exact congrArg Except.ok (by decide)

/-! ## mover/rollback.py (`rollback_batch`)

The remote client becomes a record of oracle functions returning
`Except String` (`.error` is a raised `requests.RequestException` with
its text); the mutated `lb_results` / `dep_results` dicts become
association lists threaded through the fold; every remote call is also
recorded in an operation trace. -/

/-- Association-list lookup (Python dict read). -/
def alookup {K V : Type} [DecidableEq K] : List (K × V) → K → Option V
  | [], _ => none
  | kv :: tl, k => if kv.1 = k then some kv.2 else alookup tl k

/-- Update the value at a key in place; a missing key is a no-op (the
source guards every update with `if key in results`). -/
def updateMap {K V : Type} [DecidableEq K] (m : List (K × V)) (k : K) (f : V → V) :
    List (K × V) :=
  m.map fun kv => if kv.1 = k then (kv.1, f kv.2) else kv

theorem alookup_updateMap_self {K V : Type} [DecidableEq K]
    (m : List (K × V)) (k : K) (f : V → V) :
    alookup (updateMap m k f) k = (alookup m k).map f := by
  induction m with
  | nil => rfl
  | cons kv tl ih =>
    rw [updateMap, List.map_cons]
    by_cases h : kv.1 = k
    · rw [if_pos h]
      rw [alookup, alookup]
      simp [h]
    · rw [if_neg h]
      rw [alookup, alookup, if_neg h, if_neg h]
      exact ih

theorem alookup_updateMap_ne {K V : Type} [DecidableEq K]
    (m : List (K × V)) (k k' : K) (f : V → V) (hne : k' ≠ k) :
    alookup (updateMap m k' f) k = alookup m k := by
  induction m with
  | nil => rfl
  | cons kv tl ih =>
    rw [updateMap, List.map_cons]
    by_cases h : kv.1 = k'
    · rw [if_pos h]
      rw [alookup, alookup]
      simp only []
      rw [if_neg (by rw [h]; exact hne), if_neg (by rw [h]; exact hne)]
      exact ih
    · rw [if_neg h]
      rw [alookup, alookup]
      by_cases h2 : kv.1 = k
      · rw [if_pos h2, if_pos h2]
      · rw [if_neg h2, if_neg h2]
        exact ih

/-- The per-LB move outcome fields `rollback_batch` touches
(`models.MoveResult`). -/
structure MoveResult where
  status : String
  error : String
  cname_new : String
  acme_cname_new : String
deriving DecidableEq

/-- The per-dependency move outcome fields `rollback_batch` touches
(`models.DepMoveResult`). -/
structure DepMoveResult where
  status : String
  error : String
deriving DecidableEq

/-- A remote mutation or read issued by the mover, recorded in order. -/
inductive Op where
  | delete_lb (ns name : String)
  | delete_obj (ns rt name : String)
  | create_obj (ns rt : String) (metadata spec : PyDict)
  | create_lb (ns : String) (metadata spec : PyDict)
  | get_lb (ns name : String)
  | get_obj (ns rt name : String)
  | probe_delete (ns rt name : String)
deriving DecidableEq

/-- The remote client as the mover and rollback see it: each call
either succeeds (with a response document where one is used) or raises
a `requests.RequestException` carrying a message. -/
structure XcEnv where
  delete_http_loadbalancer : String → String → Except String Unit
  delete_config_object : String → String → String → Except String Unit
  create_config_object : String → String → PyDict → PyDict → Except String Unit
  create_http_loadbalancer : String → PyDict → PyDict → Except String Unit
  get_http_loadbalancer : String → String → Except String PyDict
  get_config_object : String → String → String → Except String PyDict
  probe_delete_config_object : String → String → String → Except String (List PyDict)

/-- View a value that the API contract guarantees to be a sub-document
as a dict (every `x.get(...) or {}` in the source is followed by
attribute access, so a truthy non-dict would raise; such values do not
occur in API responses). -/
def pyValDict (v : PyVal) : PyDict :=
  (v.asDict).getD .nil

/-- Python `s.upper()` (ASCII). -/
def pyUpper (s : String) : String :=
  ⟨s.data.map Char.toUpper⟩

/-- `_SPEC_READONLY_FIELDS` from client.py. -/
def SPEC_READONLY_FIELDS : List String :=
  ["auto_cert_info", "cert_state", "dns_info", "host_name", "internet_vip_info",
   "downstream_tls_certificate_expiration_timestamps", "state", "status",
   "http_loadbalancers", "tcp_loadbalancers", "infos"]

/-- Python dict comprehension `{k: v for k, v in d.items() if k not in ks}`. -/
def PyDict.filterNotKeys : PyDict → List String → PyDict
  | .nil, _ => .nil
  | .cons k v tl, ks =>
    if k ∈ ks then tl.filterNotKeys ks else .cons k v (tl.filterNotKeys ks)

/-- `XCClient.clean_metadata` from client.py. -/
def clean_metadata (raw_config : PyDict) (target_namespace : String) : PyDict :=
  let raw_meta := pyValDict (raw_config.getOrTruthy "metadata" (.dict .nil))
  .cons "name" (raw_meta.getD "name" (.str ""))
    (.cons "namespace" (.str target_namespace)
      (.cons "labels" (raw_meta.getOrTruthy "labels" (.dict .nil))
        (.cons "annotations" (raw_meta.getOrTruthy "annotations" (.dict .nil))
          (.cons "description" (raw_meta.getD "description" (.str ""))
            (.cons "disable" (raw_meta.getD "disable" (.bool false)) .nil)))))

/-- `XCClient.clean_spec` from client.py. -/
def clean_spec (raw_config : PyDict) : PyDict :=
  (pyValDict (raw_config.getOrTruthy "spec" (.dict .nil))).filterNotKeys SPEC_READONLY_FIELDS

/-- `XCClient.extract_cname` from client.py: `spec.dns_info[0].dns_name`
or the `spec.host_name` fallback. -/
def extract_cname (lb_config : PyDict) : String :=
  let spec := pyValDict (lb_config.getOrTruthy "spec" (.dict .nil))
  match spec.getOrTruthy "dns_info" (.list .nil) with
  | .list (.cons first _) =>
    let cname := pyStrip (pyValStr ((pyValDict first).getOrTruthy "dns_name" (.str "")))
    if cname ≠ "" then cname else pyValStr (spec.getD "host_name" (.str ""))
  | _ => pyValStr (spec.getD "host_name" (.str ""))

/-- The record loop of `extract_acme_cname`: the first CNAME record
with a non-blank value. -/
def acmeRecordLoop : List PyVal → String
  | [] => ""
  | r :: rest =>
    match r.asDict with
    | some rd =>
      if pyUpper (pyValStr (rd.getD "type" (.str ""))) = "CNAME" then
        let val := pyStrip (pyValStr (rd.getOrTruthy "value" (.str "")))
        if val ≠ "" then val else acmeRecordLoop rest
      else acmeRecordLoop rest
    | none => acmeRecordLoop rest

/-- `XCClient.extract_acme_cname` from client.py. -/
def extract_acme_cname (lb_config : PyDict) : String :=
  let spec := pyValDict (lb_config.getOrTruthy "spec" (.dict .nil))
  let auto_cert := pyValDict (spec.getOrTruthy "auto_cert_info" (.dict .nil))
  match auto_cert.getOrTruthy "dns_records" (.list .nil) with
  | .list xs => acmeRecordLoop xs.toList
  | _ => acmeRecordLoop []

/-- Step 3 of `rollback_batch`: re-create every deleted dependency in
the source namespace (called on the reversed delete list).  Each item
issues its create call unconditionally — a failure only updates that
item's result and the loop continues. -/
def rollbackDeps (env : XcEnv) (src_ns : String) :
    List (String × String × PyDict) → List ((String × String) × DepMoveResult) →
      List Op × List ((String × String) × DepMoveResult)
  | [], res => ([], res)
  | (resource_type, dep_name, dep_config) :: rest, res =>
    let metadata := clean_metadata dep_config src_ns
    let spec := clean_spec dep_config
    let res' :=
      match env.create_config_object src_ns resource_type metadata spec with
      | .ok _ =>
        updateMap res (resource_type, dep_name)
          fun r => { r with status := "reverted", error := "" }
      | .error exc =>
        updateMap res (resource_type, dep_name)
          fun r => { r with error := r.error ++ " | ROLLBACK FAILED: " ++ exc }
    let next := rollbackDeps env src_ns rest res'
    (Op.create_obj src_ns resource_type metadata spec :: next.1, next.2)

/-- Step 4 of `rollback_batch`: re-create every deleted LB in the
source namespace (called on the reversed delete list).  On success the
status becomes `reverted` and — when the LB has a result entry — the
restored LB is fetched once to refresh its CNAMEs; on failure the
error text is appended. -/
def rollbackLbs (env : XcEnv) (src_ns : String) :
    List (String × PyDict) → List (String × MoveResult) →
      List Op × List (String × MoveResult)
  | [], res => ([], res)
  | (lb_name, lb_config) :: rest, res =>
    let metadata := clean_metadata lb_config src_ns
    let spec := clean_spec lb_config
    let step :=
      match env.create_http_loadbalancer src_ns metadata spec with
      | .ok _ =>
        let resA := updateMap res lb_name fun r => { r with status := "reverted" }
        if (alookup res lb_name).isSome then
          match env.get_http_loadbalancer src_ns lb_name with
          | .ok restored =>
            ([Op.create_lb src_ns metadata spec, Op.get_lb src_ns lb_name],
             updateMap resA lb_name fun r =>
               { r with cname_new := extract_cname restored,
                        acme_cname_new := extract_acme_cname restored })
          | .error _ =>
            ([Op.create_lb src_ns metadata spec, Op.get_lb src_ns lb_name],
             updateMap resA lb_name fun r =>
               { r with cname_new := "(fetch failed after rollback)",
                        acme_cname_new := "(fetch failed after rollback)" })
        else ([Op.create_lb src_ns metadata spec], resA)
      | .error exc =>
        ([Op.create_lb src_ns metadata spec],
         updateMap res lb_name fun r => { r with error := r.error ++ " | ROLLBACK FAILED: " ++ exc })
    let next := rollbackLbs env src_ns rest step.2
    (step.1 ++ next.1, next.2)

/-- `rollback_batch` from mover/rollback.py: delete target-side creates
(reverse creation order), then re-create source-side deletes (reverse
delete order): dependencies first, LBs last.  Returns the operation
trace and the updated result maps. -/
def rollback_batch (env : XcEnv) (src_ns target_ns : String)
    (deleted_lbs : List (String × PyDict))
    (deleted_deps : List (String × String × PyDict))
    (created_deps : List (String × String))
    (created_lbs : List String)
    (lb_results : List (String × MoveResult))
    (dep_results : List ((String × String) × DepMoveResult)) :
    List Op × List (String × MoveResult) × List ((String × String) × DepMoveResult) :=
  let ops1 := created_lbs.reverse.map fun lb_name => Op.delete_lb target_ns lb_name
  let ops2 := created_deps.reverse.map fun p => Op.delete_obj target_ns p.1 p.2
  let deps := rollbackDeps env src_ns deleted_deps.reverse dep_results
  let lbs := rollbackLbs env src_ns deleted_lbs.reverse lb_results
  (ops1 ++ ops2 ++ deps.1 ++ lbs.1, lbs.2, deps.2)

/-- View of a dependency-create call in the trace. -/
def createObjView (op : Op) : Option (String × String × PyDict × PyDict) :=
  match op with
  | .create_obj ns rt m s => some (ns, rt, m, s)
  | _ => none

/-- View of an LB-create call in the trace. -/
def createLbView (op : Op) : Option (String × PyDict × PyDict) :=
  match op with
  | .create_lb ns m s => some (ns, m, s)
  | _ => none

theorem rollbackDeps_ops (env : XcEnv) (src_ns : String) :
    ∀ (ds : List (String × String × PyDict)) (res : List ((String × String) × DepMoveResult)),
      (rollbackDeps env src_ns ds res).1 =
        ds.map fun t => Op.create_obj src_ns t.1 (clean_metadata t.2.2 src_ns) (clean_spec t.2.2)
  | [], res => rfl
  | (rt, dn, cfg) :: rest, res => by
    rw [rollbackDeps, List.map_cons]
    simp only []
    rw [rollbackDeps_ops env src_ns rest _]

theorem rollbackDeps_lookup_notmem (env : XcEnv) (src_ns : String) :
    ∀ (ds : List (String × String × PyDict)) (res : List ((String × String) × DepMoveResult))
      (k : String × String), k ∉ ds.map (fun t => (t.1, t.2.1)) →
      alookup (rollbackDeps env src_ns ds res).2 k = alookup res k
  | [], res, k, _ => rfl
  | (rt, dn, cfg) :: rest, res, k, hk => by
    rw [List.map_cons, List.mem_cons] at hk
    push_neg at hk
    rw [rollbackDeps]
    simp only []
    rw [rollbackDeps_lookup_notmem env src_ns rest _ k hk.2]
    cases env.create_config_object src_ns rt (clean_metadata cfg src_ns) (clean_spec cfg) with
    | ok u => exact alookup_updateMap_ne _ _ _ _ fun h => hk.1 h.symm
    | error exc => exact alookup_updateMap_ne _ _ _ _ fun h => hk.1 h.symm

theorem rollbackDeps_lookup (env : XcEnv) (src_ns : String) :
    ∀ (ds : List (String × String × PyDict)) (res : List ((String × String) × DepMoveResult)),
      (ds.map fun t => (t.1, t.2.1)).Nodup →
      ∀ t ∈ ds, ∀ r0, alookup res (t.1, t.2.1) = some r0 →
        alookup (rollbackDeps env src_ns ds res).2 (t.1, t.2.1) = some (
          match env.create_config_object src_ns t.1 (clean_metadata t.2.2 src_ns) (clean_spec t.2.2) with
          | .ok _ => { r0 with status := "reverted", error := "" }
          | .error exc => { r0 with error := r0.error ++ " | ROLLBACK FAILED: " ++ exc })
  | [], res, _, t, ht, _, _ => absurd ht (List.not_mem_nil t)
  | (rt, dn, cfg) :: rest, res, hnd, t, ht, r0, hr0 => by
    rw [List.map_cons, List.nodup_cons] at hnd
    rw [List.mem_cons] at ht
    rcases ht with rfl | ht
    · rw [rollbackDeps]
      simp only []
      rw [rollbackDeps_lookup_notmem env src_ns rest _ _ hnd.1]
      cases env.create_config_object src_ns rt (clean_metadata cfg src_ns) (clean_spec cfg) with
      | ok u =>
        simp only []
        rw [alookup_updateMap_self, hr0]
        rfl
      | error exc =>
        simp only []
        rw [alookup_updateMap_self, hr0]
        rfl
    · have hkne : (rt, dn) ≠ (t.1, t.2.1) := by
        intro h
        exact hnd.1 (h ▸ List.mem_map_of_mem (fun t => (t.1, t.2.1)) ht)
      rw [rollbackDeps]
      simp only []
      cases env.create_config_object src_ns rt (clean_metadata cfg src_ns) (clean_spec cfg) with
      | ok u =>
        simp only []
        exact rollbackDeps_lookup env src_ns rest _ hnd.2 t ht r0
          (by rw [alookup_updateMap_ne _ _ _ _ hkne]; exact hr0)
      | error exc =>
        simp only []
        exact rollbackDeps_lookup env src_ns rest _ hnd.2 t ht r0
          (by rw [alookup_updateMap_ne _ _ _ _ hkne]; exact hr0)

theorem rollbackLbs_ops (env : XcEnv) (src_ns : String) :
    ∀ (ls : List (String × PyDict)) (res : List (String × MoveResult)),
      (rollbackLbs env src_ns ls res).1.filterMap createLbView =
        ls.map fun p => (src_ns, clean_metadata p.2 src_ns, clean_spec p.2)
  | [], res => rfl
  | (lb_name, lb_config) :: rest, res => by
    rw [rollbackLbs, List.map_cons]
    simp only []
    cases env.create_http_loadbalancer src_ns (clean_metadata lb_config src_ns) (clean_spec lb_config) with
    | ok u =>
      simp only []
      by_cases hs : (alookup res lb_name).isSome
      · rw [if_pos hs]
        cases env.get_http_loadbalancer src_ns lb_name with
        | ok restored =>
          simp only [List.filterMap_append]
          rw [rollbackLbs_ops env src_ns rest _]
          rfl
        | error e =>
          simp only [List.filterMap_append]
          rw [rollbackLbs_ops env src_ns rest _]
          rfl
      · rw [if_neg hs]
        simp only [List.filterMap_append]
        rw [rollbackLbs_ops env src_ns rest _]
        rfl
    | error exc =>
      simp only [List.filterMap_append]
      rw [rollbackLbs_ops env src_ns rest _]
      rfl

theorem rollbackLbs_lookup_notmem (env : XcEnv) (src_ns : String) :
    ∀ (ls : List (String × PyDict)) (res : List (String × MoveResult))
      (k : String), k ∉ ls.map (·.1) →
      alookup (rollbackLbs env src_ns ls res).2 k = alookup res k
  | [], res, k, _ => rfl
  | (lb_name, lb_config) :: rest, res, k, hk => by
    rw [List.map_cons, List.mem_cons] at hk
    push_neg at hk
    have hne : lb_name ≠ k := fun h => hk.1 h.symm
    rw [rollbackLbs]
    simp only []
    rw [rollbackLbs_lookup_notmem env src_ns rest _ k hk.2]
    cases env.create_http_loadbalancer src_ns (clean_metadata lb_config src_ns) (clean_spec lb_config) with
    | ok u =>
      simp only []
      by_cases hs : (alookup res lb_name).isSome
      · rw [if_pos hs]
        cases env.get_http_loadbalancer src_ns lb_name with
        | ok restored =>
          simp only []
          rw [alookup_updateMap_ne _ _ _ _ hne, alookup_updateMap_ne _ _ _ _ hne]
        | error e =>
          simp only []
          rw [alookup_updateMap_ne _ _ _ _ hne, alookup_updateMap_ne _ _ _ _ hne]
      · rw [if_neg hs]
        simp only []
        rw [alookup_updateMap_ne _ _ _ _ hne]
    | error exc =>
      simp only []
      rw [alookup_updateMap_ne _ _ _ _ hne]

theorem rollbackLbs_lookup (env : XcEnv) (src_ns : String) :
    ∀ (ls : List (String × PyDict)) (res : List (String × MoveResult)),
      (ls.map (·.1)).Nodup →
      ∀ p ∈ ls, ∀ r0, alookup res p.1 = some r0 →
        alookup (rollbackLbs env src_ns ls res).2 p.1 = some (
          match env.create_http_loadbalancer src_ns (clean_metadata p.2 src_ns) (clean_spec p.2) with
          | .ok _ =>
            match env.get_http_loadbalancer src_ns p.1 with
            | .ok restored =>
              { r0 with status := "reverted", cname_new := extract_cname restored,
                        acme_cname_new := extract_acme_cname restored }
            | .error _ =>
              { r0 with status := "reverted", cname_new := "(fetch failed after rollback)",
                        acme_cname_new := "(fetch failed after rollback)" }
          | .error exc => { r0 with error := r0.error ++ " | ROLLBACK FAILED: " ++ exc })
  | [], res, _, p, hp, _, _ => absurd hp (List.not_mem_nil p)
  | (lb_name, lb_config) :: rest, res, hnd, p, hp, r0, hr0 => by
    rw [List.map_cons, List.nodup_cons] at hnd
    rw [List.mem_cons] at hp
    rcases hp with rfl | hp
    · rw [rollbackLbs]
      simp only []
      rw [rollbackLbs_lookup_notmem env src_ns rest _ _ hnd.1]
      cases env.create_http_loadbalancer src_ns (clean_metadata lb_config src_ns) (clean_spec lb_config) with
      | ok u =>
        simp only []
        rw [if_pos (by rw [hr0]; rfl)]
        cases env.get_http_loadbalancer src_ns lb_name with
        | ok restored =>
          simp only []
          rw [alookup_updateMap_self, alookup_updateMap_self, hr0]
          rfl
        | error e =>
          simp only []
          rw [alookup_updateMap_self, alookup_updateMap_self, hr0]
          rfl
      | error exc =>
        simp only []
        rw [alookup_updateMap_self, hr0]
        rfl
    · have hknp : lb_name ≠ p.1 := by
        intro h
        exact hnd.1 (h ▸ List.mem_map_of_mem (·.1) hp)
      rw [rollbackLbs]
      simp only []
      cases env.create_http_loadbalancer src_ns (clean_metadata lb_config src_ns) (clean_spec lb_config) with
      | ok u =>
        simp only []
        by_cases hs : (alookup res lb_name).isSome
        · rw [if_pos hs]
          cases env.get_http_loadbalancer src_ns lb_name with
          | ok restored =>
            simp only []
            exact rollbackLbs_lookup env src_ns rest _ hnd.2 p hp r0
              (by rw [alookup_updateMap_ne _ _ _ _ hknp, alookup_updateMap_ne _ _ _ _ hknp]; exact hr0)
          | error e =>
            simp only []
            exact rollbackLbs_lookup env src_ns rest _ hnd.2 p hp r0
              (by rw [alookup_updateMap_ne _ _ _ _ hknp, alookup_updateMap_ne _ _ _ _ hknp]; exact hr0)
        · rw [if_neg hs]
          simp only []
          exact rollbackLbs_lookup env src_ns rest _ hnd.2 p hp r0
            (by rw [alookup_updateMap_ne _ _ _ _ hknp]; exact hr0)
      | error exc =>
        simp only []
        exact rollbackLbs_lookup env src_ns rest _ hnd.2 p hp r0
          (by rw [alookup_updateMap_ne _ _ _ _ hknp]; exact hr0)

theorem rollbackLbs_ops_no_obj (env : XcEnv) (src_ns : String) :
    ∀ (ls : List (String × PyDict)) (res : List (String × MoveResult)),
      (rollbackLbs env src_ns ls res).1.filterMap createObjView = []
  | [], res => rfl
  | (lb_name, lb_config) :: rest, res => by
    rw [rollbackLbs]
    simp only []
    cases env.create_http_loadbalancer src_ns (clean_metadata lb_config src_ns) (clean_spec lb_config) with
    | ok u =>
      simp only []
      by_cases hs : (alookup res lb_name).isSome
      · rw [if_pos hs]
        cases env.get_http_loadbalancer src_ns lb_name with
        | ok restored =>
          simp only [List.filterMap_append]
          rw [rollbackLbs_ops_no_obj env src_ns rest _]
          rfl
        | error e =>
          simp only [List.filterMap_append]
          rw [rollbackLbs_ops_no_obj env src_ns rest _]
          rfl
      · rw [if_neg hs]
        simp only [List.filterMap_append]
        rw [rollbackLbs_ops_no_obj env src_ns rest _]
        rfl
    | error exc =>
      simp only [List.filterMap_append]
      rw [rollbackLbs_ops_no_obj env src_ns rest _]
      rfl

/-- Claim C2: `rollback_batch` issues, regardless of any sub-step
failure, exactly one source-side re-create for every dependency and
every LB deleted during the batch, in reverse-delete order from the
captured backups; and for each such object with a result entry the
final per-object result is: status `reverted` on a successful
re-create, or the original error text with
` | ROLLBACK FAILED: <text>` appended on a failed one. -/
theorem claim_C2_rollback_batch (env : XcEnv) (src_ns target_ns : String)
    (deleted_lbs : List (String × PyDict))
    (deleted_deps : List (String × String × PyDict))
    (created_deps : List (String × String))
    (created_lbs : List String)
    (lb_results : List (String × MoveResult))
    (dep_results : List ((String × String) × DepMoveResult))
    (hnd : (deleted_deps.map fun t => (t.1, t.2.1)).Nodup)
    (hnl : (deleted_lbs.map (·.1)).Nodup) :
    ((rollback_batch env src_ns target_ns deleted_lbs deleted_deps created_deps
        created_lbs lb_results dep_results).1.filterMap createObjView =
      deleted_deps.reverse.map fun t =>
        (src_ns, t.1, clean_metadata t.2.2 src_ns, clean_spec t.2.2)) ∧
    ((rollback_batch env src_ns target_ns deleted_lbs deleted_deps created_deps
        created_lbs lb_results dep_results).1.filterMap createLbView =
      deleted_lbs.reverse.map fun p => (src_ns, clean_metadata p.2 src_ns, clean_spec p.2)) ∧
    (∀ t ∈ deleted_deps, ∀ r0, alookup dep_results (t.1, t.2.1) = some r0 →
      alookup (rollback_batch env src_ns target_ns deleted_lbs deleted_deps created_deps
          created_lbs lb_results dep_results).2.2 (t.1, t.2.1) = some (
        match env.create_config_object src_ns t.1 (clean_metadata t.2.2 src_ns) (clean_spec t.2.2) with
        | .ok _ => { r0 with status := "reverted", error := "" }
        | .error exc => { r0 with error := r0.error ++ " | ROLLBACK FAILED: " ++ exc })) ∧
    (∀ p ∈ deleted_lbs, ∀ r0, alookup lb_results p.1 = some r0 →
      alookup (rollback_batch env src_ns target_ns deleted_lbs deleted_deps created_deps
          created_lbs lb_results dep_results).2.1 p.1 = some (
        match env.create_http_loadbalancer src_ns (clean_metadata p.2 src_ns) (clean_spec p.2) with
        | .ok _ =>
          match env.get_http_loadbalancer src_ns p.1 with
          | .ok restored =>
            { r0 with status := "reverted", cname_new := extract_cname restored,
                      acme_cname_new := extract_acme_cname restored }
          | .error _ =>
            { r0 with status := "reverted", cname_new := "(fetch failed after rollback)",
                      acme_cname_new := "(fetch failed after rollback)" }
        | .error exc => { r0 with error := r0.error ++ " | ROLLBACK FAILED: " ++ exc })) := by
  have hops3 := rollbackDeps_ops env src_ns deleted_deps.reverse dep_results
  have hops4 := rollbackLbs_ops env src_ns deleted_lbs.reverse lb_results
  refine ⟨?_, ?_, ?_, ?_⟩
  · rw [rollback_batch]
    simp only [List.filterMap_append, hops3]
    have h1 : (created_lbs.reverse.map fun lb_name =>
        Op.delete_lb target_ns lb_name).filterMap createObjView = [] := by
      rw [List.filterMap_map]
      exact List.filterMap_eq_nil_iff.mpr fun a _ => rfl
    have h2 : (created_deps.reverse.map fun p =>
        Op.delete_obj target_ns p.1 p.2).filterMap createObjView = [] := by
      rw [List.filterMap_map]
      exact List.filterMap_eq_nil_iff.mpr fun a _ => rfl
    have h3 : ((deleted_deps.reverse.map fun t =>
        Op.create_obj src_ns t.1 (clean_metadata t.2.2 src_ns) (clean_spec t.2.2)).filterMap
          createObjView) =
        deleted_deps.reverse.map fun t =>
          (src_ns, t.1, clean_metadata t.2.2 src_ns, clean_spec t.2.2) := by
      rw [List.filterMap_map]
      have hco : (createObjView ∘ fun t : String × String × PyDict =>
          Op.create_obj src_ns t.1 (clean_metadata t.2.2 src_ns) (clean_spec t.2.2)) =
          some ∘ fun t : String × String × PyDict =>
            (src_ns, t.1, clean_metadata t.2.2 src_ns, clean_spec t.2.2) := rfl
      rw [hco, List.filterMap_eq_map]
    have h4 := rollbackLbs_ops_no_obj env src_ns deleted_lbs.reverse lb_results
    rw [h1, h2, h3, h4]
    simp
  · rw [rollback_batch]
    simp only [List.filterMap_append, hops4]
    have h1 : (created_lbs.reverse.map fun lb_name =>
        Op.delete_lb target_ns lb_name).filterMap createLbView = [] := by
      rw [List.filterMap_map]
      exact List.filterMap_eq_nil_iff.mpr fun a _ => rfl
    have h2 : (created_deps.reverse.map fun p =>
        Op.delete_obj target_ns p.1 p.2).filterMap createLbView = [] := by
      rw [List.filterMap_map]
      exact List.filterMap_eq_nil_iff.mpr fun a _ => rfl
    have h3 : ((rollbackDeps env src_ns deleted_deps.reverse dep_results).1.filterMap
        createLbView) = [] := by
      rw [hops3, List.filterMap_map]
      exact List.filterMap_eq_nil_iff.mpr fun a _ => rfl
    rw [h1, h2, h3]
    simp
  · intro t ht r0 hr0
    rw [rollback_batch]
    simp only []
    exact rollbackDeps_lookup env src_ns deleted_deps.reverse dep_results
      (by rw [List.map_reverse, List.nodup_reverse]; exact hnd) t (List.mem_reverse.mpr ht) r0 hr0
  · intro p hp r0 hr0
    rw [rollback_batch]
    simp only []
    exact rollbackLbs_lookup env src_ns deleted_lbs.reverse lb_results
      (by rw [List.map_reverse, List.nodup_reverse]; exact hnl) p (List.mem_reverse.mpr hp) r0 hr0

/-- A concrete environment for the C2 witness: dependency re-creation
fails, LB re-creation and the follow-up GET succeed. -/
def rollbackEnvEx : XcEnv where
  delete_http_loadbalancer := fun _ _ => .ok ()
  delete_config_object := fun _ _ _ => .ok ()
  create_config_object := fun _ _ _ _ => .error "boom"
  create_http_loadbalancer := fun _ _ _ => .ok ()
  get_http_loadbalancer := fun _ _ =>
    .ok (.cons "spec" (.dict (.cons "host_name" (.str "cname.example") .nil)) .nil)
  get_config_object := fun _ _ _ => .ok .nil
  probe_delete_config_object := fun _ _ _ => .ok []

/-- Witness for claim C2 at a concrete batch: the failed dependency
re-create appends `ROLLBACK FAILED` to the original error and keeps the
status; the successful LB re-create sets status `reverted` and
refreshes the CNAME from the restored config. -/
theorem claim_C2_witness :
    alookup (rollback_batch rollbackEnvEx "ns1" "ns2" [("lb-a", .nil)]
        [("origin_pools", "op1", .nil)] [] []
        [("lb-a", ⟨"", "orig-err", "", ""⟩)]
        [(("origin_pools", "op1"), ⟨"failed", "dep-err"⟩)]).2.2 ("origin_pools", "op1") =
      some ⟨"failed", "dep-err | ROLLBACK FAILED: boom"⟩ ∧
    alookup (rollback_batch rollbackEnvEx "ns1" "ns2" [("lb-a", .nil)]
        [("origin_pools", "op1", .nil)] [] []
        [("lb-a", ⟨"", "orig-err", "", ""⟩)]
        [(("origin_pools", "op1"), ⟨"failed", "dep-err"⟩)]).2.1 "lb-a" =
      some ⟨"reverted", "orig-err", "cname.example", ""⟩ := by
  have h := claim_C2_rollback_batch rollbackEnvEx "ns1" "ns2" [("lb-a", .nil)]
    [("origin_pools", "op1", .nil)] [] []
    [("lb-a", ⟨"", "orig-err", "", ""⟩)]
    [(("origin_pools", "op1"), ⟨"failed", "dep-err"⟩)]
    (by decide) (by decide)
  refine ⟨?_, ?_⟩
  · rw [h.2.2.1 ("origin_pools", "op1", .nil) (by decide) ⟨"failed", "dep-err"⟩ rfl]
    exact congrArg some (by decide)
  · rw [h.2.2.2 ("lb-a", .nil) (by decide) ⟨"", "orig-err", "", ""⟩ rfl]
    exact congrArg some (by decide)

/-! ## spec_utils.py: `rewrite_name_refs`, and client.py:
`prepare_for_move`, `extract_referring_objects` -/

mutual

/-- `rewrite_name_refs` from spec_utils.py: rewrite the `name` of every
reference record with the given old name and namespace. -/
def rewrite_name_refs : PyVal → String → String → String → PyVal
  | .dict kvs, old_name, new_name, nspace =>
    if isRefDict kvs then
      if kvs.getD "name" (.str "") = .str old_name &&
          kvs.getD "namespace" (.str "") = .str nspace then
        .dict (kvs.setKey "name" (.str new_name))
      else .dict kvs
    else .dict (rewrite_name_refs_dict kvs old_name new_name nspace)
  | .list xs, old_name, new_name, nspace =>
    .list (rewrite_name_refs_list xs old_name new_name nspace)
  | v, _, _, _ => v

/-- Dict branch of `rewrite_name_refs`. -/
def rewrite_name_refs_dict : PyDict → String → String → String → PyDict
  | .nil, _, _, _ => .nil
  | .cons k v tl, old_name, new_name, nspace =>
    .cons k (rewrite_name_refs v old_name new_name nspace)
      (rewrite_name_refs_dict tl old_name new_name nspace)

/-- List branch of `rewrite_name_refs`. -/
def rewrite_name_refs_list : PyList → String → String → String → PyList
  | .nil, _, _, _ => .nil
  | .cons v tl, old_name, new_name, nspace =>
    .cons (rewrite_name_refs v old_name new_name nspace)
      (rewrite_name_refs_list tl old_name new_name nspace)

end

/-- `XCClient.prepare_for_move` from client.py: cleaned metadata with
the target namespace, stripped spec with namespace references rewritten
from source to target. -/
def prepare_for_move (raw_config : PyDict) (src_namespace target_namespace : String) :
    PyDict × PyDict :=
  (clean_metadata raw_config target_namespace,
   pyValDict (rewrite_namespace_refs (.dict (clean_spec raw_config))
     src_namespace target_namespace))

/-- `XCClient.extract_referring_objects` from client.py:
`config.get("referring_objects") or []`. -/
def extract_referring_objects (config : PyDict) : List PyVal :=
  match config.getOrTruthy "referring_objects" (.list .nil) with
  | .list xs => xs.toList
  | _ => []

/-! ## mover/cli.py: CSV reading and the per-batch executor
(Phases 3 and 4, cli.py lines 1176-1529)

The executor embedding records every remote call in an `Op` trace and
returns a batch outcome.  The per-object report bookkeeping of the
source (`batch_results` / `batch_dep_results` status and message
strings) is not modeled here: it never influences which remote calls
are issued or their order — the control flow branches only on oracle
outcomes and on the membership tests that are explicit arguments below.
`rollback_batch` (embedded above with its bookkeeping, claim C2) is
invoked on the failure paths with one result entry per batch object,
mirroring what Phase 1 of the source builds. -/

/-- `validate_xc_name` from config.py: the XC identifier regex
`^[a-z0-9][a-z0-9.\-]{0,63}$` (`True` = valid, `False` = the
`ConfigError` raise). -/
def validate_xc_name (name : String) : Bool :=
  match name.data with
  | [] => false
  | c :: rest =>
    (c.isLower || c.isDigit) && rest.length ≤ 63 &&
      rest.all fun ch => ch.isLower || ch.isDigit || ch = '.' || ch = '-'

/-- Split a CSV record at commas (the mover CSV carries plain
identifiers, never quoted fields). -/
def splitCommaGo (acc : List Char) : List Char → List String
  | [] => [⟨acc.reverse⟩]
  | c :: rest =>
    if c = ',' then ⟨acc.reverse⟩ :: splitCommaGo [] rest
    else splitCommaGo (c :: acc) rest

/-- Python `csv` field splitting for one record. -/
def splitComma (s : String) : List String :=
  splitCommaGo [] s.data

/-- The row loop of `_read_csv`: map each record to the header fields,
strip, skip blank entries, validate both identifiers (a failed
validation raises `ConfigError`). -/
def read_csv_rows (fields : List String) :
    List String → Except String (List (String × String))
  | [] => .ok []
  | row :: rest =>
    let vals := splitComma row
    let get := fun (k : String) =>
      (((fields.zip vals).find? fun p => p.1 = k).map (·.2)).getD ""
    let ns := pyStrip (get "namespace")
    let name := pyStrip (get "lb_name")
    if ns = "" || name = "" then read_csv_rows fields rest
    else if validate_xc_name ns && validate_xc_name name then
      (read_csv_rows fields rest).map fun tl => (ns, name) :: tl
    else .error "ConfigError: invalid identifier"

/-- `_read_csv` from mover/cli.py, on the file's lines: drop comment
lines, use the first remaining line as the header, parse the rest. -/
def read_csv_entries (lines : List String) : Except String (List (String × String)) :=
  let kept := lines.filter fun l => !(pyStartsWith (pyLstrip l) "#")
  match kept with
  | [] => .ok []
  | header :: rows => read_csv_rows (splitComma header) rows

/-- Outcome of one batch of the executor. -/
inductive BatchOutcome where
  | success
  | lb_delete_failed
  | blocked_external
  | probe_raised
  | dep_delete_failed
  | dep_create_failed
  | lb_create_failed
deriving DecidableEq

/-- Phase 3a (cli.py 1185-1196): delete every LB of the batch from its
source namespace; stop at the first failure.  Returns the trace, the
`deleted_lbs` backup list, and the `delete_failed` flag. -/
def phase3a (env : XcEnv) (lb_src_ns : List (String × String))
    (lb_configs : List (String × PyDict)) :
    List String → List Op × List (String × PyDict) × Bool
  | [] => ([], [], false)
  | lb_name :: rest =>
    let src_ns := (alookup lb_src_ns lb_name).getD ""
    match env.delete_http_loadbalancer src_ns lb_name with
    | .ok _ =>
      let next := phase3a env lb_src_ns lb_configs rest
      (Op.delete_lb src_ns lb_name :: next.1,
       (lb_name, (alookup lb_configs lb_name).getD .nil) :: next.2.1, next.2.2)
    | .error _ => ([Op.delete_lb src_ns lb_name], [], true)

/-- Result of the Phase 3b dependency recheck loop. -/
inductive Phase3bResult where
  | done
  | blocked
  | raised
deriving DecidableEq

/-- Phase 3b (cli.py 1238-1324): for every dependency that is neither
conflict-skipped nor a non-portable certificate, re-fetch it, filter
its `referring_objects` against the move set and the reserved
namespaces, and when no external referrer remains issue the probing
delete: an empty probe result means
the object was deleted by the probe (recorded in `deleted_deps`); a
non-empty one blocks the batch; a raised probe propagates. -/
def phase3b (env : XcEnv) (move_set : List (String × String))
    (conflict_skipped_deps secret_cert_keys : List (String × String))
    (batch_dep_configs : List ((String × String) × PyDict)) :
    List (String × String × String) →
      List Op × List (String × String × PyDict) × Phase3bResult
  | [] => ([], [], .done)
  | (resource_type, dep_name, dep_ns) :: rest =>
    if (resource_type, dep_name) ∈ conflict_skipped_deps then
      phase3b env move_set conflict_skipped_deps secret_cert_keys
        batch_dep_configs rest
    else if (resource_type, dep_name) ∈ secret_cert_keys then
      phase3b env move_set conflict_skipped_deps secret_cert_keys
        batch_dep_configs rest
    else
      let fresh := match env.get_config_object dep_ns resource_type dep_name with
        | .ok cfg => cfg
        | .error _ => .nil
      let referring := extract_referring_objects fresh
      let external := referring.filter fun r =>
        decide (pyValStr ((pyValDict r).getD "namespace" (.str "")) ∉ ["system", "shared"]) &&
        decide ((pyValStr ((pyValDict r).getD "namespace" (.str "")),
                 pyValStr ((pyValDict r).getD "name" (.str ""))) ∉ move_set)
      if external.isEmpty then
        match env.probe_delete_config_object dep_ns resource_type dep_name with
        | .ok referrers =>
          if referrers.isEmpty then
            let next := phase3b env move_set conflict_skipped_deps
              secret_cert_keys batch_dep_configs rest
            (Op.get_obj dep_ns resource_type dep_name ::
               Op.probe_delete dep_ns resource_type dep_name :: next.1,
             (resource_type, dep_name,
               (alookup batch_dep_configs (resource_type, dep_name)).getD .nil) :: next.2.1,
             next.2.2)
          else
            ([Op.get_obj dep_ns resource_type dep_name,
              Op.probe_delete dep_ns resource_type dep_name], [], .blocked)
        | .error _ =>
          ([Op.get_obj dep_ns resource_type dep_name,
            Op.probe_delete dep_ns resource_type dep_name], [], .raised)
      else ([Op.get_obj dep_ns resource_type dep_name], [], .blocked)

/-- Phase 3b-actual (cli.py 1357-1377): delete the dependencies the
probe did not already remove; stop at the first failure. -/
def phase3bActual (env : XcEnv) (already_deleted conflict_skipped_deps secret_cert_keys :
    List (String × String)) (batch_dep_configs : List ((String × String) × PyDict)) :
    List (String × String × String) → List Op × List (String × String × PyDict) × Bool
  | [] => ([], [], false)
  | (resource_type, dep_name, dep_ns) :: rest =>
    if (resource_type, dep_name) ∈ already_deleted then
      phase3bActual env already_deleted conflict_skipped_deps secret_cert_keys
        batch_dep_configs rest
    else if (resource_type, dep_name) ∈ conflict_skipped_deps then
      phase3bActual env already_deleted conflict_skipped_deps secret_cert_keys
        batch_dep_configs rest
    else if (resource_type, dep_name) ∈ secret_cert_keys then
      phase3bActual env already_deleted conflict_skipped_deps secret_cert_keys
        batch_dep_configs rest
    else
      match env.delete_config_object dep_ns resource_type dep_name with
      | .ok _ =>
        let next := phase3bActual env already_deleted conflict_skipped_deps secret_cert_keys
          batch_dep_configs rest
        (Op.delete_obj dep_ns resource_type dep_name :: next.1,
         (resource_type, dep_name,
           (alookup batch_dep_configs (resource_type, dep_name)).getD .nil) :: next.2.1,
         next.2.2)
      | .error _ => ([Op.delete_obj dep_ns resource_type dep_name], [], true)

/-- The sub-dependency rename loop of Phase 4a (cli.py 1447-1449). -/
def applyDepRenames (spec : PyDict) (dep_rename_map : List ((String × String) × String))
    (key : String × String) (target_namespace : String) : PyDict :=
  dep_rename_map.foldl
    (fun sp kv =>
      if kv.1 ≠ key then
        pyValDict (rewrite_name_refs (.dict sp) kv.1.2 kv.2 target_namespace)
      else sp)
    spec

/-- Phase 4a (cli.py 1418-1466): create the dependencies bottom-up
(called with the reversed discovery order); skip conflict-skipped and
non-portable entries; apply renames; stop at the first failure.
Returns the trace, `created_deps`, and the `create_failed` flag. -/
def phase4a (env : XcEnv) (src_ns target_namespace : String)
    (conflict_skipped_deps secret_cert_keys : List (String × String))
    (batch_dep_configs : List ((String × String) × PyDict))
    (dep_rename_map : List ((String × String) × String)) :
    List (String × String × String) → List Op × List (String × String) × Bool
  | [] => ([], [], false)
  | (resource_type, dep_name, _dep_ns) :: rest =>
    if (resource_type, dep_name) ∈ conflict_skipped_deps then
      phase4a env src_ns target_namespace conflict_skipped_deps secret_cert_keys
        batch_dep_configs dep_rename_map rest
    else if (resource_type, dep_name) ∈ secret_cert_keys then
      phase4a env src_ns target_namespace conflict_skipped_deps secret_cert_keys
        batch_dep_configs dep_rename_map rest
    else
      let pm := prepare_for_move
        ((alookup batch_dep_configs (resource_type, dep_name)).getD .nil)
        src_ns target_namespace
      let actual_dep_name :=
        (alookup dep_rename_map (resource_type, dep_name)).getD dep_name
      let dep_metadata :=
        if (alookup dep_rename_map (resource_type, dep_name)).isSome then
          pm.1.setKey "name" (.str actual_dep_name)
        else pm.1
      let dep_spec := applyDepRenames pm.2 dep_rename_map (resource_type, dep_name)
        target_namespace
      match env.create_config_object target_namespace resource_type dep_metadata dep_spec with
      | .ok _ =>
        let next := phase4a env src_ns target_namespace conflict_skipped_deps
          secret_cert_keys batch_dep_configs dep_rename_map rest
        (Op.create_obj target_namespace resource_type dep_metadata dep_spec :: next.1,
         (resource_type, actual_dep_name) :: next.2.1, next.2.2)
      | .error _ =>
        ([Op.create_obj target_namespace resource_type dep_metadata dep_spec], [], true)

/-- Phase 4b (cli.py 1498-1513): create every LB of the batch from its
planned config; stop at the first failure. -/
def phase4b (env : XcEnv) (target_namespace : String)
    (lb_planned : List (String × (PyDict × PyDict)))
    (lb_rename_map : List (String × String)) :
    List String → List Op × List String × Bool
  | [] => ([], [], false)
  | lb_name :: rest =>
    let planned := (alookup lb_planned lb_name).getD (.nil, .nil)
    let actual_lb_name := (alookup lb_rename_map lb_name).getD lb_name
    match env.create_http_loadbalancer target_namespace planned.1 planned.2 with
    | .ok _ =>
      let next := phase4b env target_namespace lb_planned lb_rename_map rest
      (Op.create_lb target_namespace planned.1 planned.2 :: next.1,
       actual_lb_name :: next.2.1, next.2.2)
    | .error _ => ([Op.create_lb target_namespace planned.1 planned.2], [], true)

/-- The per-batch executor for a real run (cli.py 1176-1529): Phase 3a
(delete LBs), Phase 3b (dependency recheck and probing delete), Phase
3b-actual (delete remaining dependencies), Phase 4a (create
dependencies bottom-up), Phase 4b (create LBs); any failure invokes
`rollback_batch` with everything deleted or created so far. -/
def execute_batch (env : XcEnv)
    (batch_lb_names : List String)
    (lb_src_ns : List (String × String))
    (lb_configs : List (String × PyDict))
    (batch_deps_ordered : List (String × String × String))
    (batch_dep_configs : List ((String × String) × PyDict))
    (conflict_skipped_deps secret_cert_keys : List (String × String))
    (dep_rename_map : List ((String × String) × String))
    (lb_planned : List (String × (PyDict × PyDict)))
    (lb_rename_map : List (String × String))
    (move_set : List (String × String))
    (target_namespace : String) : List Op × BatchOutcome :=
  let src_ns := (alookup lb_src_ns (batch_lb_names.headD "")).getD ""
  let lb_results0 : List (String × MoveResult) :=
    batch_lb_names.map fun n => (n, ⟨"", "", "", ""⟩)
  let dep_results0 : List ((String × String) × DepMoveResult) :=
    batch_deps_ordered.map fun t => ((t.1, t.2.1), ⟨"", ""⟩)
  let p3a := phase3a env lb_src_ns lb_configs batch_lb_names
  if p3a.2.2 then
    (p3a.1 ++ (rollback_batch env src_ns target_namespace p3a.2.1 [] [] []
        lb_results0 dep_results0).1, .lb_delete_failed)
  else
    let p3b := phase3b env move_set conflict_skipped_deps secret_cert_keys
      batch_dep_configs batch_deps_ordered
    match p3b.2.2 with
    | .raised => (p3a.1 ++ p3b.1, .probe_raised)
    | .blocked =>
      (p3a.1 ++ p3b.1 ++ (rollback_batch env src_ns target_namespace p3a.2.1 p3b.2.1
          [] [] lb_results0 dep_results0).1, .blocked_external)
    | .done =>
      let p3c := phase3bActual env (p3b.2.1.map fun t => (t.1, t.2.1))
        conflict_skipped_deps secret_cert_keys batch_dep_configs batch_deps_ordered
      if p3c.2.2 then
        (p3a.1 ++ p3b.1 ++ p3c.1 ++ (rollback_batch env src_ns target_namespace
            p3a.2.1 (p3b.2.1 ++ p3c.2.1) [] [] lb_results0 dep_results0).1,
         .dep_delete_failed)
      else
        let p4a := phase4a env src_ns target_namespace conflict_skipped_deps
          secret_cert_keys batch_dep_configs dep_rename_map batch_deps_ordered.reverse
        if p4a.2.2 then
          (p3a.1 ++ p3b.1 ++ p3c.1 ++ p4a.1 ++ (rollback_batch env src_ns
              target_namespace p3a.2.1 (p3b.2.1 ++ p3c.2.1) p4a.2.1 []
              lb_results0 dep_results0).1,
           .dep_create_failed)
        else
          let p4b := phase4b env target_namespace lb_planned lb_rename_map batch_lb_names
          if p4b.2.2 then
            (p3a.1 ++ p3b.1 ++ p3c.1 ++ p4a.1 ++ p4b.1 ++ (rollback_batch env src_ns
                target_namespace p3a.2.1 (p3b.2.1 ++ p3c.2.1) p4a.2.1 p4b.2.1
                lb_results0 dep_results0).1,
             .lb_create_failed)
          else
            (p3a.1 ++ p3b.1 ++ p3c.1 ++ p4a.1 ++ p4b.1, .success)

/-- Phase ordering rank of an operation: LB deletes, then dependency
reads / probing deletes / deletes, then dependency creates, then LB
creates (LB reads only occur in verification and rollback). -/
def opRank : Op → Nat
  | .delete_lb _ _ => 0
  | .get_obj _ _ _ => 1
  | .probe_delete _ _ _ => 1
  | .delete_obj _ _ _ => 1
  | .create_obj _ _ _ _ => 2
  | .create_lb _ _ _ => 3
  | .get_lb _ _ => 4

/-- Is this operation an LB delete? -/
def isLBDeleteOp : Op → Bool
  | .delete_lb _ _ => true
  | _ => false

/-- Is this operation a dependency delete?  A successful probing delete
removes the object server-side, so it counts. -/
def isDepDeleteOp : Op → Bool
  | .delete_obj _ _ _ => true
  | .probe_delete _ _ _ => true
  | _ => false

/-- Is this operation a dependency create? -/
def isDepCreateOp : Op → Bool
  | .create_obj _ _ _ _ => true
  | _ => false

/-- Is this operation an LB create? -/
def isLBCreateOp : Op → Bool
  | .create_lb _ _ _ => true
  | _ => false

theorem phase3a_rank (env : XcEnv) (m : List (String × String))
    (cfgs : List (String × PyDict)) :
    ∀ (names : List String), ∀ op ∈ (phase3a env m cfgs names).1, opRank op = 0
  | [], op, hop => absurd hop (List.not_mem_nil op)
  | lb :: rest, op, hop => by
    rw [phase3a] at hop
    simp only [] at hop
    cases hdel : env.delete_http_loadbalancer ((alookup m lb).getD "") lb with
    | ok u =>
      rw [hdel] at hop
      simp only [List.mem_cons] at hop
      rcases hop with rfl | hop
      · rfl
      · exact phase3a_rank env m cfgs rest op hop
    | error e =>
      rw [hdel] at hop
      simp only [List.mem_cons, List.not_mem_nil, or_false] at hop
      subst hop
      rfl

theorem phase3b_rank (env : XcEnv) (move_set : List (String × String))
    (cs sk : List (String × String)) (dcfg : List ((String × String) × PyDict)) :
    ∀ (ds : List (String × String × String)),
      ∀ op ∈ (phase3b env move_set cs sk dcfg ds).1, opRank op = 1
  | [], op, hop => absurd hop (List.not_mem_nil op)
  | (rt, dn, dns) :: rest, op, hop => by
    rw [phase3b] at hop
    by_cases h1 : (rt, dn) ∈ cs
    · rw [if_pos h1] at hop
      exact phase3b_rank env move_set cs sk dcfg rest op hop
    · rw [if_neg h1] at hop
      by_cases h2 : (rt, dn) ∈ sk
      · rw [if_pos h2] at hop
        exact phase3b_rank env move_set cs sk dcfg rest op hop
      · rw [if_neg h2] at hop
        simp only [] at hop
        split at hop
        · split at hop
          · split at hop
            · simp only [List.mem_cons] at hop
              rcases hop with rfl | hop
              · rfl
              · rcases hop with rfl | hop
                · rfl
                · exact phase3b_rank env move_set cs sk dcfg rest op hop
            · simp only [List.mem_cons, List.not_mem_nil, or_false] at hop
              rcases hop with rfl | rfl
              · rfl
              · rfl
          · simp only [List.mem_cons, List.not_mem_nil, or_false] at hop
            rcases hop with rfl | rfl
            · rfl
            · rfl
        · simp only [List.mem_cons, List.not_mem_nil, or_false] at hop
          subst hop
          rfl

theorem phase3bActual_rank (env : XcEnv) (ad cs sk : List (String × String))
    (dcfg : List ((String × String) × PyDict)) :
    ∀ (ds : List (String × String × String)),
      ∀ op ∈ (phase3bActual env ad cs sk dcfg ds).1, opRank op = 1
  | [], op, hop => absurd hop (List.not_mem_nil op)
  | (rt, dn, dns) :: rest, op, hop => by
    rw [phase3bActual] at hop
    by_cases h0 : (rt, dn) ∈ ad
    · rw [if_pos h0] at hop
      exact phase3bActual_rank env ad cs sk dcfg rest op hop
    · rw [if_neg h0] at hop
      by_cases h1 : (rt, dn) ∈ cs
      · rw [if_pos h1] at hop
        exact phase3bActual_rank env ad cs sk dcfg rest op hop
      · rw [if_neg h1] at hop
        by_cases h2 : (rt, dn) ∈ sk
        · rw [if_pos h2] at hop
          exact phase3bActual_rank env ad cs sk dcfg rest op hop
        · rw [if_neg h2] at hop
          cases hdel : env.delete_config_object dns rt dn with
          | ok u =>
            rw [hdel] at hop
            simp only [List.mem_cons] at hop
            rcases hop with rfl | hop
            · rfl
            · exact phase3bActual_rank env ad cs sk dcfg rest op hop
          | error e =>
            rw [hdel] at hop
            simp only [List.mem_cons, List.not_mem_nil, or_false] at hop
            subst hop
            rfl

theorem phase4a_rank (env : XcEnv) (src_ns tns : String) (cs sk : List (String × String))
    (dcfg : List ((String × String) × PyDict)) (rmap : List ((String × String) × String)) :
    ∀ (ds : List (String × String × String)),
      ∀ op ∈ (phase4a env src_ns tns cs sk dcfg rmap ds).1, opRank op = 2
  | [], op, hop => absurd hop (List.not_mem_nil op)
  | (rt, dn, dns) :: rest, op, hop => by
    rw [phase4a] at hop
    by_cases h1 : (rt, dn) ∈ cs
    · rw [if_pos h1] at hop
      exact phase4a_rank env src_ns tns cs sk dcfg rmap rest op hop
    · rw [if_neg h1] at hop
      by_cases h2 : (rt, dn) ∈ sk
      · rw [if_pos h2] at hop
        exact phase4a_rank env src_ns tns cs sk dcfg rmap rest op hop
      · rw [if_neg h2] at hop
        simp only [] at hop
        split at hop
        · simp only [List.mem_cons] at hop
          rcases hop with rfl | hop
          · rfl
          · exact phase4a_rank env src_ns tns cs sk dcfg rmap rest op hop
        · simp only [List.mem_cons, List.not_mem_nil, or_false] at hop
          subst hop
          rfl

theorem phase4b_rank (env : XcEnv) (tns : String)
    (planned : List (String × (PyDict × PyDict))) (rmap : List (String × String)) :
    ∀ (names : List String), ∀ op ∈ (phase4b env tns planned rmap names).1, opRank op = 3
  | [], op, hop => absurd hop (List.not_mem_nil op)
  | lb :: rest, op, hop => by
    rw [phase4b] at hop
    simp only [] at hop
    split at hop
    · simp only [List.mem_cons] at hop
      rcases hop with rfl | hop
      · rfl
      · exact phase4b_rank env tns planned rmap rest op hop
    · simp only [List.mem_cons, List.not_mem_nil, or_false] at hop
      subst hop
      rfl

/-- A list of operations of one constant rank is rank-monotone. -/
theorem pairwise_rank_const (l : List Op) (r : Nat) (h : ∀ op ∈ l, opRank op = r) :
    l.Pairwise fun a b => opRank a ≤ opRank b := by
  induction l with
  | nil => exact List.Pairwise.nil
  | cons hd tl ih =>
    refine List.Pairwise.cons ?_ (ih fun op hop => h op (List.mem_cons_of_mem hd hop))
    intro b hb
    rw [h hd (List.mem_cons_self hd tl), h b (List.mem_cons_of_mem hd hb)]

theorem rank_isLBDelete (op : Op) (h : isLBDeleteOp op = true) : opRank op = 0 := by
  cases op <;> simp_all [isLBDeleteOp, opRank]

theorem rank_isDepDelete (op : Op) (h : isDepDeleteOp op = true) : opRank op = 1 := by
  cases op <;> simp_all [isDepDeleteOp, opRank]

theorem rank_isDepCreate (op : Op) (h : isDepCreateOp op = true) : opRank op = 2 := by
  cases op <;> simp_all [isDepCreateOp, opRank]

theorem rank_isLBCreate (op : Op) (h : isLBCreateOp op = true) : opRank op = 3 := by
  cases op <;> simp_all [isLBCreateOp, opRank]

/-- Claim C4: in a real (non-dry-run) batch whose phases all succeed,
the remote call trace satisfies: every LB delete precedes every
dependency delete (probing deletes included — in the success path every
probe deleted its object), and every dependency create precedes every
LB create.  Stated contrapositively over ordered pairs of the trace. -/
theorem claim_C4_phase_order (env : XcEnv)
    (batch_lb_names : List String)
    (lb_src_ns : List (String × String))
    (lb_configs : List (String × PyDict))
    (batch_deps_ordered : List (String × String × String))
    (batch_dep_configs : List ((String × String) × PyDict))
    (conflict_skipped_deps secret_cert_keys : List (String × String))
    (dep_rename_map : List ((String × String) × String))
    (lb_planned : List (String × (PyDict × PyDict)))
    (lb_rename_map : List (String × String))
    (move_set : List (String × String))
    (target_namespace : String)
    (trace : List Op)
    (h : execute_batch env batch_lb_names lb_src_ns lb_configs batch_deps_ordered
      batch_dep_configs conflict_skipped_deps secret_cert_keys dep_rename_map
      lb_planned lb_rename_map move_set target_namespace = (trace, .success)) :
    trace.Pairwise fun a b =>
      ¬(isDepDeleteOp a = true ∧ isLBDeleteOp b = true) ∧
      ¬(isLBCreateOp a = true ∧ isDepCreateOp b = true) := by
  rw [execute_batch] at h
  simp only [] at h
  split at h
  · exact BatchOutcome.noConfusion (congrArg Prod.snd h)
  · split at h
    · exact BatchOutcome.noConfusion (congrArg Prod.snd h)
    · exact BatchOutcome.noConfusion (congrArg Prod.snd h)
    · split at h
      · exact BatchOutcome.noConfusion (congrArg Prod.snd h)
      · split at h
        · exact BatchOutcome.noConfusion (congrArg Prod.snd h)
        · split at h
          · exact BatchOutcome.noConfusion (congrArg Prod.snd h)
          · have htr := congrArg Prod.fst h
            simp only [] at htr
            have hA := phase3a_rank env lb_src_ns lb_configs batch_lb_names
            have hB := phase3b_rank env move_set conflict_skipped_deps secret_cert_keys
              batch_dep_configs batch_deps_ordered
            have hC := phase3bActual_rank env
              ((phase3b env move_set conflict_skipped_deps secret_cert_keys
                batch_dep_configs batch_deps_ordered).2.1.map fun t => (t.1, t.2.1))
              conflict_skipped_deps secret_cert_keys batch_dep_configs batch_deps_ordered
            have hD := phase4a_rank env
              ((alookup lb_src_ns (batch_lb_names.headD "")).getD "")
              target_namespace conflict_skipped_deps secret_cert_keys batch_dep_configs
              dep_rename_map batch_deps_ordered.reverse
            have hE := phase4b_rank env target_namespace lb_planned lb_rename_map
              batch_lb_names
            have hmono : trace.Pairwise fun a b => opRank a ≤ opRank b := by
              rw [← htr]
              refine List.pairwise_append.mpr ⟨?_, ?_, ?_⟩
              · refine List.pairwise_append.mpr ⟨?_, ?_, ?_⟩
                · refine List.pairwise_append.mpr ⟨?_, ?_, ?_⟩
                  · refine List.pairwise_append.mpr ⟨?_, ?_, ?_⟩
                    · exact pairwise_rank_const _ 0 hA
                    · exact pairwise_rank_const _ 1 hB
                    · intro a ha b hb
                      rw [hA a ha, hB b hb]
                      omega
                  · exact pairwise_rank_const _ 1 hC
                  · intro a ha b hb
                    rw [hC b hb]
                    rcases List.mem_append.mp ha with ha | ha
                    · rw [hA a ha]; omega
                    · rw [hB a ha]
                · exact pairwise_rank_const _ 2 hD
                · intro a ha b hb
                  rw [hD b hb]
                  rcases List.mem_append.mp ha with ha | ha
                  · rcases List.mem_append.mp ha with ha | ha
                    · rw [hA a ha]; omega
                    · rw [hB a ha]; omega
                  · rw [hC a ha]; omega
              · exact pairwise_rank_const _ 3 hE
              · intro a ha b hb
                rw [hE b hb]
                rcases List.mem_append.mp ha with ha | ha
                · rcases List.mem_append.mp ha with ha | ha
                  · rcases List.mem_append.mp ha with ha | ha
                    · rw [hA a ha]; omega
                    · rw [hB a ha]; omega
                  · rw [hC a ha]; omega
                · rw [hD a ha]; omega
            refine hmono.imp ?_
            intro a b hle
            constructor
            · rintro ⟨ha, hb⟩
              rw [rank_isDepDelete a ha, rank_isLBDelete b hb] at hle
              omega
            · rintro ⟨ha, hb⟩
              rw [rank_isLBCreate a ha, rank_isDepCreate b hb] at hle
              omega

/-- A concrete environment for the C4 witness: every call succeeds, the
fresh dependency GET shows no referrers, and the probe deletes the
object. -/
def execEnvEx : XcEnv where
  delete_http_loadbalancer := fun _ _ => .ok ()
  delete_config_object := fun _ _ _ => .ok ()
  create_config_object := fun _ _ _ _ => .ok ()
  create_http_loadbalancer := fun _ _ _ => .ok ()
  get_http_loadbalancer := fun _ _ => .ok .nil
  get_config_object := fun _ _ _ => .ok .nil
  probe_delete_config_object := fun _ _ _ => .ok []

/-- Witness for claim C4: a one-LB one-dependency batch with an
all-success environment runs to `success` and its trace satisfies the
phase-order property. -/
theorem claim_C4_witness :
    (execute_batch execEnvEx ["lb-a"] [("lb-a", "ns1")] [("lb-a", .nil)]
      [("origin_pools", "op-shared", "ns1")] [(("origin_pools", "op-shared"), .nil)]
      [] [] [] [("lb-a", (.nil, .nil))] [] [("ns1", "lb-a")] "ns2").1.Pairwise
      (fun a b =>
        ¬(isDepDeleteOp a = true ∧ isLBDeleteOp b = true) ∧
        ¬(isLBCreateOp a = true ∧ isDepCreateOp b = true)) :=
  claim_C4_phase_order execEnvEx ["lb-a"] [("lb-a", "ns1")] [("lb-a", .nil)]
    [("origin_pools", "op-shared", "ns1")] [(("origin_pools", "op-shared"), .nil)]
    [] [] [] [("lb-a", (.nil, .nil))] [] [("ns1", "lb-a")] "ns2" _ (by decide)

mutual

/-- Every reference `find_ns_refs` yields carries the source namespace,
which is never reserved — value case. -/
theorem find_ns_refs_reserved_val :
    ∀ (v : PyVal) (src path : String), ∀ e ∈ find_ns_refs v src path,
      e.2.2 = src ∧ src ∉ SKIP_NAMESPACES
  | .dict kvs, src, path, e, he => by
    rw [find_ns_refs] at he
    by_cases href : isRefDict kvs
    · rw [if_pos href] at he
      split at he
      · rename_i hcond
        simp only [Bool.and_eq_true, decide_eq_true_eq] at hcond
        simp only [List.mem_singleton] at he
        subst he
        exact ⟨rfl, hcond.2⟩
      · exact absurd he (List.not_mem_nil e)
    · rw [if_neg href] at he
      exact find_ns_refs_reserved_dict kvs src path e he
  | .list xs, src, path, e, he => by
    rw [find_ns_refs] at he
    exact find_ns_refs_reserved_list xs src path 0 e he
  | .str s, src, path, e, he => absurd he (List.not_mem_nil e)
  | .int n, src, path, e, he => absurd he (List.not_mem_nil e)
  | .bool b, src, path, e, he => absurd he (List.not_mem_nil e)
  | .pynone, src, path, e, he => absurd he (List.not_mem_nil e)

/-- Dict case of `find_ns_refs_reserved_val`. -/
theorem find_ns_refs_reserved_dict :
    ∀ (kvs : PyDict) (src path : String), ∀ e ∈ find_ns_refs_dict kvs src path,
      e.2.2 = src ∧ src ∉ SKIP_NAMESPACES
  | .nil, src, path, e, he => absurd he (List.not_mem_nil e)
  | .cons k v tl, src, path, e, he => by
    rw [find_ns_refs_dict] at he
    rcases List.mem_append.mp he with he | he
    · exact find_ns_refs_reserved_val v src (path ++ "." ++ k) e he
    · exact find_ns_refs_reserved_dict tl src path e he

/-- List case of `find_ns_refs_reserved_val`. -/
theorem find_ns_refs_reserved_list :
    ∀ (xs : PyList) (src path : String) (i : Nat),
      ∀ e ∈ find_ns_refs_list xs src path i,
      e.2.2 = src ∧ src ∉ SKIP_NAMESPACES
  | .nil, src, path, i, e, he => absurd he (List.not_mem_nil e)
  | .cons v tl, src, path, i, e, he => by
    rw [find_ns_refs_list] at he
    rcases List.mem_append.mp he with he | he
    · exact find_ns_refs_reserved_val v src (path ++ "[" ++ toString i ++ "]") e he
    · exact find_ns_refs_reserved_list tl src path (i + 1) e he

end

instance exceptDecEq {α β : Type} [DecidableEq α] [DecidableEq β] : DecidableEq (Except α β)
  | .ok a, .ok b =>
    if h : a = b then isTrue (h ▸ rfl) else isFalse fun he => h (Except.ok.inj he)
  | .error a, .error b =>
    if h : a = b then isTrue (h ▸ rfl) else isFalse fun he => h (Except.error.inj he)
  | .ok _, .error _ => isFalse Except.noConfusion
  | .error _, .ok _ => isFalse Except.noConfusion

/-- Claim C3 (code bug): dependency discovery can never yield an entry
from a reserved namespace — every reference `find_ns_refs` returns
carries the (non-reserved) source namespace, so discovery, the
dependency delete/create loops and rollback never touch `system` or
`shared` objects.  The LB operations, however, use the CSV-provided
source namespace with no reserved-namespace check: the CSV row
`system,lb-a` passes `_read_csv` validation, and Phase 3a then issues a
DELETE for `lb-a` in namespace `system`, contradicting the claim and
the code's own SKIP_NAMESPACES documentation. -/
theorem claim_C3_no_reserved_move :
    (∀ (doc : PyVal) (src path : String), ∀ e ∈ find_ns_refs doc src path,
      e.2.2 = src ∧ src ∉ SKIP_NAMESPACES) ∧
    read_csv_entries ["namespace,lb_name", "system,lb-a"] = .ok [("system", "lb-a")] ∧
    (phase3a execEnvEx [("lb-a", "system")] [("lb-a", .nil)] ["lb-a"]).1 =
      [Op.delete_lb "system" "lb-a"] := by
  refine ⟨find_ns_refs_reserved_val, by decide, by decide⟩

/-- Witness for claim C3 at a concrete document: a reference record in
namespace `ns1` is reported with that namespace, which is not
reserved. -/
theorem claim_C3_witness :
    ((".spec.pool", PyVal.str "op1", "ns1") : String × PyVal × String).2.2 = "ns1" ∧
      "ns1" ∉ SKIP_NAMESPACES :=
  claim_C3_no_reserved_move.1
    (.dict (.cons "name" (.str "op1") (.cons "namespace" (.str "ns1") .nil)))
    "ns1" ".spec.pool" (".spec.pool", PyVal.str "op1", "ns1") (by decide)

/-! ## client.py: `discover_dependencies` (termination, claim C9)

The remote configuration store is a finite association list from
`(namespace, resource_type, name)` to the object's config; a missing
entry is the fetch failure the source logs and tolerates.  The `while
queue` loop becomes a fuel-indexed loop; `discover_fuel` computes an
explicit bound from the measure `queue length + total weight of the
not-yet-seen remote objects`, which strictly decreases every
iteration. -/

/-- The `(resource_type, name)` deduplication key of a queue or result
entry. -/
def depKeyOf (t : String × PyVal × String) : String × PyVal := (t.1, t.2.1)

/-- The references found in an object's spec:
`find_ns_refs(config.get("spec") or {}, src_namespace)`. -/
def subRefsOf (src : String) (cfg : PyDict) : List (String × PyVal × String) :=
  find_ns_refs (.dict (pyValDict (cfg.getOrTruthy "spec" (.dict .nil)))) src ""

/-- Measure weight of one remote object: its sub-references plus one. -/
def entryWeight (src : String) (cfg : PyDict) : Nat :=
  (subRefsOf src cfg).length + 1

/-- Total weight of the remote objects in the source namespace whose
key has not been seen yet. -/
def remoteMeasure (remote : List ((String × String × PyVal) × PyDict)) (src : String)
    (seen : List (String × PyVal)) : Nat :=
  ((remote.filter fun e =>
      decide (e.1.1 = src) && decide ((e.1.2.1, e.1.2.2) ∉ seen)).map
    fun e => entryWeight src e.2).sum

/-- The `while queue` loop of `XCClient.discover_dependencies`
(client.py 437-470), fuel-indexed: pop a reference, classify its kind,
skip unclassifiable and already-seen keys, fetch the object (a failure
still records the entry), enqueue its sub-references, record the
entry. -/
def discoverLoop (remote : List ((String × String × PyVal) × PyDict)) (src_namespace : String) :
    Nat → List (String × PyVal × String) → List (String × PyVal) →
      List (String × PyVal × String) → Option (List (String × PyVal × String))
  | _, [], _, ordered => some ordered
  | 0, _ :: _, _, _ => none
  | fuel + 1, (path, obj_name, obj_ns) :: queue, seen, ordered =>
    match guess_resource_type path with
    | none => discoverLoop remote src_namespace fuel queue seen ordered
    | some resource_type =>
      if (resource_type, obj_name) ∈ seen then
        discoverLoop remote src_namespace fuel queue seen ordered
      else
        match alookup remote (obj_ns, resource_type, obj_name) with
        | none =>
          discoverLoop remote src_namespace fuel queue ((resource_type, obj_name) :: seen)
            (ordered ++ [(resource_type, obj_name, obj_ns)])
        | some obj_config =>
          discoverLoop remote src_namespace fuel (queue ++ subRefsOf src_namespace obj_config)
            ((resource_type, obj_name) :: seen)
            (ordered ++ [(resource_type, obj_name, obj_ns)])

/-- `XCClient.discover_dependencies` from client.py: BFS from the LB
spec's references. -/
def discover_dependencies (remote : List ((String × String × PyVal) × PyDict))
    (src_namespace : String) (lb_config : PyDict) (fuel : Nat) :
    Option (List (String × PyVal × String)) :=
  discoverLoop remote src_namespace fuel (subRefsOf src_namespace lb_config) [] []

/-- A sufficient fuel for `discover_dependencies`. -/
def discover_fuel (remote : List ((String × String × PyVal) × PyDict))
    (src_namespace : String) (lb_config : PyDict) : Nat :=
  (subRefsOf src_namespace lb_config).length + remoteMeasure remote src_namespace []

/-- Reduction helper for decided conditionals. -/
theorem ifTrueEq {α : Type} (x y : α) : (if true = true then x else y) = x := rfl

/-- Reduction helper for decided conditionals. -/
theorem ifFalseEq {α : Type} (x y : α) : (if false = true then x else y) = y := rfl

/-- Growing the seen set never increases the measure. -/
theorem remoteMeasure_cons_le (remote : List ((String × String × PyVal) × PyDict))
    (src : String) (seen : List (String × PyVal)) (k : String × PyVal) :
    remoteMeasure remote src (k :: seen) ≤ remoteMeasure remote src seen := by
  induction remote with
  | nil => exact Nat.le_refl _
  | cons e rest ih =>
    rw [remoteMeasure, remoteMeasure, List.filter_cons, List.filter_cons]
    by_cases h2 : (decide (e.1.1 = src) && decide ((e.1.2.1, e.1.2.2) ∉ k :: seen)) = true
    · have h1 : (decide (e.1.1 = src) && decide ((e.1.2.1, e.1.2.2) ∉ seen)) = true := by
        simp only [Bool.and_eq_true, decide_eq_true_eq] at h2 ⊢
        exact ⟨h2.1, fun hm => h2.2 (List.mem_cons_of_mem k hm)⟩
      rw [h2, h1]
      simp only [List.map_cons, List.sum_cons]
      exact Nat.add_le_add_left ih _
    · rw [Bool.not_eq_true] at h2
      rw [h2]
      by_cases h1 : (decide (e.1.1 = src) && decide ((e.1.2.1, e.1.2.2) ∉ seen)) = true
      · rw [h1]
        simp only [List.map_cons, List.sum_cons]
        exact Nat.le_trans ih (Nat.le_add_left _ _)
      · rw [Bool.not_eq_true] at h1
        rw [h1]
        exact ih

/-- Seeing the key of a fetchable object frees at least that object's
weight from the measure. -/
theorem remoteMeasure_lookup_le (remote : List ((String × String × PyVal) × PyDict))
    (src rt : String) (nm : PyVal) (cfg : PyDict) (seen : List (String × PyVal))
    (hlk : alookup remote (src, rt, nm) = some cfg) (hns : (rt, nm) ∉ seen) :
    entryWeight src cfg + remoteMeasure remote src ((rt, nm) :: seen) ≤
      remoteMeasure remote src seen := by
  induction remote with
  | nil => exact absurd hlk (by rw [alookup]; exact Option.noConfusion)
  | cons e rest ih =>
    rw [alookup] at hlk
    by_cases he : e.1 = (src, rt, nm)
    · rw [if_pos he] at hlk
      cases hlk
      have h1 : (decide (e.1.1 = src) && decide ((e.1.2.1, e.1.2.2) ∉ seen)) = true := by
        simp only [Bool.and_eq_true, decide_eq_true_eq]
        rw [he]
        exact ⟨rfl, hns⟩
      have h2 : (decide (e.1.1 = src) && decide ((e.1.2.1, e.1.2.2) ∉ (rt, nm) :: seen)) = false := by
        simp only [Bool.and_eq_false_iff]
        right
        rw [he]
        simp
      rw [remoteMeasure, remoteMeasure, List.filter_cons, List.filter_cons, h1, h2,
        ifTrueEq, ifFalseEq]
      simp only [List.map_cons, List.sum_cons]
      exact Nat.add_le_add_left (remoteMeasure_cons_le rest src seen (rt, nm)) _
    · rw [if_neg he] at hlk
      have hrec := ih hlk
      rw [remoteMeasure, remoteMeasure, List.filter_cons, List.filter_cons]
      by_cases h2 : (decide (e.1.1 = src) && decide ((e.1.2.1, e.1.2.2) ∉ (rt, nm) :: seen)) = true
      · have h1 : (decide (e.1.1 = src) && decide ((e.1.2.1, e.1.2.2) ∉ seen)) = true := by
          simp only [Bool.and_eq_true, decide_eq_true_eq] at h2 ⊢
          exact ⟨h2.1, fun hm => h2.2 (List.mem_cons_of_mem _ hm)⟩
        rw [h2, h1, ifTrueEq, ifTrueEq]
        simp only [List.map_cons, List.sum_cons]
        rw [remoteMeasure, remoteMeasure] at hrec
        omega
      · rw [Bool.not_eq_true] at h2
        rw [h2]
        by_cases h1 : (decide (e.1.1 = src) && decide ((e.1.2.1, e.1.2.2) ∉ seen)) = true
        · rw [h1, ifFalseEq, ifTrueEq]
          simp only [List.map_cons, List.sum_cons]
          rw [remoteMeasure, remoteMeasure] at hrec
          omega
        · rw [Bool.not_eq_true] at h1
          rw [h1, ifFalseEq, ifFalseEq]
          exact hrec

/-- With fuel at least the measure, the discovery loop finishes, and the
accumulated result keeps its `(resource_type, name)` keys distinct and
inside the seen set. -/
theorem discoverLoop_spec (remote : List ((String × String × PyVal) × PyDict)) (src : String) :
    ∀ (fuel : Nat) (queue : List (String × PyVal × String)) (seen : List (String × PyVal))
      (ordered : List (String × PyVal × String)),
      (∀ e ∈ queue, e.2.2 = src) →
      queue.length + remoteMeasure remote src seen ≤ fuel →
      (ordered.map depKeyOf).Nodup →
      (∀ k ∈ ordered.map depKeyOf, k ∈ seen) →
      ∃ res, discoverLoop remote src fuel queue seen ordered = some res ∧
        (res.map depKeyOf).Nodup
  | fuel, [], seen, ordered, _, _, hnd, _ => by
    rw [discoverLoop]
    exact ⟨ordered, rfl, hnd⟩
  | 0, e :: q, seen, ordered, _, hfuel, _, _ => by
    exfalso
    rw [List.length_cons] at hfuel
    omega
  | fuel + 1, (path, obj_name, obj_ns) :: queue, seen, ordered, hinv, hfuel, hnd, hsub => by
    have hns : obj_ns = src := hinv _ (List.mem_cons_self _ _)
    have hqinv : ∀ e ∈ queue, e.2.2 = src := fun e he => hinv e (List.mem_cons_of_mem _ he)
    rw [List.length_cons] at hfuel
    rw [discoverLoop]
    cases hg : guess_resource_type path with
    | none =>
      simp only []
      exact discoverLoop_spec remote src fuel queue seen ordered hqinv (by omega) hnd hsub
    | some rt =>
      simp only []
      by_cases hseen : (rt, obj_name) ∈ seen
      · rw [if_pos hseen]
        exact discoverLoop_spec remote src fuel queue seen ordered hqinv (by omega) hnd hsub
      · rw [if_neg hseen]
        have hk : (rt, obj_name) ∉ ordered.map depKeyOf := fun hm => hseen (hsub _ hm)
        have hnd2 : ((ordered ++ [(rt, obj_name, obj_ns)]).map depKeyOf).Nodup := by
          rw [List.map_append]
          exact List.Nodup.append hnd (List.nodup_singleton _)
            (by
              intro x hx hxk
              rw [List.map_cons, List.map_nil, List.mem_singleton] at hxk
              subst hxk
              exact hk hx)
        have hsub2 : ∀ k ∈ (ordered ++ [(rt, obj_name, obj_ns)]).map depKeyOf,
            k ∈ (rt, obj_name) :: seen := by
          intro k hk2
          rw [List.map_append, List.mem_append] at hk2
          cases hk2 with
          | inl h => exact List.mem_cons_of_mem _ (hsub _ h)
          | inr h =>
            rw [List.map_cons, List.map_nil, List.mem_singleton] at h
            subst h
            exact List.mem_cons_self _ _
        cases hlk : alookup remote (obj_ns, rt, obj_name) with
        | none =>
          simp only []
          have hM := remoteMeasure_cons_le remote src seen (rt, obj_name)
          exact discoverLoop_spec remote src fuel queue ((rt, obj_name) :: seen)
            (ordered ++ [(rt, obj_name, obj_ns)]) hqinv (by omega) hnd2 hsub2
        | some obj_config =>
          simp only []
          rw [hns] at hlk
          have hM := remoteMeasure_lookup_le remote src rt obj_name obj_config seen hlk hseen
          rw [entryWeight] at hM
          have hqinv2 : ∀ e ∈ queue ++ subRefsOf src obj_config, e.2.2 = src := by
            intro e he
            rw [List.mem_append] at he
            cases he with
            | inl h => exact hqinv e h
            | inr h =>
              rw [subRefsOf] at h
              exact (find_ns_refs_reserved_val _ src "" e h).1
          refine discoverLoop_spec remote src fuel (queue ++ subRefsOf src obj_config)
            ((rt, obj_name) :: seen) (ordered ++ [(rt, obj_name, obj_ns)]) hqinv2 ?_ hnd2 hsub2
          rw [List.length_append]
          omega

/-- claim C9: `discover_dependencies` terminates on every finite remote
state — fuel computed from the finite object store suffices for the
loop to drain its queue, cyclic reference graphs included — and the
seen-set deduplication keeps the returned list free of repeated
`(resource_type, name)` keys. -/
theorem claim_C9_discover_dependencies (remote : List ((String × String × PyVal) × PyDict))
    (src_namespace : String) (lb_config : PyDict) :
    ∃ res, discover_dependencies remote src_namespace lb_config
        (discover_fuel remote src_namespace lb_config) = some res ∧
      (res.map depKeyOf).Nodup := by
  rw [discover_dependencies]
  exact discoverLoop_spec remote src_namespace (discover_fuel remote src_namespace lb_config)
    (subRefsOf src_namespace lb_config) [] []
    (fun e he => by
      rw [subRefsOf] at he
      exact (find_ns_refs_reserved_val _ src_namespace "" e he).1)
    (Nat.le_of_eq rfl) List.nodup_nil (fun k hk => absurd hk (List.not_mem_nil k))

/-! ## orchestrator.py: `UnionFind` and `cluster_batches` (claim C1)

The `_parent` dict is an association list; `find`'s `while` loop
(path halving) gets explicit fuel `len(parent) + 1`, proved sufficient
below.  Python dict iteration order is insertion order, so
`dep_to_lbs` / `batch_map` become assoc lists with append-on-new-key
(`dictAppend`). -/

/-- One parent-pointer step: `self._parent[x]`, with the convention
that a missing key acts as its own parent (the code only reads keys it
has inserted). -/
def pstep (p : List (String × String)) (x : String) : String := (alookup p x).getD x

/-- Iterated parent pointers. -/
def piter (p : List (String × String)) : Nat → String → String
  | 0, x => x
  | n + 1, x => piter p n (pstep p x)

/-- The keys of the `_parent` map. -/
def pkeys (p : List (String × String)) : List String := p.map Prod.fst

/-- `r` is the root of `x`: reachable along parent pointers and a
fixed point. -/
def RootOf (p : List (String × String)) (x r : String) : Prop :=
  (∃ n, piter p n x = r) ∧ pstep p r = r

/-- `y` and `z` belong to the same union-find class. -/
def sameRoot (p : List (String × String)) (y z : String) : Prop :=
  ∃ r, RootOf p y r ∧ RootOf p z r

/-- The `while self._parent[x] != x` loop of `UnionFind.find` with its
path-halving writes: `parent[x] = parent[parent[x]]; x = parent[x]`. -/
def UnionFind.findLoop : Nat → List (String × String) → String → List (String × String) × String
  | 0, p, x => (p, x)
  | fuel + 1, p, x =>
    match alookup p x with
    | none => (p, x)
    | some px =>
      if px = x then (p, x)
      else UnionFind.findLoop fuel (updateMap p x (fun _ => pstep p px)) (pstep p px)

/-- `UnionFind.find`: insert `x ↦ x` when absent, then run the halving
loop (fuel `len + 1` is enough, see `findLoop_spec`). -/
def UnionFind.find (p : List (String × String)) (x : String) :
    List (String × String) × String :=
  let p1 := if (alookup p x).isSome then p else p ++ [(x, x)]
  UnionFind.findLoop (p1.length + 1) p1 x

/-- `UnionFind.union`: find both roots (each find mutates the parent
map), then graft `ra` onto `rb` when they differ. -/
def UnionFind.union (p : List (String × String)) (a b : String) : List (String × String) :=
  let fa := UnionFind.find p a
  let fb := UnionFind.find fa.1 b
  if fa.2 ≠ fb.2 then updateMap fb.1 fa.2 (fun _ => fb.2) else fb.1

/-- `d.setdefault(key, []).append(val)` on an insertion-ordered dict. -/
def dictAppend {K : Type} [DecidableEq K] :
    List (K × List String) → K → String → List (K × List String)
  | [], k, lb => [(k, [lb])]
  | (k0, lbs) :: rest, k, lb =>
    if k0 = k then (k0, lbs ++ [lb]) :: rest else (k0, lbs) :: dictAppend rest k lb

/-- Inner loop of `cluster_batches` phase one: record `lb_name` under
each `(resource_type, dep_name)` key of its dependency list. -/
def addDeps (m : List ((String × String) × List String)) (lb_name : String)
    (deps : List (String × String × String)) : List ((String × String) × List String) :=
  deps.foldl (fun acc d => dictAppend acc (d.1, d.2.1) lb_name) m

/-- First loop of `cluster_batches`: ensure every LB is in the
union-find and build `dep_to_lbs`. -/
def clusterPhase1 : List (String × List (String × String × String)) →
    List (String × String) → List ((String × String) × List String) →
    List (String × String) × List ((String × String) × List String)
  | [], p, m => (p, m)
  | (lb_name, deps) :: rest, p, m =>
    clusterPhase1 rest (UnionFind.find p lb_name).1 (addDeps m lb_name deps)

/-- `for i in range(1, len(lb_names)): uf.union(lb_names[0], lb_names[i])`. -/
def unionFirstRest (p : List (String × String)) (lb_names : List String) :
    List (String × String) :=
  match lb_names with
  | [] => p
  | first :: rest => rest.foldl (fun acc lb => UnionFind.union acc first lb) p

/-- Second loop of `cluster_batches`: union all LBs sharing a dep key. -/
def clusterPhase2 (dep_to_lbs : List ((String × String) × List String))
    (p : List (String × String)) : List (String × String) :=
  dep_to_lbs.foldl (fun acc kv => unionFirstRest acc kv.2) p

/-- Third loop of `cluster_batches`: group the LB names by their root
into `batch_map` (threading the parent map through the finds). -/
def clusterPhase3 : List String → List (String × String) → List (String × List String) →
    List (String × String) × List (String × List String)
  | [], p, bm => (p, bm)
  | lb :: rest, p, bm =>
    clusterPhase3 rest (UnionFind.find p lb).1
      (dictAppend bm (UnionFind.find p lb).2 lb)

/-- `cluster_batches` from orchestrator.py: returns
`(batches, dep_to_lbs)`. -/
def cluster_batches (lb_deps : List (String × List (String × String × String))) :
    List (List String) × List ((String × String) × List String) :=
  let s1 := clusterPhase1 lb_deps [] []
  let p2 := clusterPhase2 s1.2 s1.1
  let s3 := clusterPhase3 (lb_deps.map Prod.fst) p2 []
  (s3.2.map Prod.snd, s1.2)

/-- Spec-side relation: `lb` has dependency key `k` in the input map. -/
def hasDepKey (lb_deps : List (String × List (String × String × String)))
    (lb : String) (k : String × String) : Prop :=
  ∃ e ∈ lb_deps, e.1 = lb ∧ ∃ d ∈ e.2, (d.1, d.2.1) = k

/-- Spec-side relation: `y` and `z` have a `(resource_type, dep_name)`
dependency key in common (the claim's "share at least one dependency"). -/
def sharesDep (lb_deps : List (String × List (String × String × String)))
    (y z : String) : Prop :=
  ∃ ey ∈ lb_deps, ey.1 = y ∧ ∃ ez ∈ lb_deps, ez.1 = z ∧
    ∃ dy ∈ ey.2, ∃ dz ∈ ez.2, dy.1 = dz.1 ∧ dy.2.1 = dz.2.1

/-- The counterexample input: A and B share pool x, B and C share pool
y, A and C share nothing. -/
def exC1 : List (String × List (String × String × String)) :=
  [("A", [("origin_pools", "x", "ns1")]),
   ("B", [("origin_pools", "x", "ns1"), ("origin_pools", "y", "ns1")]),
   ("C", [("origin_pools", "y", "ns1")])]

instance sharesDepDecidable (lb_deps : List (String × List (String × String × String)))
    (y z : String) : Decidable (sharesDep lb_deps y z) := by
  unfold sharesDep
  exact inferInstance

/-- claim C1, counterexample: on `exC1` the code puts A and C into the
same batch although they share no `(resource_type, dep_name)` key —
the claim's "LBs with no dependency overlap are in distinct batches"
(read over every pair) is false for `cluster_batches`. -/
theorem claim_C1_counterexample :
    (∃ b ∈ (cluster_batches exC1).1, "A" ∈ b ∧ "C" ∈ b) ∧ ¬ sharesDep exC1 "A" "C" := by
  decide

/-- Unfolding one parent step at the end of an iteration. -/
theorem piter_succ_right (p : List (String × String)) :
    ∀ (n : Nat) (x : String), piter p (n + 1) x = pstep p (piter p n x)
  | 0, _ => rfl
  | n + 1, x => piter_succ_right p n (pstep p x)

/-- Iteration splits into two runs. -/
theorem piter_add (p : List (String × String)) :
    ∀ (m n : Nat) (x : String), piter p (m + n) x = piter p n (piter p m x)
  | 0, n, x => by
    rw [Nat.zero_add]
    rfl
  | m + 1, n, x => by
    have h : m + 1 + n = m + n + 1 := by omega
    rw [h]
    exact piter_add p m n (pstep p x)

/-- A fixed point stays fixed under iteration. -/
theorem piter_fixed (p : List (String × String)) (r : String) (hr : pstep p r = r) :
    ∀ n, piter p n r = r
  | 0 => rfl
  | n + 1 => by
    show piter p n (pstep p r) = r
    rw [hr]
    exact piter_fixed p r hr n

/-- A node has at most one root. -/
theorem rootOf_unique (p : List (String × String)) (x r s : String)
    (h1 : RootOf p x r) (h2 : RootOf p x s) : r = s := by
  obtain ⟨⟨n, hn⟩, hr⟩ := h1
  obtain ⟨⟨m, hm⟩, hs⟩ := h2
  rcases Nat.le_total n m with h | h
  · have hx : piter p m x = r := by
      have he : n + (m - n) = m := by omega
      rw [← he, piter_add, hn, piter_fixed p r hr]
    rw [hx] at hm
    exact hm
  · have hx : piter p n x = s := by
      have he : m + (n - m) = n := by omega
      rw [← he, piter_add, hm, piter_fixed p s hs]
    rw [hx] at hn
    exact hn.symm

/-- A fixed point is its own root. -/
theorem rootOf_self (p : List (String × String)) (r : String) (hr : pstep p r = r) :
    RootOf p r r := ⟨⟨0, rfl⟩, hr⟩

/-- Prepending a parent step to a root path. -/
theorem rootOf_step (p : List (String × String)) (x r : String)
    (h : RootOf p (pstep p x) r) : RootOf p x r := by
  obtain ⟨⟨n, hn⟩, hr⟩ := h
  exact ⟨⟨n + 1, hn⟩, hr⟩

/-- A node's parent has the same root. -/
theorem rootOf_pstep (p : List (String × String)) (x r : String) (h : RootOf p x r) :
    RootOf p (pstep p x) r := by
  by_cases hx : pstep p x = x
  · rw [hx]
    exact h
  · obtain ⟨⟨n, hn⟩, hr⟩ := h
    cases n with
    | zero =>
      simp only [piter] at hn
      subst hn
      exact absurd hr hx
    | succ n => exact ⟨⟨n, hn⟩, hr⟩

/-- A successful lookup pinpoints an entry. -/
theorem alookup_mem {K V : Type} [DecidableEq K] (m : List (K × V)) (k : K) (v : V)
    (h : alookup m k = some v) : (k, v) ∈ m := by
  induction m with
  | nil => exact absurd h (by rw [alookup]; exact Option.noConfusion)
  | cons kv tl ih =>
    rw [alookup] at h
    by_cases hk : kv.1 = k
    · rw [if_pos hk] at h
      cases h
      rw [← hk]
      exact List.mem_cons_self _ _
    · rw [if_neg hk] at h
      exact List.mem_cons_of_mem _ (ih h)

/-- Keys have a lookup value. -/
theorem mem_pkeys_alookup (p : List (String × String)) (x : String) (h : x ∈ pkeys p) :
    ∃ v, alookup p x = some v := by
  induction p with
  | nil => exact absurd h (List.not_mem_nil x)
  | cons kv tl ih =>
    rw [pkeys, List.map_cons, List.mem_cons] at h
    rw [alookup]
    by_cases hk : kv.1 = x
    · rw [if_pos hk]
      exact ⟨kv.2, rfl⟩
    · rw [if_neg hk]
      cases h with
      | inl h => exact absurd h.symm hk
      | inr h => exact ih h

/-- Non-keys look up to nothing. -/
theorem alookup_none_of_not_mem (p : List (String × String)) (x : String)
    (h : x ∉ pkeys p) : alookup p x = none := by
  induction p with
  | nil => rfl
  | cons kv tl ih =>
    rw [pkeys, List.map_cons, List.mem_cons] at h
    push_neg at h
    rw [alookup, if_neg (fun he => h.1 he.symm)]
    exact ih h.2

/-- Parent values stay inside the key set (the dict never charts a
path out of itself). -/
def pclosed (p : List (String × String)) : Prop := ∀ e ∈ p, e.2 ∈ pkeys p

/-- One step stays inside the keys. -/
theorem pstep_mem (p : List (String × String)) (x : String) (hc : pclosed p)
    (hx : x ∈ pkeys p) : pstep p x ∈ pkeys p := by
  obtain ⟨v, hv⟩ := mem_pkeys_alookup p x hx
  rw [pstep, hv, Option.getD_some]
  exact hc (x, v) (alookup_mem p x v hv)

/-- Iteration stays inside the keys. -/
theorem piter_mem (p : List (String × String)) (hc : pclosed p) :
    ∀ (n : Nat) (x : String), x ∈ pkeys p → piter p n x ∈ pkeys p
  | 0, _, hx => hx
  | n + 1, x, hx => piter_mem p hc n (pstep p x) (pstep_mem p x hc hx)

/-- A non-root node is never revisited on its way to the root. -/
theorem no_revisit (p : List (String × String)) (x r : String)
    (hstep : pstep p x ≠ x) (hroot : RootOf p x r) :
    ∀ k, 1 ≤ k → piter p k x ≠ x := by
  intro k hk hcontra
  obtain ⟨⟨n, hn⟩, hr⟩ := hroot
  have hper : ∀ j, piter p (j * k) x = x := by
    intro j
    induction j with
    | zero =>
      rw [Nat.zero_mul]
      rfl
    | succ j ih =>
      have he : (j + 1) * k = j * k + k := by rw [Nat.succ_mul]
      rw [he, piter_add, ih, hcontra]
  have hxr : x = r := by
    have h1 : n * 1 ≤ n * k := Nat.mul_le_mul_left n hk
    rw [Nat.mul_one] at h1
    have h2 : piter p (n * k) x = r := by
      have he : n + (n * k - n) = n * k := by omega
      rw [← he, piter_add, hn, piter_fixed p r hr]
    rw [hper n] at h2
    exact h2
  rw [← hxr] at hr
  exact hstep hr

/-- Pigeonhole: a key reaches its root within `len(parent)` steps. -/
theorem rootOf_bounded (p : List (String × String)) (x r : String) (hc : pclosed p)
    (hx : x ∈ pkeys p) (h : RootOf p x r) :
    ∃ n, n < p.length ∧ piter p n x = r := by
  obtain ⟨⟨n, hn⟩, hr⟩ := h
  have hex : ∃ m, pstep p (piter p m x) = piter p m x := ⟨n, by rw [hn]; exact hr⟩
  have hfix : pstep p (piter p (Nat.find hex) x) = piter p (Nat.find hex) x :=
    Nat.find_spec hex
  have hstab : ∀ m, piter p (Nat.find hex + m) x = piter p (Nat.find hex) x := by
    intro m
    rw [piter_add]
    exact piter_fixed p _ hfix m
  have hle : Nat.find hex ≤ n := Nat.find_min' hex (by rw [hn]; exact hr)
  have hn₀r : piter p (Nat.find hex) x = r := by
    have he : Nat.find hex + (n - Nat.find hex) = n := by omega
    rw [← hn, ← he, hstab]
  have hinj : ∀ k l, k < l → l ≤ Nat.find hex → piter p k x ≠ piter p l x := by
    intro k l hkl hl heq
    have hd : 1 ≤ l - k := by omega
    have hper : ∀ j, piter p (k + j * (l - k)) x = piter p k x := by
      intro j
      induction j with
      | zero =>
        rw [Nat.zero_mul, Nat.add_zero]
      | succ j ih =>
        have he : k + (j + 1) * (l - k) = k + j * (l - k) + (l - k) := by
          rw [Nat.succ_mul]
          omega
        rw [he, piter_add, ih, ← piter_add]
        have he2 : k + (l - k) = l := by omega
        rw [he2, ← heq]
    have h1 : Nat.find hex * 1 ≤ Nat.find hex * (l - k) := Nat.mul_le_mul_left _ hd
    rw [Nat.mul_one] at h1
    have h2 : piter p (k + Nat.find hex * (l - k)) x = r := by
      have he : Nat.find hex + (k + Nat.find hex * (l - k) - Nat.find hex) =
          k + Nat.find hex * (l - k) := by omega
      rw [← he, hstab, hn₀r]
    rw [hper (Nat.find hex)] at h2
    have hPk : pstep p (piter p k x) = piter p k x := by
      rw [h2]
      exact hr
    exact Nat.find_min hex (show k < Nat.find hex by omega) hPk
  have hLnd : ((List.range (Nat.find hex + 1)).map (fun k => piter p k x)).Nodup := by
    refine List.Nodup.map_on ?_ (List.nodup_range (Nat.find hex + 1))
    intro a ha b hb heq
    rw [List.mem_range] at ha hb
    rcases Nat.lt_trichotomy a b with hab | hab | hab
    · exact absurd heq (hinj a b hab (by omega))
    · exact hab
    · exact absurd heq.symm (hinj b a hab (by omega))
  have hsub : ∀ e ∈ (List.range (Nat.find hex + 1)).map (fun k => piter p k x),
      e ∈ pkeys p := by
    intro e he
    rw [List.mem_map] at he
    obtain ⟨k, _, hk⟩ := he
    rw [← hk]
    exact piter_mem p hc k x hx
  have hcard : Nat.find hex + 1 ≤ p.length := by
    have h1 : ((List.range (Nat.find hex + 1)).map (fun k => piter p k x)).toFinset.card
        = Nat.find hex + 1 := by
      rw [List.toFinset_card_of_nodup hLnd, List.length_map, List.length_range]
    have h2 : ((List.range (Nat.find hex + 1)).map fun k => piter p k x).toFinset ⊆
        (pkeys p).toFinset :=
      fun t ht => List.mem_toFinset.mpr (hsub t (List.mem_toFinset.mp ht))
    have h3 := Finset.card_le_card h2
    have h4 := List.toFinset_card_le (pkeys p)
    have h5 : (pkeys p).length = p.length := List.length_map _ _
    omega
  exact ⟨Nat.find hex, by omega, hn₀r⟩

/-- The union-find invariant: parent pointers stay inside the key set
and every node has a root. -/
def UFInv (p : List (String × String)) : Prop :=
  pclosed p ∧ ∀ x, ∃ r, RootOf p x r

/-- A string outside the parent map is its own root. -/
theorem rootOf_not_mem (p : List (String × String)) (x : String) (h : x ∉ pkeys p) :
    RootOf p x x := by
  refine rootOf_self p x ?_
  rw [pstep, alookup_none_of_not_mem p x h, Option.getD_none]

/-- The empty parent map satisfies the invariant. -/
theorem ufInv_nil : UFInv [] :=
  ⟨fun e he => absurd he (List.not_mem_nil e),
   fun x => ⟨x, rootOf_not_mem [] x (List.not_mem_nil x)⟩⟩

/-- Updating one key leaves other parent pointers alone. -/
theorem pstep_updateMap_ne (p : List (String × String)) (x g y : String) (hne : y ≠ x) :
    pstep (updateMap p x (fun _ => g)) y = pstep p y := by
  rw [pstep, pstep, alookup_updateMap_ne p y x (fun _ => g) (Ne.symm hne)]

/-- The updated key points to the new value. -/
theorem pstep_updateMap_self (p : List (String × String)) (x g : String)
    (hx : x ∈ pkeys p) : pstep (updateMap p x (fun _ => g)) x = g := by
  obtain ⟨v, hv⟩ := mem_pkeys_alookup p x hx
  rw [pstep, alookup_updateMap_self, hv]
  rfl

/-- Updates do not change the key set. -/
theorem pkeys_updateMap (p : List (String × String)) (x : String) (f : String → String) :
    pkeys (updateMap p x f) = pkeys p := by
  induction p with
  | nil => rfl
  | cons kv tl ih =>
    rw [updateMap, List.map_cons, pkeys, List.map_cons, pkeys, List.map_cons]
    by_cases h : kv.1 = x
    · rw [if_pos h]
      exact congrArg (List.cons kv.1) ih
    · rw [if_neg h]
      exact congrArg (List.cons kv.1) ih

/-- Entries of an updated map: untouched, or carrying the new value. -/
theorem mem_updateMap (p : List (String × String)) (x g : String)
    (e : String × String) (h : e ∈ updateMap p x (fun _ => g)) : e ∈ p ∨ e.2 = g := by
  rw [updateMap, List.mem_map] at h
  obtain ⟨a, ha, he⟩ := h
  by_cases hax : a.1 = x
  · rw [if_pos hax] at he
    right
    rw [← he]
  · rw [if_neg hax] at he
    left
    rw [← he]
    exact ha

/-- Closure survives an update to a value inside the keys. -/
theorem pclosed_updateMap (p : List (String × String)) (x g : String)
    (hc : pclosed p) (hg : g ∈ pkeys p) : pclosed (updateMap p x (fun _ => g)) := by
  intro e he
  rw [pkeys_updateMap]
  rcases mem_updateMap p x g e he with h | h
  · exact hc e h
  · rw [h]
    exact hg

/-- A path that avoids the updated key is unchanged. -/
theorem piter_transfer (p : List (String × String)) (x g : String) :
    ∀ (n : Nat) (y : String), (∀ k, k < n → piter p k y ≠ x) →
      piter (updateMap p x (fun _ => g)) n y = piter p n y
  | 0, _, _ => rfl
  | n + 1, y, havoid => by
    have hy : y ≠ x := havoid 0 (by omega)
    show piter (updateMap p x fun _ => g) n (pstep (updateMap p x fun _ => g) y) =
      piter p n (pstep p y)
    rw [pstep_updateMap_ne p x g y hy]
    exact piter_transfer p x g n (pstep p y) (fun k hk => havoid (k + 1) (by omega))

/-- A node whose whole orbit avoids the updated key keeps its root. -/
theorem rootOf_updateMap_avoid (p : List (String × String)) (x g y r : String)
    (hy : ∀ k, piter p k y ≠ x) (h : RootOf p y r) :
    RootOf (updateMap p x (fun _ => g)) y r := by
  obtain ⟨⟨n, hn⟩, hr⟩ := h
  have hrx : r ≠ x := fun hc => hy n (hn.trans hc)
  constructor
  · exact ⟨n, by rw [piter_transfer p x g n y (fun k _ => hy k), hn]⟩
  · rw [pstep_updateMap_ne p x g r hrx]
    exact hr

/-- The path-halving write `parent[x] = parent[parent[x]]` keeps the
invariant, the key set, and every node's root; the written value has
the same root as `x`. -/
theorem rootOf_halving (p : List (String × String)) (x px r : String)
    (hlk : alookup p x = some px) (hne : px ≠ x) (hinv : UFInv p) (hroot : RootOf p x r) :
    pclosed (updateMap p x (fun _ => pstep p px)) ∧
    pkeys (updateMap p x (fun _ => pstep p px)) = pkeys p ∧
    (∀ y s, RootOf p y s ↔ RootOf (updateMap p x (fun _ => pstep p px)) y s) ∧
    RootOf (updateMap p x (fun _ => pstep p px)) (pstep p px) r ∧
    (∀ k, piter (updateMap p x (fun _ => pstep p px)) k (pstep p px) =
      piter p k (pstep p px)) := by
  obtain ⟨hc, htot⟩ := hinv
  have hpstepx : pstep p x = px := by rw [pstep, hlk, Option.getD_some]
  have hxk : x ∈ pkeys p := List.mem_map_of_mem Prod.fst (alookup_mem p x px hlk)
  have hxnotroot : pstep p x ≠ x := by
    rw [hpstepx]
    exact hne
  have hgroot : RootOf p (pstep p px) r := by
    have h1 : RootOf p px r := by
      have h2 := rootOf_pstep p x r hroot
      rw [hpstepx] at h2
      exact h2
    exact rootOf_pstep p px r h1
  have havoidg : ∀ k, piter p k (pstep p px) ≠ x := by
    intro k
    have h3 : piter p 2 x = pstep p px := by
      show pstep p (pstep p x) = pstep p px
      rw [hpstepx]
    have h2 : piter p (2 + k) x = piter p k (pstep p px) := by
      rw [piter_add, h3]
    rw [← h2]
    exact no_revisit p x r hxnotroot hroot (2 + k) (by omega)
  have hgroot2 : RootOf (updateMap p x (fun _ => pstep p px)) (pstep p px) r :=
    rootOf_updateMap_avoid p x (pstep p px) (pstep p px) r havoidg hgroot
  have hpxk : px ∈ pkeys p := hc (x, px) (alookup_mem p x px hlk)
  have hgk : pstep p px ∈ pkeys p := pstep_mem p px hc hpxk
  have hfwd : ∀ (n : Nat) (y s : String), piter p n y = s → pstep p s = s →
      RootOf (updateMap p x fun _ => pstep p px) y s := by
    intro n
    induction n with
    | zero =>
      intro y s hn hs
      simp only [piter] at hn
      subst hn
      have hsx : y ≠ x := fun hc2 => hxnotroot (by rw [← hc2]; exact hs)
      refine rootOf_self _ y ?_
      rw [pstep_updateMap_ne p x _ y hsx]
      exact hs
    | succ n ih =>
      intro y s hn hs
      by_cases hyx : y = x
      · subst hyx
        have hsr : s = r := rootOf_unique p y s r ⟨⟨n + 1, hn⟩, hs⟩ hroot
        subst hsr
        refine rootOf_step _ y s ?_
        rw [pstep_updateMap_self p y _ hxk]
        exact hgroot2
      · have hz := ih (pstep p y) s hn hs
        refine rootOf_step _ y s ?_
        rw [pstep_updateMap_ne p x _ y hyx]
        exact hz
  have hiff : ∀ y s, RootOf p y s ↔ RootOf (updateMap p x fun _ => pstep p px) y s := by
    intro y s
    constructor
    · intro h
      obtain ⟨⟨n, hn⟩, hs⟩ := h
      exact hfwd n y s hn hs
    · intro h
      obtain ⟨t, ht⟩ := htot y
      have h2 : RootOf (updateMap p x fun _ => pstep p px) y t := by
        obtain ⟨⟨n, hn⟩, hs⟩ := ht
        exact hfwd n y t hn hs
      rw [rootOf_unique _ y s t h h2]
      exact ht
  exact ⟨pclosed_updateMap p x _ hc hgk, pkeys_updateMap p x _, hiff, hgroot2,
    fun k => piter_transfer p x (pstep p px) k (pstep p px) (fun j _ => havoidg j)⟩

/-- Lookup hits in the left part of an appended map. -/
theorem alookup_append_some {K V : Type} [DecidableEq K] (m1 m2 : List (K × V)) (k : K)
    (v : V) (h : alookup m1 k = some v) : alookup (m1 ++ m2) k = some v := by
  induction m1 with
  | nil => exact absurd h (by rw [alookup]; exact Option.noConfusion)
  | cons kv tl ih =>
    rw [alookup] at h
    rw [List.cons_append, alookup]
    by_cases hk : kv.1 = k
    · rw [if_pos hk] at h ⊢
      exact h
    · rw [if_neg hk] at h ⊢
      exact ih h

/-- Lookup falls through to the right part of an appended map. -/
theorem alookup_append_none {K V : Type} [DecidableEq K] (m1 m2 : List (K × V)) (k : K)
    (h : alookup m1 k = none) : alookup (m1 ++ m2) k = alookup m2 k := by
  induction m1 with
  | nil => rfl
  | cons kv tl ih =>
    rw [alookup] at h
    rw [List.cons_append, alookup]
    by_cases hk : kv.1 = k
    · rw [if_pos hk] at h
      exact absurd h Option.noConfusion
    · rw [if_neg hk] at h ⊢
      exact ih h

/-- Inserting the self-loop `x ↦ x` for a fresh key changes no parent
step. -/
theorem pstep_ensure (p : List (String × String)) (x : String) :
    ∀ y, pstep (p ++ [(x, x)]) y = pstep p y := by
  intro y
  cases hl : alookup p y with
  | some v => rw [pstep, pstep, alookup_append_some p [(x, x)] y v hl, hl]
  | none =>
    rw [pstep, pstep, alookup_append_none p [(x, x)] y hl, hl]
    by_cases hyx : x = y
    · subst hyx
      rw [alookup, if_pos rfl]
      rfl
    · rw [alookup, if_neg hyx]
      rfl

/-- Pointwise-equal parent steps iterate identically. -/
theorem piter_congr (p q : List (String × String)) (h : ∀ y, pstep p y = pstep q y) :
    ∀ (n : Nat) (y : String), piter p n y = piter q n y
  | 0, _ => rfl
  | n + 1, y => by
    show piter p n (pstep p y) = piter q n (pstep q y)
    rw [h y]
    exact piter_congr p q h n (pstep q y)

/-- Pointwise-equal parent steps give the same roots. -/
theorem rootOf_congr (p q : List (String × String)) (h : ∀ y, pstep p y = pstep q y)
    (y r : String) : RootOf p y r ↔ RootOf q y r := by
  constructor
  · intro hr
    obtain ⟨⟨n, hn⟩, hfix⟩ := hr
    exact ⟨⟨n, by rw [← piter_congr p q h n y, hn]⟩, by rw [← h r]; exact hfix⟩
  · intro hr
    obtain ⟨⟨n, hn⟩, hfix⟩ := hr
    exact ⟨⟨n, by rw [piter_congr p q h n y, hn]⟩, by rw [h r]; exact hfix⟩

/-- The halving loop of `find`, with fuel exceeding the path length:
returns the root, keeps the invariant, the key set and every node's
root. -/
theorem findLoop_spec :
    ∀ (fuel : Nat) (p : List (String × String)) (x : String) (n : Nat) (r : String),
      UFInv p → piter p n x = r → pstep p r = r → n < fuel → x ∈ pkeys p →
      UFInv (UnionFind.findLoop fuel p x).1 ∧
      (UnionFind.findLoop fuel p x).2 = r ∧
      pkeys (UnionFind.findLoop fuel p x).1 = pkeys p ∧
      (∀ y s, RootOf p y s ↔ RootOf (UnionFind.findLoop fuel p x).1 y s)
  | 0, _, _, _, _, _, _, _, hfuel, _ => absurd hfuel (by omega)
  | fuel + 1, p, x, n, r, hinv, hpath, hr, hfuel, hx => by
    rw [UnionFind.findLoop]
    obtain ⟨px, hlk⟩ := mem_pkeys_alookup p x hx
    rw [hlk]
    simp only []
    by_cases hpxx : px = x
    · rw [if_pos hpxx]
      have hfix : pstep p x = x := by
        rw [pstep, hlk, Option.getD_some]
        exact hpxx
      have hxr : x = r := rootOf_unique p x x r (rootOf_self p x hfix) ⟨⟨n, hpath⟩, hr⟩
      exact ⟨hinv, hxr, rfl, fun y s => Iff.rfl⟩
    · rw [if_neg hpxx]
      have hstepx : pstep p x = px := by rw [pstep, hlk, Option.getD_some]
      have hxroot : RootOf p x r := ⟨⟨n, hpath⟩, hr⟩
      obtain ⟨hc2, hkeys2, hiff2, hgroot2, htrans2⟩ :=
        rootOf_halving p x px r hlk hpxx hinv hxroot
      have hn1 : 1 ≤ n := by
        rcases Nat.eq_zero_or_pos n with h0 | h1
        · exfalso
          rw [h0] at hpath
          simp only [piter] at hpath
          subst hpath
          rw [hstepx] at hr
          exact hpxx hr
        · exact h1
      have hg2 : piter p 2 x = pstep p px := by
        show pstep p (pstep p x) = pstep p px
        rw [hstepx]
      have hgpath : piter p (n - 1) (pstep p px) = r := by
        rw [← hg2, ← piter_add]
        have he : 2 + (n - 1) = n + 1 := by omega
        rw [he, piter_succ_right, hpath, hr]
      have hgpath2 : piter (updateMap p x fun _ => pstep p px) (n - 1) (pstep p px) = r := by
        rw [htrans2 (n - 1)]
        exact hgpath
      have hr2 : pstep (updateMap p x fun _ => pstep p px) r = r := hgroot2.2
      have hinv2 : UFInv (updateMap p x fun _ => pstep p px) := by
        refine ⟨hc2, fun y => ?_⟩
        obtain ⟨t, ht⟩ := hinv.2 y
        exact ⟨t, (hiff2 y t).mp ht⟩
      have hpxk : px ∈ pkeys p := hinv.1 (x, px) (alookup_mem p x px hlk)
      have hgk : pstep p px ∈ pkeys (updateMap p x fun _ => pstep p px) := by
        rw [hkeys2]
        exact pstep_mem p px hinv.1 hpxk
      obtain ⟨ih1, ih2, ih3, ih4⟩ := findLoop_spec fuel (updateMap p x fun _ => pstep p px)
        (pstep p px) (n - 1) r hinv2 hgpath2 hr2 (by omega) hgk
      refine ⟨ih1, ih2, ih3.trans hkeys2, fun y s => (hiff2 y s).trans (ih4 y s)⟩

/-- `UnionFind.find`: the built-in fuel suffices; the returned root is
`x`'s root (already in the pre-state), the invariant holds, no node
changes root, keys only grow, and the root is a key. -/
theorem find_spec (p : List (String × String)) (x : String) (hinv : UFInv p) :
    UFInv (UnionFind.find p x).1 ∧
    (∀ y s, RootOf p y s ↔ RootOf (UnionFind.find p x).1 y s) ∧
    RootOf p x (UnionFind.find p x).2 ∧
    (UnionFind.find p x).2 ∈ pkeys (UnionFind.find p x).1 ∧
    (∀ k, k ∈ pkeys p → k ∈ pkeys (UnionFind.find p x).1) := by
  by_cases hsome : (alookup p x).isSome
  · have hunf : UnionFind.find p x = UnionFind.findLoop (p.length + 1) p x := by
      simp only [UnionFind.find]
      rw [if_pos hsome]
    obtain ⟨v, hv⟩ := Option.isSome_iff_exists.mp hsome
    have hx : x ∈ pkeys p := List.mem_map_of_mem Prod.fst (alookup_mem p x v hv)
    obtain ⟨r, hr⟩ := hinv.2 x
    obtain ⟨n, hn, hpath⟩ := rootOf_bounded p x r hinv.1 hx hr
    obtain ⟨h1, h2, h3, h4⟩ :=
      findLoop_spec (p.length + 1) p x n r hinv hpath hr.2 (by omega) hx
    rw [hunf]
    refine ⟨h1, h4, ?_, ?_, ?_⟩
    · rw [h2]
      exact hr
    · rw [h2, h3, ← hpath]
      exact piter_mem p hinv.1 n x hx
    · intro k hk
      rw [h3]
      exact hk
  · have hunf : UnionFind.find p x =
        UnionFind.findLoop ((p ++ [(x, x)]).length + 1) (p ++ [(x, x)]) x := by
      simp only [UnionFind.find]
      rw [if_neg hsome]
    have hps := pstep_ensure p x
    have hiff0 : ∀ y s, RootOf p y s ↔ RootOf (p ++ [(x, x)]) y s :=
      fun y s => rootOf_congr p (p ++ [(x, x)]) (fun z => (hps z).symm) y s
    have hk1 : pkeys (p ++ [(x, x)]) = pkeys p ++ [x] := by
      rw [pkeys, List.map_append]
      rfl
    have hinv1 : UFInv (p ++ [(x, x)]) := by
      constructor
      · intro e he
        rw [hk1]
        rcases List.mem_append.mp he with h | h
        · exact List.mem_append_left _ (hinv.1 e h)
        · rw [List.mem_singleton] at h
          subst h
          exact List.mem_append_right _ (List.mem_singleton.mpr rfl)
      · intro y
        obtain ⟨r, hr⟩ := hinv.2 y
        exact ⟨r, (hiff0 y r).mp hr⟩
    have hx1 : x ∈ pkeys (p ++ [(x, x)]) := by
      rw [hk1]
      exact List.mem_append_right _ (List.mem_singleton.mpr rfl)
    obtain ⟨r, hr⟩ := hinv.2 x
    have hr1 : RootOf (p ++ [(x, x)]) x r := (hiff0 x r).mp hr
    obtain ⟨n, hn, hpath⟩ := rootOf_bounded (p ++ [(x, x)]) x r hinv1.1 hx1 hr1
    obtain ⟨h1, h2, h3, h4⟩ := findLoop_spec ((p ++ [(x, x)]).length + 1) (p ++ [(x, x)])
      x n r hinv1 hpath hr1.2 (by omega) hx1
    rw [hunf]
    refine ⟨h1, fun y s => (hiff0 y s).trans (h4 y s), ?_, ?_, ?_⟩
    · rw [h2]
      exact hr
    · rw [h2, h3, ← hpath]
      exact piter_mem (p ++ [(x, x)]) hinv1.1 n x hx1
    · intro k hk
      rw [h3, hk1]
      exact List.mem_append_left _ hk

/-- Same roots transfer across states with the same root relation. -/
theorem sameRoot_congr (p q : List (String × String))
    (h : ∀ y s, RootOf p y s ↔ RootOf q y s) (y z : String) :
    sameRoot p y z ↔ sameRoot q y z :=
  exists_congr fun r => and_congr (h y r) (h z r)

/-- Same root means equal named roots. -/
theorem sameRoot_char (p : List (String × String)) (y z ty tz : String)
    (hy : RootOf p y ty) (hz : RootOf p z tz) :
    sameRoot p y z ↔ ty = tz := by
  constructor
  · rintro ⟨s, h1, h2⟩
    rw [← rootOf_unique p y s ty h1 hy, ← rootOf_unique p z s tz h2 hz]
  · intro h
    exact ⟨ty, hy, h ▸ hz⟩

/-- Root change produced by grafting root `ra` onto root `rb`. -/
theorem rootOf_union_update (p : List (String × String)) (ra rb : String)
    (hinv : UFInv p) (hra : pstep p ra = ra) (hrb : pstep p rb = rb) (hne : ra ≠ rb)
    (hrak : ra ∈ pkeys p) :
    ∀ y s, RootOf (updateMap p ra (fun _ => rb)) y s ↔
      ((RootOf p y s ∧ s ≠ ra) ∨ (RootOf p y ra ∧ s = rb)) := by
  have hstepo : ∀ y, y ≠ ra → pstep (updateMap p ra (fun _ => rb)) y = pstep p y :=
    fun y hy => pstep_updateMap_ne p ra rb y hy
  have hstepra : pstep (updateMap p ra (fun _ => rb)) ra = rb :=
    pstep_updateMap_self p ra rb hrak
  have hrbfix : pstep (updateMap p ra (fun _ => rb)) rb = rb := by
    rw [hstepo rb (Ne.symm hne)]
    exact hrb
  have hkeep : ∀ y s, RootOf p y s → s ≠ ra → RootOf (updateMap p ra (fun _ => rb)) y s := by
    intro y s h hs
    obtain ⟨⟨n, hn⟩, hfix⟩ := h
    have havoid : ∀ k, piter p k y ≠ ra := by
      intro k hk
      rcases Nat.le_total k n with hle | hle
      · have he : k + (n - k) = n := by omega
        have h2 : piter p n y = ra := by
          rw [← he, piter_add, hk, piter_fixed p ra hra]
        rw [hn] at h2
        exact hs h2
      · have he : n + (k - n) = k := by omega
        have h2 : piter p k y = s := by
          rw [← he, piter_add, hn, piter_fixed p s hfix]
        rw [h2] at hk
        exact hs hk
    exact rootOf_updateMap_avoid p ra rb y s havoid ⟨⟨n, hn⟩, hfix⟩
  have hmove : ∀ (n : Nat) (y : String), piter p n y = ra →
      RootOf (updateMap p ra (fun _ => rb)) y rb := by
    intro n
    induction n with
    | zero =>
      intro y hn
      simp only [piter] at hn
      subst hn
      refine rootOf_step _ y rb ?_
      rw [hstepra]
      exact rootOf_self _ rb hrbfix
    | succ n ih =>
      intro y hn
      by_cases hy : y = ra
      · subst hy
        refine rootOf_step _ y rb ?_
        rw [hstepra]
        exact rootOf_self _ rb hrbfix
      · refine rootOf_step _ y rb ?_
        rw [hstepo y hy]
        exact ih (pstep p y) hn
  intro y s
  constructor
  · intro h
    obtain ⟨t, ht⟩ := hinv.2 y
    by_cases hta : t = ra
    · right
      rw [hta] at ht
      have h2 := hmove ht.1.choose y ht.1.choose_spec
      exact ⟨ht, rootOf_unique _ y s rb h h2⟩
    · left
      have h2 := hkeep y t ht hta
      have hst := rootOf_unique _ y s t h h2
      rw [hst]
      exact ⟨ht, hta⟩
  · intro h
    rcases h with ⟨h1, h2⟩ | ⟨h1, h2⟩
    · exact hkeep y s h1 h2
    · rw [h2]
      exact hmove h1.1.choose y h1.1.choose_spec

/-- Equality of redirected roots, spelled out. -/
theorem ite_root_eq (ra rb ty tz : String) :
    ((if ty = ra then rb else ty) = (if tz = ra then rb else tz)) ↔
      (ty = tz ∨ (ty = ra ∧ tz = rb) ∨ (ty = rb ∧ tz = ra)) := by
  by_cases h1 : ty = ra <;> by_cases h2 : tz = ra
  · rw [if_pos h1, if_pos h2]
    constructor
    · intro _
      exact Or.inl (h1.trans h2.symm)
    · intro _
      rfl
  · rw [if_pos h1, if_neg h2]
    constructor
    · intro h
      exact Or.inr (Or.inl ⟨h1, h.symm⟩)
    · rintro (h | ⟨_, h⟩ | ⟨_, hc⟩)
      · exact absurd (h.symm.trans h1) h2
      · exact h.symm
      · exact absurd hc h2
  · rw [if_neg h1, if_pos h2]
    constructor
    · intro h
      exact Or.inr (Or.inr ⟨h, h2⟩)
    · rintro (h | ⟨hc, _⟩ | ⟨h, _⟩)
      · exact absurd (h.trans h2) h1
      · exact absurd hc h1
      · exact h
  · rw [if_neg h1, if_neg h2]
    constructor
    · exact Or.inl
    · rintro (h | ⟨hc, _⟩ | ⟨_, hc⟩)
      · exact h
      · exact absurd hc h1
      · exact absurd hc h2

/-- `UnionFind.union` keeps the invariant, only grows the key set, and
merges exactly the classes of its two arguments. -/
theorem union_spec (p : List (String × String)) (a b : String) (hinv : UFInv p) :
    UFInv (UnionFind.union p a b) ∧
    (∀ k, k ∈ pkeys p → k ∈ pkeys (UnionFind.union p a b)) ∧
    (∀ y z, sameRoot (UnionFind.union p a b) y z ↔
      (sameRoot p y z ∨ (sameRoot p y a ∧ sameRoot p b z) ∨
        (sameRoot p y b ∧ sameRoot p a z))) := by
  obtain ⟨hinv1, hiff1, hroota, hmemra, hkeys1⟩ := find_spec p a hinv
  obtain ⟨hinv2, hiff2, hrootb1, hmemrb, hkeys2⟩ := find_spec (UnionFind.find p a).1 b hinv1
  have hiff : ∀ y s, RootOf p y s ↔
      RootOf (UnionFind.find (UnionFind.find p a).1 b).1 y s :=
    fun y s => (hiff1 y s).trans (hiff2 y s)
  have hroota2 : RootOf (UnionFind.find (UnionFind.find p a).1 b).1 a
      (UnionFind.find p a).2 := (hiff a _).mp hroota
  have hrootb : RootOf p b (UnionFind.find (UnionFind.find p a).1 b).2 :=
    (hiff1 b _).mpr hrootb1
  have hrootb2 : RootOf (UnionFind.find (UnionFind.find p a).1 b).1 b
      (UnionFind.find (UnionFind.find p a).1 b).2 := (hiff b _).mp hrootb
  have hstepra : pstep (UnionFind.find (UnionFind.find p a).1 b).1
      (UnionFind.find p a).2 = (UnionFind.find p a).2 :=
    (((hiff _ _).mp (rootOf_self p _ hroota.2))).2
  have hsteprb : pstep (UnionFind.find (UnionFind.find p a).1 b).1
      (UnionFind.find (UnionFind.find p a).1 b).2 =
      (UnionFind.find (UnionFind.find p a).1 b).2 :=
    (((hiff2 _ _).mp (rootOf_self _ _ hrootb1.2))).2
  have hmemra2 : (UnionFind.find p a).2 ∈
      pkeys (UnionFind.find (UnionFind.find p a).1 b).1 := hkeys2 _ hmemra
  have hunf : UnionFind.union p a b =
      if (UnionFind.find p a).2 ≠ (UnionFind.find (UnionFind.find p a).1 b).2 then
        updateMap (UnionFind.find (UnionFind.find p a).1 b).1 (UnionFind.find p a).2
          (fun _ => (UnionFind.find (UnionFind.find p a).1 b).2)
      else (UnionFind.find (UnionFind.find p a).1 b).1 := rfl
  by_cases hrr : (UnionFind.find p a).2 = (UnionFind.find (UnionFind.find p a).1 b).2
  · rw [hunf, if_neg (fun h => h hrr)]
    refine ⟨hinv2, fun k hk => hkeys2 k (hkeys1 k hk), fun y z => ?_⟩
    rw [← sameRoot_congr p _ hiff y z]
    constructor
    · exact Or.inl
    · rintro (h | ⟨h1, h2⟩ | ⟨h1, h2⟩)
      · exact h
      · obtain ⟨ty, hy, ha⟩ := h1
        obtain ⟨tz, hb, hz⟩ := h2
        have e1 : ty = (UnionFind.find p a).2 := rootOf_unique p a ty _ ha hroota
        have e2 : tz = (UnionFind.find (UnionFind.find p a).1 b).2 :=
          rootOf_unique p b tz _ hb hrootb
        exact ⟨ty, hy, by rw [e1, hrr, ← e2]; exact hz⟩
      · obtain ⟨ty, hy, hb⟩ := h1
        obtain ⟨tz, ha, hz⟩ := h2
        have e1 : ty = (UnionFind.find (UnionFind.find p a).1 b).2 :=
          rootOf_unique p b ty _ hb hrootb
        have e2 : tz = (UnionFind.find p a).2 := rootOf_unique p a tz _ ha hroota
        exact ⟨ty, hy, by rw [e1, ← hrr, ← e2]; exact hz⟩
  · rw [hunf, if_pos hrr]
    have hchar := rootOf_union_update (UnionFind.find (UnionFind.find p a).1 b).1
      (UnionFind.find p a).2 (UnionFind.find (UnionFind.find p a).1 b).2
      hinv2 hstepra hsteprb hrr hmemra2
    have hnewroot : ∀ y ty, RootOf (UnionFind.find (UnionFind.find p a).1 b).1 y ty →
        RootOf (updateMap (UnionFind.find (UnionFind.find p a).1 b).1
            (UnionFind.find p a).2 (fun _ => (UnionFind.find (UnionFind.find p a).1 b).2)) y
          (if ty = (UnionFind.find p a).2 then (UnionFind.find (UnionFind.find p a).1 b).2
            else ty) := by
      intro y ty hty
      by_cases h : ty = (UnionFind.find p a).2
      · rw [if_pos h]
        exact (hchar y _).mpr (Or.inr ⟨h ▸ hty, rfl⟩)
      · rw [if_neg h]
        exact (hchar y _).mpr (Or.inl ⟨hty, h⟩)
    refine ⟨?_, ?_, ?_⟩
    · refine ⟨pclosed_updateMap _ _ _ hinv2.1 hmemrb, fun y => ?_⟩
      obtain ⟨ty, hty⟩ := hinv2.2 y
      exact ⟨_, hnewroot y ty hty⟩
    · intro k hk
      rw [pkeys_updateMap]
      exact hkeys2 k (hkeys1 k hk)
    · intro y z
      obtain ⟨ty, hty⟩ := hinv2.2 y
      obtain ⟨tz, htz⟩ := hinv2.2 z
      have hy0 : RootOf p y ty := (hiff y ty).mpr hty
      have hz0 : RootOf p z tz := (hiff z tz).mpr htz
      rw [sameRoot_char _ y z _ _ (hnewroot y ty hty) (hnewroot z tz htz)]
      rw [ite_root_eq]
      rw [sameRoot_char p y z ty tz hy0 hz0]
      rw [sameRoot_char p y a ty (UnionFind.find p a).2 hy0 hroota]
      rw [sameRoot_char p b z (UnionFind.find (UnionFind.find p a).1 b).2 tz hrootb hz0]
      rw [sameRoot_char p y b ty (UnionFind.find (UnionFind.find p a).1 b).2 hy0 hrootb]
      rw [sameRoot_char p a z (UnionFind.find p a).2 tz hroota hz0]
      constructor
      · rintro (h | ⟨h1, h2⟩ | ⟨h1, h2⟩)
        · exact Or.inl h
        · exact Or.inr (Or.inl ⟨h1, h2.symm⟩)
        · exact Or.inr (Or.inr ⟨h1, h2.symm⟩)
      · rintro (h | ⟨h1, h2⟩ | ⟨h1, h2⟩)
        · exact Or.inl h
        · exact Or.inr (Or.inl ⟨h1, h2.symm⟩)
        · exact Or.inr (Or.inr ⟨h1, h2.symm⟩)

/-- A relation extended by one ordered pair. -/
def relAdd (R : String → String → Prop) (a b : String) : String → String → Prop :=
  fun y z => R y z ∨ (y = a ∧ z = b)

/-- Equivalence closure is monotone. -/
theorem eqvGen_mono (R S : String → String → Prop) (h : ∀ x y, R x y → S x y)
    (y z : String) (hyz : Relation.EqvGen R y z) : Relation.EqvGen S y z := by
  induction hyz with
  | rel x w hxw => exact Relation.EqvGen.rel x w (h x w hxw)
  | refl x => exact Relation.EqvGen.refl x
  | symm x w _ ih => exact Relation.EqvGen.symm x w ih
  | trans x w v _ _ ih1 ih2 => exact Relation.EqvGen.trans x w v ih1 ih2

/-- Equivalence closure of a one-pair extension: connected as before,
or routed across the new `a`–`b` bridge. -/
theorem eqvGen_relAdd (R : String → String → Prop) (a b y z : String) :
    Relation.EqvGen (relAdd R a b) y z ↔
      (Relation.EqvGen R y z ∨
        (Relation.EqvGen R y a ∧ Relation.EqvGen R b z) ∨
        (Relation.EqvGen R y b ∧ Relation.EqvGen R a z)) := by
  constructor
  · intro h
    induction h with
    | rel x w hxw =>
      rcases hxw with h | ⟨h1, h2⟩
      · exact Or.inl (Relation.EqvGen.rel _ _ h)
      · subst h1
        subst h2
        exact Or.inr (Or.inl ⟨Relation.EqvGen.refl _, Relation.EqvGen.refl _⟩)
    | refl x => exact Or.inl (Relation.EqvGen.refl x)
    | symm x w _ ih =>
      rcases ih with h | ⟨h1, h2⟩ | ⟨h1, h2⟩
      · exact Or.inl (Relation.EqvGen.symm _ _ h)
      · exact Or.inr (Or.inr ⟨Relation.EqvGen.symm _ _ h2, Relation.EqvGen.symm _ _ h1⟩)
      · exact Or.inr (Or.inl ⟨Relation.EqvGen.symm _ _ h2, Relation.EqvGen.symm _ _ h1⟩)
    | trans x w v _ _ ih1 ih2 =>
      rcases ih1 with h | ⟨h1, h2⟩ | ⟨h1, h2⟩ <;> rcases ih2 with g | ⟨g1, g2⟩ | ⟨g1, g2⟩
      · exact Or.inl (Relation.EqvGen.trans _ _ _ h g)
      · exact Or.inr (Or.inl ⟨Relation.EqvGen.trans _ _ _ h g1, g2⟩)
      · exact Or.inr (Or.inr ⟨Relation.EqvGen.trans _ _ _ h g1, g2⟩)
      · exact Or.inr (Or.inl ⟨h1, Relation.EqvGen.trans _ _ _ h2 g⟩)
      · exact Or.inl (Relation.EqvGen.trans _ _ _ h1
          (Relation.EqvGen.trans _ _ _
            (Relation.EqvGen.symm _ _ (Relation.EqvGen.trans _ _ _ h2 g1)) g2))
      · exact Or.inl (Relation.EqvGen.trans _ _ _ h1 g2)
      · exact Or.inr (Or.inr ⟨h1, Relation.EqvGen.trans _ _ _ h2 g⟩)
      · exact Or.inl (Relation.EqvGen.trans _ _ _ h1 g2)
      · exact Or.inl (Relation.EqvGen.trans _ _ _ h1
          (Relation.EqvGen.trans _ _ _
            (Relation.EqvGen.symm _ _ (Relation.EqvGen.trans _ _ _ h2 g1)) g2))
  · have hmono := eqvGen_mono R (relAdd R a b) (fun x w h => Or.inl h)
    have hab : Relation.EqvGen (relAdd R a b) a b :=
      Relation.EqvGen.rel a b (Or.inr ⟨rfl, rfl⟩)
    rintro (h | ⟨h1, h2⟩ | ⟨h1, h2⟩)
    · exact hmono y z h
    · exact Relation.EqvGen.trans _ _ _
        (Relation.EqvGen.trans _ _ _ (hmono y a h1) hab) (hmono b z h2)
    · exact Relation.EqvGen.trans _ _ _
        (Relation.EqvGen.trans _ _ _ (hmono y b h1)
          (Relation.EqvGen.symm _ _ hab)) (hmono a z h2)

/-- Lookup in a dict after `setdefault(k, []).append(lb)`. -/
theorem alookup_dictAppend {K : Type} [DecidableEq K] (m : List (K × List String))
    (k k2 : K) (lb : String) :
    alookup (dictAppend m k lb) k2 =
      if k2 = k then some ((alookup m k).getD [] ++ [lb]) else alookup m k2 := by
  induction m with
  | nil =>
    rw [dictAppend]
    by_cases h : k2 = k
    · simp [alookup, h]
    · simp [alookup, h, Ne.symm h]
  | cons kv tl ih =>
    obtain ⟨k0, lbs⟩ := kv
    rw [dictAppend]
    by_cases h0 : k0 = k
    · rw [if_pos h0]
      subst h0
      by_cases h2 : k2 = k0
      · subst h2
        simp [alookup]
      · simp [alookup, h2, Ne.symm h2]
    · rw [if_neg h0]
      by_cases h2 : k0 = k2
      · have hk2k : ¬(k2 = k) := fun hc => h0 (h2.trans hc)
        simp [alookup, h2, hk2k]
      · simp only [alookup, if_neg h2]
        rw [ih]
        by_cases h3 : k2 = k
        · rw [if_pos h3, if_pos h3]
          simp only [alookup, if_neg h0]
        · rw [if_neg h3, if_neg h3]

/-- Membership in one dict bucket. -/
def dictMem {K : Type} [DecidableEq K] (m : List (K × List String)) (k : K)
    (lb : String) : Prop :=
  ∃ lbs, alookup m k = some lbs ∧ lb ∈ lbs

/-- Bucket membership after an append. -/
theorem dictMem_dictAppend {K : Type} [DecidableEq K] (m : List (K × List String))
    (k k2 : K) (lb lb2 : String) :
    dictMem (dictAppend m k lb) k2 lb2 ↔ (dictMem m k2 lb2 ∨ (k2 = k ∧ lb2 = lb)) := by
  constructor
  · rintro ⟨lbs, hl, hm⟩
    rw [alookup_dictAppend] at hl
    by_cases h : k2 = k
    · rw [if_pos h] at hl
      cases hl
      rcases List.mem_append.mp hm with h2 | h2
      · left
        cases ha : alookup m k with
        | none =>
          rw [ha, Option.getD_none] at h2
          exact absurd h2 (List.not_mem_nil _)
        | some l =>
          rw [ha, Option.getD_some] at h2
          exact ⟨l, by rw [h]; exact ha, h2⟩
      · right
        rw [List.mem_singleton] at h2
        exact ⟨h, h2⟩
    · rw [if_neg h] at hl
      exact Or.inl ⟨lbs, hl, hm⟩
  · rintro (⟨lbs, hl, hm⟩ | ⟨h1, h2⟩)
    · by_cases h : k2 = k
      · refine ⟨(alookup m k).getD [] ++ [lb], by rw [alookup_dictAppend, if_pos h], ?_⟩
        apply List.mem_append_left
        rw [h] at hl
        rw [hl, Option.getD_some]
        exact hm
      · exact ⟨lbs, by rw [alookup_dictAppend, if_neg h]; exact hl, hm⟩
    · subst h1
      subst h2
      exact ⟨(alookup m k2).getD [] ++ [lb2], by rw [alookup_dictAppend, if_pos rfl],
        List.mem_append_right _ (List.mem_singleton.mpr rfl)⟩

/-- Keys of a dict after an append. -/
theorem dictAppend_keys {K : Type} [DecidableEq K] (m : List (K × List String))
    (k : K) (lb : String) :
    (dictAppend m k lb).map Prod.fst =
      if k ∈ m.map Prod.fst then m.map Prod.fst else m.map Prod.fst ++ [k] := by
  induction m with
  | nil =>
    rw [dictAppend]
    simp
  | cons kv tl ih =>
    obtain ⟨k0, lbs⟩ := kv
    rw [dictAppend]
    by_cases h : k0 = k
    · rw [if_pos h]
      simp [h]
    · rw [if_neg h]
      simp only [List.map_cons]
      rw [ih]
      by_cases h2 : k ∈ tl.map Prod.fst
      · rw [if_pos h2, if_pos (List.mem_cons_of_mem _ h2)]
      · rw [if_neg h2, if_neg ?_]
        · rfl
        · intro hc
          rcases List.mem_cons.mp hc with hc | hc
          · exact h hc.symm
          · exact h2 hc

/-- Key distinctness survives appends. -/
theorem dictAppend_keys_nodup {K : Type} [DecidableEq K] (m : List (K × List String))
    (k : K) (lb : String) (h : (m.map Prod.fst).Nodup) :
    ((dictAppend m k lb).map Prod.fst).Nodup := by
  rw [dictAppend_keys]
  by_cases h2 : k ∈ m.map Prod.fst
  · rw [if_pos h2]
    exact h
  · rw [if_neg h2]
    refine List.Nodup.append h (List.nodup_singleton k) ?_
    intro x hx hk
    rw [List.mem_singleton] at hk
    subst hk
    exact h2 hx

/-- With distinct keys, membership determines the lookup. -/
theorem alookup_of_mem_nodup {K V : Type} [DecidableEq K] (m : List (K × V)) (e : K × V)
    (hnd : (m.map Prod.fst).Nodup) (he : e ∈ m) : alookup m e.1 = some e.2 := by
  induction m with
  | nil => exact absurd he (List.not_mem_nil e)
  | cons kv tl ih =>
    rw [List.map_cons] at hnd
    rcases List.mem_cons.mp he with h | h
    · subst h
      rw [alookup, if_pos rfl]
    · rw [alookup]
      have hne : kv.1 ≠ e.1 :=
        fun hc => (List.nodup_cons.mp hnd).1 (hc ▸ List.mem_map_of_mem Prod.fst h)
      rw [if_neg hne]
      exact ih (List.nodup_cons.mp hnd).2 h

/-- Appending to a bucket adds exactly one occurrence to the flattened
values. -/
theorem dictAppend_join_count {K : Type} [DecidableEq K] (m : List (K × List String))
    (k : K) (lb s : String) :
    ((dictAppend m k lb).map Prod.snd).flatten.count s =
      ((m.map Prod.snd).flatten.count s) + (if lb = s then 1 else 0) := by
  induction m with
  | nil =>
    rw [dictAppend]
    simp [List.count_cons]
  | cons kv tl ih =>
    obtain ⟨k0, lbs⟩ := kv
    rw [dictAppend]
    by_cases h : k0 = k
    · rw [if_pos h]
      simp only [List.map_cons, List.flatten_cons, List.count_append]
      have hc : List.count s [lb] = if lb = s then 1 else 0 := by
        simp [List.count_cons]
      omega
    · rw [if_neg h]
      simp only [List.map_cons, List.flatten_cons, List.count_append]
      rw [ih]
      omega

/-- In the empty union-find every node is its own class. -/
theorem sameRoot_nil (y z : String) : sameRoot [] y z ↔ y = z := by
  constructor
  · rintro ⟨r, h1, h2⟩
    have hy : r = y := rootOf_unique [] y r y h1 (rootOf_not_mem [] y (List.not_mem_nil y))
    have hz : r = z := rootOf_unique [] z r z h2 (rootOf_not_mem [] z (List.not_mem_nil z))
    rw [← hy, hz]
  · intro h
    subst h
    exact ⟨y, rootOf_not_mem [] y (List.not_mem_nil y), rootOf_not_mem [] y (List.not_mem_nil y)⟩

/-- `sameRoot` is reflexive under the invariant. -/
theorem sameRoot_refl (p : List (String × String)) (y : String) (hinv : UFInv p) :
    sameRoot p y y :=
  let ⟨r, h⟩ := hinv.2 y
  ⟨r, h, h⟩

/-- An empty dict has no bucket members. -/
theorem dictMem_nil {K : Type} [DecidableEq K] (k : K) (lb : String) :
    ¬ dictMem ([] : List (K × List String)) k lb := by
  rintro ⟨lbs, hl, _⟩
  exact Option.noConfusion hl

/-- Sharing a dependency is having a common dependency key. -/
theorem sharesDep_iff (l : List (String × List (String × String × String))) (y z : String) :
    sharesDep l y z ↔ ∃ k, hasDepKey l y k ∧ hasDepKey l z k := by
  constructor
  · rintro ⟨ey, hey, hy, ez, hez, hz, dy, hdy, dz, hdz, h1, h2⟩
    exact ⟨(dy.1, dy.2.1), ⟨ey, hey, hy, dy, hdy, rfl⟩,
      ⟨ez, hez, hz, dz, hdz, by rw [← h1, ← h2]⟩⟩
  · rintro ⟨k, ⟨ey, hey, hy, dy, hdy, hk1⟩, ⟨ez, hez, hz, dz, hdz, hk2⟩⟩
    have he : (dy.1, dy.2.1) = (dz.1, dz.2.1) := hk1.trans hk2.symm
    rw [Prod.mk.injEq] at he
    exact ⟨ey, hey, hy, ez, hez, hz, dy, hdy, dz, hdz, he.1, he.2⟩

/-- Bucket membership after recording one LB's dependency list. -/
theorem dictMem_addDeps :
    ∀ (deps : List (String × String × String)) (m : List ((String × String) × List String))
      (lb_name : String) (k : String × String) (lb2 : String),
      dictMem (addDeps m lb_name deps) k lb2 ↔
        (dictMem m k lb2 ∨ (lb2 = lb_name ∧ ∃ d ∈ deps, (d.1, d.2.1) = k))
  | [], m, lb_name, k, lb2 => by
    rw [addDeps]
    simp only [List.foldl_nil]
    constructor
    · exact Or.inl
    · rintro (h | ⟨_, d, hd, _⟩)
      · exact h
      · exact absurd hd (List.not_mem_nil d)
  | d :: rest, m, lb_name, k, lb2 => by
    have hunf : addDeps m lb_name (d :: rest) =
        addDeps (dictAppend m (d.1, d.2.1) lb_name) lb_name rest := rfl
    rw [hunf, dictMem_addDeps rest (dictAppend m (d.1, d.2.1) lb_name) lb_name k lb2,
      dictMem_dictAppend]
    constructor
    · rintro ((h | ⟨h1, h2⟩) | ⟨h1, h2⟩)
      · exact Or.inl h
      · exact Or.inr ⟨h2, d, List.mem_cons_self _ _, h1.symm⟩
      · obtain ⟨d2, hd2, he⟩ := h2
        exact Or.inr ⟨h1, d2, List.mem_cons_of_mem d hd2, he⟩
    · rintro (h | ⟨h1, d2, hd2, he⟩)
      · exact Or.inl (Or.inl h)
      · rcases List.mem_cons.mp hd2 with h2 | h2
        · subst h2
          exact Or.inl (Or.inr ⟨he.symm, h1⟩)
        · exact Or.inr ⟨h1, d2, h2, he⟩

/-- Key distinctness survives recording a dependency list. -/
theorem addDeps_keys_nodup :
    ∀ (deps : List (String × String × String)) (m : List ((String × String) × List String))
      (lb_name : String), (m.map Prod.fst).Nodup →
      ((addDeps m lb_name deps).map Prod.fst).Nodup
  | [], _, _, h => h
  | d :: rest, m, lb_name, h =>
    addDeps_keys_nodup rest (dictAppend m (d.1, d.2.1) lb_name) lb_name
      (dictAppend_keys_nodup m (d.1, d.2.1) lb_name h)

/-- Phase one of `cluster_batches`: the parent map keeps the invariant
and its classes, and `dep_to_lbs` records exactly the dependency keys
of the processed LBs. -/
theorem clusterPhase1_spec :
    ∀ (l : List (String × List (String × String × String))) (p : List (String × String))
      (m : List ((String × String) × List String)),
      UFInv p →
      UFInv (clusterPhase1 l p m).1 ∧
      (∀ y z, sameRoot (clusterPhase1 l p m).1 y z ↔ sameRoot p y z) ∧
      (∀ (k : String × String) (lb : String), dictMem (clusterPhase1 l p m).2 k lb ↔
        (dictMem m k lb ∨ ∃ e ∈ l, e.1 = lb ∧ ∃ d ∈ e.2, (d.1, d.2.1) = k)) ∧
      ((m.map Prod.fst).Nodup → (((clusterPhase1 l p m).2).map Prod.fst).Nodup)
  | [], p, m, hinv => by
    rw [clusterPhase1]
    refine ⟨hinv, fun y z => Iff.rfl, fun k lb => ?_, fun h => h⟩
    constructor
    · exact Or.inl
    · rintro (h | ⟨e, he, _⟩)
      · exact h
      · exact absurd he (List.not_mem_nil e)
  | (lb_name, deps) :: rest, p, m, hinv => by
    obtain ⟨hinv1, hiff1, _, _, _⟩ := find_spec p lb_name hinv
    obtain ⟨h1, h2, h3, h4⟩ := clusterPhase1_spec rest (UnionFind.find p lb_name).1
      (addDeps m lb_name deps) hinv1
    rw [clusterPhase1]
    refine ⟨h1, ?_, ?_, ?_⟩
    · intro y z
      rw [h2 y z]
      exact sameRoot_congr _ p (fun a s => (hiff1 a s).symm) y z
    · intro k lb2
      rw [h3 k lb2, dictMem_addDeps]
      constructor
      · rintro ((h | ⟨ha, hb⟩) | ⟨e, he, ha, hb⟩)
        · exact Or.inl h
        · exact Or.inr ⟨(lb_name, deps), List.mem_cons_self _ _, ha.symm, hb⟩
        · exact Or.inr ⟨e, List.mem_cons_of_mem _ he, ha, hb⟩
      · rintro (h | ⟨e, he, ha, hb⟩)
        · exact Or.inl (Or.inl h)
        · rcases List.mem_cons.mp he with h2 | h2
          · subst h2
            exact Or.inl (Or.inr ⟨ha.symm, hb⟩)
          · exact Or.inr ⟨e, h2, ha, hb⟩
    · intro hnd
      exact h4 (addDeps_keys_nodup deps m lb_name hnd)

/-- The inner union loop of phase two: every listed LB ends up in
`first`'s class, no class is ever split, and every merge is justified
by the generating relation. -/
theorem unionFold_spec (S : String → String → Prop) :
    ∀ (rest : List String) (p : List (String × String)) (first : String),
      UFInv p →
      (∀ y z, sameRoot p y z → Relation.EqvGen S y z) →
      (∀ lb ∈ rest, Relation.EqvGen S first lb) →
      UFInv (rest.foldl (fun acc lb => UnionFind.union acc first lb) p) ∧
      (∀ y z, sameRoot p y z →
        sameRoot (rest.foldl (fun acc lb => UnionFind.union acc first lb) p) y z) ∧
      (∀ lb ∈ rest,
        sameRoot (rest.foldl (fun acc lb => UnionFind.union acc first lb) p) first lb) ∧
      (∀ y z, sameRoot (rest.foldl (fun acc lb => UnionFind.union acc first lb) p) y z →
        Relation.EqvGen S y z)
  | [], p, first, hinv, hsound, _ => by
    simp only [List.foldl_nil]
    exact ⟨hinv, fun y z h => h, fun lb h => absurd h (List.not_mem_nil lb), hsound⟩
  | lb :: rest, p, first, hinv, hsound, hrel => by
    obtain ⟨hinv2, hkeys2, hchar⟩ := union_spec p first lb hinv
    have hsound2 : ∀ y z, sameRoot (UnionFind.union p first lb) y z →
        Relation.EqvGen S y z := by
      intro y z h
      rcases (hchar y z).mp h with h | ⟨h1, h2⟩ | ⟨h1, h2⟩
      · exact hsound y z h
      · exact Relation.EqvGen.trans _ _ _ (hsound y first h1)
          (Relation.EqvGen.trans _ _ _ (hrel lb (List.mem_cons_self _ _)) (hsound lb z h2))
      · exact Relation.EqvGen.trans _ _ _ (hsound y lb h1)
          (Relation.EqvGen.trans _ _ _
            (Relation.EqvGen.symm _ _ (hrel lb (List.mem_cons_self _ _))) (hsound first z h2))
    obtain ⟨g1, g2, g3, g4⟩ := unionFold_spec S rest (UnionFind.union p first lb) first hinv2
      hsound2 (fun lb2 h => hrel lb2 (List.mem_cons_of_mem _ h))
    rw [List.foldl_cons]
    refine ⟨g1, ?_, ?_, g4⟩
    · intro y z h
      exact g2 y z ((hchar y z).mpr (Or.inl h))
    · intro lb2 h2
      rcases List.mem_cons.mp h2 with h3 | h3
      · subst h3
        refine g2 first lb2 ((hchar first lb2).mpr
          (Or.inr (Or.inl ⟨sameRoot_refl p first hinv, sameRoot_refl p lb2 hinv⟩)))
      · exact g3 lb2 h3

/-- Phase two of `cluster_batches`: afterwards any two LBs listed under
a common dependency key share a root, no class is split, and every
merge traces back to the generating relation. -/
theorem clusterPhase2_spec (S : String → String → Prop) :
    ∀ (M : List ((String × String) × List String)) (p : List (String × String)),
      UFInv p →
      (∀ y z, sameRoot p y z → Relation.EqvGen S y z) →
      (∀ e ∈ M, ∀ u ∈ e.2, ∀ v ∈ e.2, S u v) →
      UFInv (clusterPhase2 M p) ∧
      (∀ y z, sameRoot p y z → sameRoot (clusterPhase2 M p) y z) ∧
      (∀ e ∈ M, ∀ u ∈ e.2, ∀ v ∈ e.2, sameRoot (clusterPhase2 M p) u v) ∧
      (∀ y z, sameRoot (clusterPhase2 M p) y z → Relation.EqvGen S y z)
  | [], p, hinv, hsound, _ => by
    rw [clusterPhase2]
    simp only [List.foldl_nil]
    exact ⟨hinv, fun y z h => h, fun e he => absurd he (List.not_mem_nil e), hsound⟩
  | (k, lbs) :: M, p, hinv, hsound, hrel => by
    cases lbs with
    | nil =>
      have h := clusterPhase2_spec S M p hinv hsound
        (fun e he => hrel e (List.mem_cons_of_mem _ he))
      refine ⟨h.1, h.2.1, ?_, h.2.2.2⟩
      intro e he u hu v hv
      rcases List.mem_cons.mp he with h2 | h2
      · subst h2
        exact absurd hu (List.not_mem_nil u)
      · exact h.2.2.1 e h2 u hu v hv
    | cons first rest =>
      have hfr : ∀ lb ∈ rest, Relation.EqvGen S first lb := fun lb h =>
        Relation.EqvGen.rel _ _ (hrel (k, first :: rest) (List.mem_cons_self _ _) first
          (List.mem_cons_self _ _) lb (List.mem_cons_of_mem _ h))
      obtain ⟨g1, g2, g3, g4⟩ := unionFold_spec S rest p first hinv hsound hfr
      have h := clusterPhase2_spec S M
        (rest.foldl (fun acc lb => UnionFind.union acc first lb) p) g1 g4
        (fun e he => hrel e (List.mem_cons_of_mem _ he))
      refine ⟨h.1, ?_, ?_, h.2.2.2⟩
      · intro y z hyz
        exact h.2.1 y z (g2 y z hyz)
      · intro e he u hu v hv
        rcases List.mem_cons.mp he with h2 | h2
        · subst h2
          have hu2 : sameRoot (rest.foldl (fun acc lb => UnionFind.union acc first lb) p)
              first u := by
            rcases List.mem_cons.mp hu with h3 | h3
            · subst h3
              exact sameRoot_refl _ u g1
            · exact g3 u h3
          have hv2 : sameRoot (rest.foldl (fun acc lb => UnionFind.union acc first lb) p)
              first v := by
            rcases List.mem_cons.mp hv with h3 | h3
            · subst h3
              exact sameRoot_refl _ v g1
            · exact g3 v h3
          obtain ⟨r1, ha, hb⟩ := hu2
          obtain ⟨r2, hc, hd⟩ := hv2
          have hr12 : r1 = r2 := rootOf_unique _ first r1 r2 ha hc
          exact h.2.1 u v ⟨r1, hb, hr12 ▸ hd⟩
        · exact h.2.2.1 e h2 u hu v hv

/-- Phase three of `cluster_batches`: `batch_map` gets distinct root
keys; a bucket holds exactly the processed LBs having that root; the
flattened buckets keep multiplicities. -/
theorem clusterPhase3_spec :
    ∀ (L : List String) (p : List (String × String)) (bm : List (String × List String)),
      UFInv p →
      ((bm.map Prod.fst).Nodup → (((clusterPhase3 L p bm).2).map Prod.fst).Nodup) ∧
      (∀ r lb, dictMem (clusterPhase3 L p bm).2 r lb ↔
        (dictMem bm r lb ∨ (lb ∈ L ∧ RootOf p lb r))) ∧
      (∀ s, (((clusterPhase3 L p bm).2).map Prod.snd).flatten.count s =
        ((bm.map Prod.snd).flatten.count s) + L.count s)
  | [], p, bm, _ => by
    rw [clusterPhase3]
    refine ⟨fun h => h, fun r lb => ?_, fun s => by rw [List.count_nil, Nat.add_zero]⟩
    constructor
    · exact Or.inl
    · rintro (h | ⟨h, _⟩)
      · exact h
      · exact absurd h (List.not_mem_nil lb)
  | lb :: L, p, bm, hinv => by
    obtain ⟨hinv1, hiff1, hroot1, _, _⟩ := find_spec p lb hinv
    obtain ⟨g1, g2, g3⟩ := clusterPhase3_spec L (UnionFind.find p lb).1
      (dictAppend bm (UnionFind.find p lb).2 lb) hinv1
    rw [clusterPhase3]
    refine ⟨?_, ?_, ?_⟩
    · intro hnd
      exact g1 (dictAppend_keys_nodup bm _ lb hnd)
    · intro r lb2
      rw [g2 r lb2, dictMem_dictAppend]
      constructor
      · rintro ((h | ⟨h1, h2⟩) | ⟨h1, h2⟩)
        · exact Or.inl h
        · subst h2
          refine Or.inr ⟨List.mem_cons_self _ _, ?_⟩
          rw [h1]
          exact hroot1
        · exact Or.inr ⟨List.mem_cons_of_mem _ h1, (hiff1 lb2 r).mpr h2⟩
      · rintro (h | ⟨h1, h2⟩)
        · exact Or.inl (Or.inl h)
        · rcases List.mem_cons.mp h1 with h3 | h3
          · subst h3
            exact Or.inl (Or.inr ⟨rootOf_unique p lb2 r _ h2 hroot1, rfl⟩)
          · exact Or.inr ⟨h3, (hiff1 lb2 r).mp h2⟩
    · intro s
      rw [g3 s, dictAppend_join_count, List.count_cons]
      simp only [beq_iff_eq]
      omega

/-- claim C1 (amended): `cluster_batches` partitions the input LB names
(the flattened batches are a permutation of them), and two input LBs
land in the same batch iff they are connected by a chain of
shared-dependency links — not iff they share a dependency directly, as
the claim words it (see the counterexample). -/
theorem claim_C1_cluster_batches (lb_deps : List (String × List (String × String × String))) :
    ((cluster_batches lb_deps).1).flatten.Perm (lb_deps.map Prod.fst) ∧
    (∀ y z, y ∈ lb_deps.map Prod.fst → z ∈ lb_deps.map Prod.fst →
      ((∃ batch ∈ (cluster_batches lb_deps).1, y ∈ batch ∧ z ∈ batch) ↔
        Relation.EqvGen (sharesDep lb_deps) y z)) := by
  obtain ⟨hinv1, hsr1, hchar1, hnd1⟩ := clusterPhase1_spec lb_deps [] [] ufInv_nil
  have hMnd : (((clusterPhase1 lb_deps [] []).2).map Prod.fst).Nodup := hnd1 List.nodup_nil
  have hcharM : ∀ (k : String × String) (lb : String),
      dictMem (clusterPhase1 lb_deps [] []).2 k lb ↔ hasDepKey lb_deps lb k := by
    intro k lb
    rw [hchar1 k lb]
    constructor
    · rintro (h | h)
      · exact absurd h (dictMem_nil k lb)
      · exact h
    · exact Or.inr
  have hpair : ∀ e ∈ (clusterPhase1 lb_deps [] []).2, ∀ u ∈ e.2, ∀ v ∈ e.2,
      sharesDep lb_deps u v := by
    intro e he u hu v hv
    have h1 : dictMem (clusterPhase1 lb_deps [] []).2 e.1 u :=
      ⟨e.2, alookup_of_mem_nodup _ e hMnd he, hu⟩
    have h2 : dictMem (clusterPhase1 lb_deps [] []).2 e.1 v :=
      ⟨e.2, alookup_of_mem_nodup _ e hMnd he, hv⟩
    rw [sharesDep_iff]
    exact ⟨e.1, (hcharM e.1 u).mp h1, (hcharM e.1 v).mp h2⟩
  have hsound0 : ∀ y z, sameRoot (clusterPhase1 lb_deps [] []).1 y z →
      Relation.EqvGen (sharesDep lb_deps) y z := by
    intro y z h
    rw [hsr1 y z, sameRoot_nil] at h
    subst h
    exact Relation.EqvGen.refl y
  obtain ⟨hinv2, hmono2, hbuck2, hsound2⟩ := clusterPhase2_spec (sharesDep lb_deps)
    (clusterPhase1 lb_deps [] []).2 (clusterPhase1 lb_deps [] []).1 hinv1 hsound0 hpair
  have hcomplete : ∀ y z, Relation.EqvGen (sharesDep lb_deps) y z →
      sameRoot (clusterPhase2 (clusterPhase1 lb_deps [] []).2
        (clusterPhase1 lb_deps [] []).1) y z := by
    intro y z h
    induction h with
    | rel u v huv =>
      rw [sharesDep_iff] at huv
      obtain ⟨k, h1, h2⟩ := huv
      obtain ⟨lbs1, hl1, hm1⟩ := (hcharM k u).mpr h1
      obtain ⟨lbs2, hl2, hm2⟩ := (hcharM k v).mpr h2
      have he12 : lbs1 = lbs2 := by
        rw [hl1] at hl2
        exact Option.some.inj hl2
      have hmem : (k, lbs1) ∈ (clusterPhase1 lb_deps [] []).2 := alookup_mem _ k lbs1 hl1
      exact hbuck2 (k, lbs1) hmem u hm1 v (he12 ▸ hm2)
    | refl u => exact sameRoot_refl _ u hinv2
    | symm u v _ ih =>
      obtain ⟨r, ha, hb⟩ := ih
      exact ⟨r, hb, ha⟩
    | trans u v w _ _ ih1 ih2 =>
      obtain ⟨r1, ha, hb⟩ := ih1
      obtain ⟨r2, hc, hd⟩ := ih2
      exact ⟨r1, ha, (rootOf_unique _ v r1 r2 hb hc) ▸ hd⟩
  obtain ⟨k1, k2, k3⟩ := clusterPhase3_spec (lb_deps.map Prod.fst)
    (clusterPhase2 (clusterPhase1 lb_deps [] []).2 (clusterPhase1 lb_deps [] []).1) [] hinv2
  have hunf1 : (cluster_batches lb_deps).1 =
      ((clusterPhase3 (lb_deps.map Prod.fst)
        (clusterPhase2 (clusterPhase1 lb_deps [] []).2
          (clusterPhase1 lb_deps [] []).1) []).2).map Prod.snd := rfl
  have hbmnd : (((clusterPhase3 (lb_deps.map Prod.fst)
      (clusterPhase2 (clusterPhase1 lb_deps [] []).2
        (clusterPhase1 lb_deps [] []).1) []).2).map Prod.fst).Nodup := k1 List.nodup_nil
  constructor
  · rw [hunf1]
    refine List.perm_iff_count.mpr ?_
    intro s
    have hcount := k3 s
    simpa using hcount
  · intro y z hy hz
    constructor
    · rintro ⟨batch, hbm, hyb, hzb⟩
      rw [hunf1] at hbm
      obtain ⟨e, he, hes⟩ := List.mem_map.mp hbm
      have h1 : dictMem (clusterPhase3 (lb_deps.map Prod.fst)
          (clusterPhase2 (clusterPhase1 lb_deps [] []).2
            (clusterPhase1 lb_deps [] []).1) []).2 e.1 y :=
        ⟨e.2, alookup_of_mem_nodup _ e hbmnd he, by rw [hes]; exact hyb⟩
      have h2 : dictMem (clusterPhase3 (lb_deps.map Prod.fst)
          (clusterPhase2 (clusterPhase1 lb_deps [] []).2
            (clusterPhase1 lb_deps [] []).1) []).2 e.1 z :=
        ⟨e.2, alookup_of_mem_nodup _ e hbmnd he, by rw [hes]; exact hzb⟩
      rcases (k2 e.1 y).mp h1 with h | ⟨_, hroy⟩
      · exact absurd h (dictMem_nil e.1 y)
      rcases (k2 e.1 z).mp h2 with h | ⟨_, hroz⟩
      · exact absurd h (dictMem_nil e.1 z)
      exact hsound2 y z ⟨e.1, hroy, hroz⟩
    · intro h
      obtain ⟨r, hry, hrz⟩ := hcomplete y z h
      obtain ⟨lbs1, hl1, hm1⟩ := (k2 r y).mpr (Or.inr ⟨hy, hry⟩)
      obtain ⟨lbs2, hl2, hm2⟩ := (k2 r z).mpr (Or.inr ⟨hz, hrz⟩)
      have he12 : lbs1 = lbs2 := by
        rw [hl1] at hl2
        exact Option.some.inj hl2
      refine ⟨lbs1, ?_, hm1, he12 ▸ hm2⟩
      rw [hunf1]
      exact List.mem_map_of_mem Prod.snd (alookup_mem _ r lbs1 hl1)
